import Mathlib

/-!
# A staged pipeline engine (temirov/pipeline)

Shallow embedding of `pipeline.go` and of the stages shipped with it
(`integration_test.go`, `examples/ls/steps`).

* The result envelope `StepResult` and `ToStepResult` are embedded as written.
* A stage's `Process` is embedded as a sequential program over the only
  operations the goroutine of a stage performs on the outside world: receive
  from its input channel, send on its output channel (alone or inside a
  `select` with `executionContext.Done()`), access the shared pipeline context
  and return.
* The adapters built by `NewPipelineBuilder` and `AppendStep` are functions on
  an explicit runtime (channels and goroutines); `Pipeline.Execute` is a
  goroutine of its own.  Concurrency is an interleaving semantics: `Net.step`
  fires one event (one step of `Execute`, one step of a stage goroutine, or the
  cancellation of the execution context).
* Go slices (`make`, `copy`, `append`) are embedded over a heap of backing
  arrays, to state what `AppendStep` does to the builder it is given.
-/

universe u

namespace PipelineGo

/-! ## Values of the Go program -/

/-- Go `error` values: an error made from a message (`errors.New`, `fmt.Errorf`,
the errors of the standard library), identified by its message, or the error of
the execution context. -/
inductive GoError where
  | msg (text : String)
  | ofContext
  deriving DecidableEq, Repr

/-- A message read as the error made from it. -/
instance : Coe String GoError := ⟨GoError.msg⟩

/-- The Go types that instantiate the type parameters of stages. -/
inductive GoType where
  | anyT
  | stringT
  | dirEntryT
  | named (n : String)
  deriving DecidableEq, Repr

/-- The constant `defaultBufferSize` of `pipeline.go`. -/
def defaultBufferSize : Nat := 100

/-- The struct `StepResult[OutputType]`; the defaults are Go's zero values. -/
structure StepResult (α : Type) where
  Item : α
  IsSkipped : Bool := false
  Error : Option GoError := none
  ShouldExit : Bool := false
  ExitReason : String := ""
  deriving DecidableEq, Repr

/-- The function `ToStepResult`: the struct literal `StepResult[ItemType]{Item: item}`. -/
def ToStepResult {α : Type} (item : α) : StepResult α :=
  { Item := item }

/-- The error `executionContext.Err()` of a context whose `Done` channel is closed:
`context.Canceled` when its `CancelFunc` was called, `context.DeadlineExceeded`
when its deadline passed. -/
def ctxErr : GoError := GoError.ofContext

/-! ## Stages -/

/-- One operation of a stage's `Process`, with the states it continues in.
* `recv k`: `v, ok := <-inputChannel` (also one iteration test of
  `for v := range inputChannel`); `k none` when the channel is closed and empty;
* `selectSend r onDone onSent`:
  `select { case <-executionContext.Done(): onDone; case outputChannel <- r: onSent }`;
* `send r k`: `outputChannel <- r` outside a `select`;
* `withCtx f`: a read or write of the shared pipeline context;
* `print line k`: `fmt.Println(line)`;
* `ret e`: `return e`.

These are the operations of the stages of this repository.  A stage does not
close `outputChannel`: the adapter that started it does, after `Process` has
returned (a stage that closed it would make that `close` panic). -/
inductive Instr (Val Ctx σ : Type) where
  | recv (k : Option (StepResult Val) → σ)
  | selectSend (r : StepResult Val) (onDone : σ) (onSent : σ)
  | send (r : StepResult Val) (k : σ)
  | withCtx (f : Ctx → Ctx × σ)
  | print (line : String) (k : σ)
  | ret (e : Option GoError)

/-- The interface `Step[InputType, OutputType, ContextType]`: `Name()` and
`Process`, the latter as a program over the states `σ` started in `init`. -/
structure Step (Val Ctx : Type) (In Out : GoType) where
  Name : String
  σ : Type
  init : σ
  Process : σ → Instr Val Ctx σ

/-! ## The runtime: channels and goroutines -/

/-- Where the goroutine of a stage is: inside `Process`, between the return of
`Process` and `close(outputChannel)`, or finished. -/
inductive Status (σ : Type) where
  | running (s : σ)
  | returned (e : Option GoError)
  | done

/-- The goroutine an adapter starts with `go func() { ... }()`. -/
structure Task (Val Ctx : Type) where
  name : String
  σ : Type
  code : σ → Instr Val Ctx σ
  status : Status σ
  input : Option Nat
  output : Nat

/-- A buffered channel of `StepResult`s: element type, capacity, queue, and the
number of times `close` has been called on it. -/
structure Chan (Val : Type) where
  elemType : GoType
  cap : Nat
  buf : List (StepResult Val)
  closes : Nat

/-- A channel is closed once `close` has been called on it. -/
def Chan.closed {Val : Type} (c : Chan Val) : Bool :=
  decide (0 < c.closes)

/-- The channels allocated and the goroutines started so far. -/
structure Runtime (Val Ctx : Type) where
  chans : List (Chan Val)
  tasks : List (Task Val Ctx)

/-- A value of Go type `any` as the adapters exchange them: `nil`, or a channel
of `StepResult[elem]`. -/
inductive Handle where
  | nil
  | chan (elem : GoType) (id : Nat)
  deriving DecidableEq, Repr

/-- What an adapter returns: `(any, error)`, and the runtime it leaves. -/
structure AdapterResult (Val Ctx : Type) where
  rt : Runtime Val Ctx
  output : Handle
  err : Option GoError

/-- The element type of the slice `stepFunctions`:
`func(executionContext, inputData any, pipelineContext) (any, error)`. -/
abbrev StepFunction (Val Ctx : Type) := Handle → Runtime Val Ctx → AdapterResult Val Ctx

/-- Builtin `make(chan StepResult[elem], cap)`: a fresh channel and its identity. -/
def Runtime.makeChan {Val Ctx : Type} (rt : Runtime Val Ctx) (elem : GoType) (cap : Nat) :
    Runtime Val Ctx × Nat :=
  ({ rt with chans := rt.chans ++ [{ elemType := elem, cap := cap, buf := [], closes := 0 }] },
    rt.chans.length)

/-- The statement `go func() { _ = step.Process(...); close(outputChannel) }()`. -/
def Runtime.go {Val Ctx : Type} {In Out : GoType} (rt : Runtime Val Ctx)
    (step : Step Val Ctx In Out) (input : Option Nat) (output : Nat) : Runtime Val Ctx :=
  { rt with tasks := rt.tasks ++ [{ name := step.Name, σ := step.σ, code := step.Process,
                                    status := Status.running step.init,
                                    input := input, output := output }] }

/-! ## The builder (`pipeline.go`) -/

/-- The struct `PipelineBuilder[ContextType, CurrentOutputType]`. -/
structure PipelineBuilder (Val Ctx : Type) (Cur : GoType) where
  stepFunctions : List (StepFunction Val Ctx)

/-- The struct `Pipeline[ContextType, FinalOutputType]`. -/
structure Pipeline (Val Ctx : Type) (Final : GoType) where
  stepFunctions : List (StepFunction Val Ctx)

/-- The closure `wrappedSourceFunction` of `NewPipelineBuilder`. -/
def wrappedSourceFunction {Val Ctx : Type} {Out : GoType}
    (sourceStep : Step Val Ctx GoType.anyT Out) : StepFunction Val Ctx :=
  fun _ignoredInput rt =>
    let (rt1, outputChannel) := rt.makeChan Out defaultBufferSize
    let rt2 := rt1.go sourceStep none outputChannel
    { rt := rt2, output := Handle.chan Out outputChannel, err := none }

/-- The function `NewPipelineBuilder`. -/
def NewPipelineBuilder {Val Ctx : Type} {Out : GoType}
    (sourceStep : Step Val Ctx GoType.anyT Out) : PipelineBuilder Val Ctx Out :=
  { stepFunctions := [wrappedSourceFunction sourceStep] }

/-- The closure `wrappedTransformationFunction` of `AppendStep`; the type
assertion `inputData.(chan StepResult[CurrentOutputType])` succeeds on a
channel handle of exactly that element type. -/
def wrappedTransformationFunction {Val Ctx : Type} {Cur New : GoType}
    (transformationStep : Step Val Ctx Cur New) : StepFunction Val Ctx :=
  fun inputData rt =>
    match inputData with
    | Handle.chan elem typedInputChannel =>
      if elem = Cur then
        let (rt1, outputChannel) := rt.makeChan New defaultBufferSize
        let rt2 := rt1.go transformationStep (some typedInputChannel) outputChannel
        { rt := rt2, output := Handle.chan New outputChannel, err := none }
      else
        { rt := rt, output := Handle.nil,
          err := some (GoError.msg ("invalid input type for step " ++ transformationStep.Name)) }
    | Handle.nil =>
      { rt := rt, output := Handle.nil,
        err := some (GoError.msg ("invalid input type for step " ++ transformationStep.Name)) }

/-- The function `AppendStep`, on slice contents: a fresh slice holding the
builder's adapters followed by the new one. -/
def AppendStep {Val Ctx : Type} {Cur New : GoType} (builder : PipelineBuilder Val Ctx Cur)
    (transformationStep : Step Val Ctx Cur New) : PipelineBuilder Val Ctx New :=
  { stepFunctions := builder.stepFunctions ++ [wrappedTransformationFunction transformationStep] }

/-- The method `PipelineBuilder.Build`. -/
def PipelineBuilder.Build {Val Ctx : Type} {Final : GoType}
    (builder : PipelineBuilder Val Ctx Final) : Pipeline Val Ctx Final :=
  { stepFunctions := builder.stepFunctions }

/-! ## Slices in memory

`AppendStep` builds its result with `make`, `copy` and `append`.  To state what
that does to the builder it was given, slices are embedded over a heap of
backing arrays. -/

/-- A slice header: backing array, length, capacity (every slice of this program
starts at offset 0 of its array). -/
structure Slice where
  array : Nat
  len : Nat
  cap : Nat
  deriving DecidableEq, Repr

/-- The backing arrays allocated so far; a cell holds `none` for the zero value
(a nil func). -/
structure Heap (α : Type u) where
  arrays : List (List (Option α))

/-- The elements a slice shows. -/
def Heap.read {α : Type u} (h : Heap α) (s : Slice) : List (Option α) :=
  ((h.arrays[s.array]?).getD []).take s.len

/-- A slice header that points into the heap. -/
def Heap.Valid {α : Type u} (h : Heap α) (s : Slice) : Prop :=
  s.len ≤ s.cap ∧ ∃ a, h.arrays[s.array]? = some a ∧ a.length = s.cap

/-- Builtin `make([]T, n)`: a fresh array of `n` zero values. -/
def goMake {α : Type u} (h : Heap α) (n : Nat) : Heap α × Slice :=
  ({ arrays := h.arrays ++ [List.replicate n none] },
    { array := h.arrays.length, len := n, cap := n })

/-- A slice literal `[]T{x}`: a fresh array holding `x`. -/
def goLiteral {α : Type u} (h : Heap α) (x : α) : Heap α × Slice :=
  ({ arrays := h.arrays ++ [[some x]] }, { array := h.arrays.length, len := 1, cap := 1 })

/-- Builtin `copy(dst, src)`: overwrites the first `min(len(dst), len(src))`
cells of the array of `dst`. -/
def goCopy {α : Type u} (h : Heap α) (dst src : Slice) : Heap α :=
  let n := min dst.len src.len
  let elems := (h.read src).take n
  { arrays := h.arrays.modify (fun a => elems ++ a.drop n) dst.array }

/-- Builtin `append(s, x)`: in place when the capacity allows, else into a fresh
array whose capacity the runtime chooses (`grow`, at least one more cell). -/
def goAppend {α : Type u} (grow : Nat → Nat) (h : Heap α) (s : Slice) (x : α) : Heap α × Slice :=
  if s.len < s.cap then
    ({ arrays := h.arrays.modify (fun a => a.set s.len (some x)) s.array },
      { s with len := s.len + 1 })
  else
    let newCap := max (grow s.cap) (s.len + 1)
    ({ arrays := h.arrays ++ [h.read s ++ [some x] ++ List.replicate (newCap - (s.len + 1)) none] },
      { array := h.arrays.length, len := s.len + 1, cap := newCap })

/-- The struct `PipelineBuilder` in memory: its field is a slice header. -/
structure BuilderMem where
  stepFunctions : Slice
  deriving DecidableEq, Repr

/-- The struct `Pipeline` in memory. -/
structure PipelineMem where
  stepFunctions : Slice
  deriving DecidableEq, Repr

/-- The function `NewPipelineBuilder` in memory. -/
def NewPipelineBuilderMem {Val Ctx : Type} {Out : GoType} (h : Heap (StepFunction Val Ctx))
    (sourceStep : Step Val Ctx GoType.anyT Out) : Heap (StepFunction Val Ctx) × BuilderMem :=
  let (h1, s) := goLiteral h (wrappedSourceFunction sourceStep)
  (h1, { stepFunctions := s })

/-- The function `AppendStep` in memory, statement by statement:
`make(..., len(builder.stepFunctions))`, `copy`, `append`. -/
def AppendStepMem {Val Ctx : Type} {Cur New : GoType} (grow : Nat → Nat)
    (h : Heap (StepFunction Val Ctx)) (builder : BuilderMem)
    (transformationStep : Step Val Ctx Cur New) : Heap (StepFunction Val Ctx) × BuilderMem :=
  let (h1, newStepFunctions) := goMake h builder.stepFunctions.len
  let h2 := goCopy h1 newStepFunctions builder.stepFunctions
  let (h3, newStepFunctions1) :=
    goAppend grow h2 newStepFunctions (wrappedTransformationFunction transformationStep)
  (h3, { stepFunctions := newStepFunctions1 })

/-- The method `Build` in memory: the pipeline shares the builder's slice. -/
def BuildMem (builder : BuilderMem) : PipelineMem :=
  { stepFunctions := builder.stepFunctions }

/-! ## Execution

`Execute` and the goroutines of the stages run interleaved.  A `Net` is the
state of one execution; `Net.step` fires one event. -/

/-- One call of an adapter by `Execute` (history variable). -/
structure Call where
  input : Handle
  output : Handle
  err : Option GoError
  deriving DecidableEq, Repr

/-- Where the goroutine running `Execute` is: in the loop over `stepFunctions`
(or at the type assertion after it, when `rest` is empty), in the drain loop, or
returned. -/
inductive Main (Val Ctx : Type) where
  | walking (rest : List (StepFunction Val Ctx)) (currentOutput : Handle)
  | draining (finalOutputChannel : Nat)
  | returned (e : Option GoError)

/-- The state of one execution.  `calls`, `drained` and `stdout` only record
history: the adapters called, the items the drain loop has read, the lines printed. -/
structure Net (Val Ctx : Type) where
  rt : Runtime Val Ctx
  pipelineContext : Ctx
  cancelled : Bool
  finalType : GoType
  main : Main Val Ctx
  calls : List Call
  drained : List (StepResult Val)
  stdout : List String

/-- The events of an execution: a step of `Execute`, a step of goroutine `i`
(`takeDone` chooses the `Done` case of a `select`), the cancellation of the
execution context. -/
inductive Event where
  | main
  | task (i : Nat) (takeDone : Bool)
  | cancel
  deriving DecidableEq, Repr

/-- The method `Pipeline.Execute`, at its entry: no channel, no goroutine,
`currentOutput = nil`. -/
def Pipeline.Execute {Val Ctx : Type} {Final : GoType}
    (pipelineInstance : Pipeline Val Ctx Final) (pipelineContext : Ctx) : Net Val Ctx :=
  { rt := { chans := [], tasks := [] }, pipelineContext := pipelineContext, cancelled := false,
    finalType := Final, main := Main.walking pipelineInstance.stepFunctions Handle.nil,
    calls := [], drained := [], stdout := [] }

/-- Replace channel `ch`. -/
def Runtime.setChan {Val Ctx : Type} (rt : Runtime Val Ctx) (ch : Nat) (c : Chan Val) :
    Runtime Val Ctx :=
  { rt with chans := rt.chans.set ch c }

/-- Replace goroutine `i`. -/
def Runtime.setTask {Val Ctx : Type} (rt : Runtime Val Ctx) (i : Nat) (t : Task Val Ctx) :
    Runtime Val Ctx :=
  { rt with tasks := rt.tasks.set i t }

/-- One step of `Execute`: one iteration of the loop over `stepFunctions`, the
type assertion on the final output, one iteration of the drain loop (blocked,
`none`, while the channel is empty and open), or the return after it. -/
def Net.stepMain {Val Ctx : Type} (n : Net Val Ctx) : Option (Net Val Ctx) :=
  match n.main with
  | Main.walking (stepFunction :: rest) currentOutput =>
    let r := stepFunction currentOutput n.rt
    let call : Call := { input := currentOutput, output := r.output, err := r.err }
    match r.err with
    | some functionError =>
      some { n with rt := r.rt, main := Main.returned (some functionError),
                    calls := n.calls ++ [call] }
    | none =>
      some { n with rt := r.rt, main := Main.walking rest r.output, calls := n.calls ++ [call] }
  | Main.walking [] currentOutput =>
    match currentOutput with
    | Handle.chan elem finalOutputChannel =>
      if elem = n.finalType then some { n with main := Main.draining finalOutputChannel }
      else some { n with main := Main.returned (some "unexpected final output type") }
    | Handle.nil => some { n with main := Main.returned (some "unexpected final output type") }
  | Main.draining finalOutputChannel =>
    match n.rt.chans[finalOutputChannel]? with
    | none => none
    | some c =>
      match c.buf with
      | x :: xs =>
        some { n with rt := n.rt.setChan finalOutputChannel { c with buf := xs },
                      drained := n.drained ++ [x] }
      | [] => if c.closed then some { n with main := Main.returned none } else none
  | Main.returned _ => none

/-- Goroutine `i` moves to `status`. -/
def Net.setStatus {Val Ctx : Type} (n : Net Val Ctx) (i : Nat) (t : Task Val Ctx)
    (status : Status t.σ) : Net Val Ctx :=
  { n with rt := n.rt.setTask i { t with status := status } }

/-- A send of `r` on the output channel of goroutine `i`: possible while the
buffer has room (a send on a closed channel panics: no step). -/
def Net.trySend {Val Ctx : Type} (n : Net Val Ctx) (i : Nat) (t : Task Val Ctx)
    (r : StepResult Val) (next : t.σ) : Option (Net Val Ctx) :=
  match n.rt.chans[t.output]? with
  | none => none
  | some c =>
    if c.closed then none
    else if c.buf.length < c.cap then
      some ({ n with rt := n.rt.setChan t.output { c with buf := c.buf ++ [r] } }.setStatus i t
        (Status.running next))
    else none

/-- A receive on the input channel of goroutine `i`: an item when the buffer
holds one, `none` when the channel is closed and empty; blocked otherwise, and
for ever on a nil channel. -/
def Net.tryRecv {Val Ctx : Type} (n : Net Val Ctx) (i : Nat) (t : Task Val Ctx)
    (k : Option (StepResult Val) → t.σ) : Option (Net Val Ctx) :=
  match t.input with
  | none => none
  | some ch =>
    match n.rt.chans[ch]? with
    | none => none
    | some c =>
      match c.buf with
      | x :: xs =>
        some ({ n with rt := n.rt.setChan ch { c with buf := xs } }.setStatus i t
          (Status.running (k (some x))))
      | [] => if c.closed then some (n.setStatus i t (Status.running (k none))) else none

/-- One step of goroutine `i`: the next operation of `Process`, or, once
`Process` has returned, `close(outputChannel)`. -/
def Net.stepTask {Val Ctx : Type} (n : Net Val Ctx) (i : Nat) (takeDone : Bool) :
    Option (Net Val Ctx) :=
  match n.rt.tasks[i]? with
  | none => none
  | some t =>
    match t.status with
    | Status.done => none
    | Status.returned _ =>
      match n.rt.chans[t.output]? with
      | none => none
      | some c =>
        some ({ n with rt := n.rt.setChan t.output { c with closes := c.closes + 1 } }.setStatus i t
          Status.done)
    | Status.running s =>
      match t.code s with
      | Instr.ret e => some (n.setStatus i t (Status.returned e))
      | Instr.withCtx f =>
        some ({ n with pipelineContext := (f n.pipelineContext).1 }.setStatus i t
          (Status.running (f n.pipelineContext).2))
      | Instr.print line k =>
        some ({ n with stdout := n.stdout ++ [line] }.setStatus i t (Status.running k))
      | Instr.recv k => n.tryRecv i t k
      | Instr.send r k => n.trySend i t r k
      | Instr.selectSend r onDone onSent =>
        if takeDone then
          if n.cancelled then some (n.setStatus i t (Status.running onDone)) else none
        else n.trySend i t r onSent

/-- One event. -/
def Net.step {Val Ctx : Type} (n : Net Val Ctx) : Event → Option (Net Val Ctx)
  | Event.main => n.stepMain
  | Event.task i takeDone => n.stepTask i takeDone
  | Event.cancel => if n.cancelled then none else some { n with cancelled := true }

/-- A schedule: the events fired one after the other. -/
def Net.run {Val Ctx : Type} (n : Net Val Ctx) : List Event → Option (Net Val Ctx)
  | [] => some n
  | e :: es => (n.step e).bind (fun n1 => n1.run es)

/-- The states an execution gets to. -/
def Net.Reaches {Val Ctx : Type} (n n1 : Net Val Ctx) : Prop :=
  ∃ es : List Event, n.run es = some n1

/-- What `Execute` has returned, if it has. -/
def Main.result {Val Ctx : Type} : Main Val Ctx → Option (Option GoError)
  | Main.returned e => some e
  | _ => none

/-- On every schedule, the execution gets to a state where `P` holds: `P` holds
now, or some event can fire and `P` is inevitable after every event that can. -/
inductive Inevitably {Val Ctx : Type} (P : Net Val Ctx → Prop) : Net Val Ctx → Prop where
  | now {n : Net Val Ctx} : P n → Inevitably P n
  | later {n : Net Val Ctx} : (∃ e n1, n.step e = some n1) →
      (∀ e n1, n.step e = some n1 → Inevitably P n1) → Inevitably P n

/-! ## Pipelines built through the public API -/

/-- A chain of calls `NewPipelineBuilder(source)`, `AppendStep(_, s₁)`, ... -/
inductive Chain (Val Ctx : Type) : GoType → Type 1 where
  | source {Out : GoType} (s : Step Val Ctx GoType.anyT Out) : Chain Val Ctx Out
  | append {Cur New : GoType} (c : Chain Val Ctx Cur) (s : Step Val Ctx Cur New) :
      Chain Val Ctx New

/-- The builder a chain of calls returns. -/
def Chain.builder {Val Ctx : Type} : {T : GoType} → Chain Val Ctx T → PipelineBuilder Val Ctx T
  | _, Chain.source s => NewPipelineBuilder s
  | _, Chain.append c s => AppendStep c.builder s

/-- A stage with its declared input and output types. -/
structure AnyStep (Val Ctx : Type) where
  inT : GoType
  outT : GoType
  step : Step Val Ctx inT outT

/-- The stages of a chain, source first. -/
def Chain.stages {Val Ctx : Type} : {T : GoType} → Chain Val Ctx T → List (AnyStep Val Ctx)
  | _, Chain.source s => [{ inT := GoType.anyT, outT := _, step := s }]
  | _, Chain.append c s => c.stages ++ [{ inT := _, outT := _, step := s }]

/-! ## The shipped stages

`integration_test.go` (`HelloWorld`) and `examples/ls/steps`.  What a stage
reads from the operating system (`os.Args`, `os.Stat`, `os.ReadDir`) is a
parameter of its embedding. -/

/-- The interface `os.DirEntry`; the stages call `Name()` only. -/
structure DirEntry where
  Name : String
  deriving DecidableEq, Repr

/-- The items of the shipped stages: strings and directory entries. -/
inductive GoValue where
  | str (s : String)
  | entry (e : DirEntry)
  deriving DecidableEq, Repr

/-- The call `fileEntry.Name()`; on an item of type `string`, the string. -/
def GoValue.Name : GoValue → String
  | GoValue.entry e => e.Name
  | GoValue.str s => s

/-- The struct `TestContext` of `integration_test.go`. -/
structure TestContext where
  Value : String
  deriving DecidableEq, Repr

/-- The struct `LsContext`; the stages share one through a pointer. -/
structure LsContext where
  Wildcard : String
  deriving DecidableEq, Repr

/-- Program points of `HelloWorld.Process`. -/
inductive HelloWorldPc where
  | start
  | cancelled
  | sent
  deriving DecidableEq, Repr

/-- The method `HelloWorld.Hi`. -/
def HelloWorld.Hi : String := "Hi, World!"

/-- The stage `HelloWorld` made by `NewHelloWorldSource`. -/
def NewHelloWorldSource : Step GoValue TestContext GoType.anyT GoType.stringT :=
  { Name := "HelloWorldSource"
    σ := HelloWorldPc
    init := HelloWorldPc.start
    Process := fun pc =>
      match pc with
      | HelloWorldPc.start =>
        Instr.selectSend (ToStepResult (GoValue.str HelloWorld.Hi))
          HelloWorldPc.cancelled HelloWorldPc.sent
      | HelloWorldPc.cancelled => Instr.ret (some ctxErr)
      | HelloWorldPc.sent => Instr.ret none }

/-- Go's `strings.ContainsAny`. -/
def containsAny (s chars : String) : Bool :=
  s.data.any (fun c => chars.data.contains c)

/-- The scan of Go's `filepath.Ext` (Unix), over the path read backwards. -/
def filepathExtScan : List Char → List Char → List Char
  | [], _ => []
  | c :: rest, acc =>
    if c = '/' then [] else if c = '.' then '.' :: acc else filepathExtScan rest (c :: acc)

/-- Go's `filepath.Ext`: the suffix from the final dot of the final element. -/
def filepathExt (path : String) : String :=
  String.mk (filepathExtScan path.data.reverse [])

/-- The wildcard `ParseArgumentsStep.Process` writes to the context, from
`os.Args` and from whether `os.Stat` finds a file that is not a directory. -/
def parseWildcard (osArgs : List String) (statIsFile : String → Bool) : String :=
  match osArgs with
  | _ :: rawArgument :: _ =>
    if containsAny rawArgument "*?[" then rawArgument
    else if statIsFile rawArgument then
      let extension := filepathExt rawArgument
      if extension ≠ "" then "*" ++ extension else rawArgument
    else rawArgument
  | _ => "*"

/-- Program points of `ParseArgumentsStep.Process`. -/
inductive ParseArgumentsPc where
  | start
  | sending
  | cancelled
  | sent
  deriving DecidableEq, Repr

/-- The stage `ParseArgumentsStep`. -/
def NewParseArgumentsStep (osArgs : List String) (statIsFile : String → Bool) :
    Step GoValue LsContext GoType.anyT GoType.stringT :=
  { Name := "ParseArguments"
    σ := ParseArgumentsPc
    init := ParseArgumentsPc.start
    Process := fun pc =>
      match pc with
      | ParseArgumentsPc.start =>
        Instr.withCtx (fun pipelineContext =>
          ({ pipelineContext with Wildcard := parseWildcard osArgs statIsFile },
            ParseArgumentsPc.sending))
      | ParseArgumentsPc.sending =>
        Instr.selectSend (ToStepResult (GoValue.str "arguments parsed"))
          ParseArgumentsPc.cancelled ParseArgumentsPc.sent
      | ParseArgumentsPc.cancelled => Instr.ret (some ctxErr)
      | ParseArgumentsPc.sent => Instr.ret none }

/-- Program points of `ListFilesStep.Process`. -/
inductive ListFilesPc where
  | start
  | failed (err : GoError)
  | emit (entries : List DirEntry)
  | cancelled
  deriving DecidableEq, Repr

/-- The stage `ListFilesStep`; `readDir` is the result of `os.ReadDir(".")`. -/
def NewListFilesStep (readDir : Except GoError (List DirEntry)) :
    Step GoValue LsContext GoType.stringT GoType.dirEntryT :=
  { Name := "ListFiles"
    σ := ListFilesPc
    init := ListFilesPc.start
    Process := fun pc =>
      match pc with
      | ListFilesPc.start =>
        Instr.recv (fun _ =>
          match readDir with
          | Except.error err => ListFilesPc.failed err
          | Except.ok entries => ListFilesPc.emit entries)
      | ListFilesPc.failed err => Instr.ret (some err)
      | ListFilesPc.emit [] => Instr.ret none
      | ListFilesPc.emit (entry :: rest) =>
        Instr.selectSend (ToStepResult (GoValue.entry entry))
          ListFilesPc.cancelled (ListFilesPc.emit rest)
      | ListFilesPc.cancelled => Instr.ret (some ctxErr) }

/-- Program points of `FilterFilesStep.Process`. -/
inductive FilterFilesPc where
  | start
  | loop (pattern : String)
  | emit (pattern : String) (fileEntry : GoValue)
  | cancelled
  | finished
  deriving DecidableEq, Repr

/-- Whether `FilterFilesStep.Process` forwards an entry: the test of its loop
body, with `matchFn` for `filepath.Match`. -/
def filterKeeps (matchFn : String → String → Bool × Option GoError) (pattern : String)
    (fileEntry : GoValue) : Bool :=
  if pattern ≠ "" ∧ pattern ≠ "*" then
    let (matched, err) := matchFn pattern fileEntry.Name
    if err ≠ none ∨ matched = false then false else true
  else true

/-- The stage `FilterFilesStep`, with `matchFn` for `filepath.Match`. -/
def NewFilterFilesStep (matchFn : String → String → Bool × Option GoError) :
    Step GoValue LsContext GoType.dirEntryT GoType.dirEntryT :=
  { Name := "FilterFiles"
    σ := FilterFilesPc
    init := FilterFilesPc.start
    Process := fun pc =>
      match pc with
      | FilterFilesPc.start =>
        Instr.withCtx (fun pipelineContext =>
          (pipelineContext, FilterFilesPc.loop pipelineContext.Wildcard))
      | FilterFilesPc.loop pattern =>
        Instr.recv (fun received =>
          match received with
          | none => FilterFilesPc.finished
          | some fileResult =>
            if filterKeeps matchFn pattern fileResult.Item then
              FilterFilesPc.emit pattern fileResult.Item
            else FilterFilesPc.loop pattern)
      | FilterFilesPc.emit pattern fileEntry =>
        Instr.selectSend (ToStepResult fileEntry) FilterFilesPc.cancelled
          (FilterFilesPc.loop pattern)
      | FilterFilesPc.cancelled => Instr.ret (some ctxErr)
      | FilterFilesPc.finished => Instr.ret none }

/-- Program points of `PrintFilesStep.Process`. -/
inductive PrintFilesPc where
  | loop
  | println (fileEntry : GoValue)
  | emit (fileEntry : GoValue)
  | cancelled
  | finished
  deriving DecidableEq, Repr

/-- The stage `PrintFilesStep`. -/
def NewPrintFilesStep : Step GoValue LsContext GoType.dirEntryT GoType.stringT :=
  { Name := "PrintFiles"
    σ := PrintFilesPc
    init := PrintFilesPc.loop
    Process := fun pc =>
      match pc with
      | PrintFilesPc.loop =>
        Instr.recv (fun received =>
          match received with
          | none => PrintFilesPc.finished
          | some fileResult => PrintFilesPc.println fileResult.Item)
      | PrintFilesPc.println fileEntry =>
        Instr.print fileEntry.Name (PrintFilesPc.emit fileEntry)
      | PrintFilesPc.emit fileEntry =>
        Instr.selectSend (ToStepResult (GoValue.str fileEntry.Name)) PrintFilesPc.cancelled
          PrintFilesPc.loop
      | PrintFilesPc.cancelled => Instr.ret (some ctxErr)
      | PrintFilesPc.finished => Instr.ret none }

/-- The pipeline of `TestSingleStepHelloWorld`. -/
def helloWorldChain : Chain GoValue TestContext GoType.stringT :=
  Chain.source NewHelloWorldSource

/-- The pipeline of `examples/ls/main.go`. -/
def lsChain (osArgs : List String) (statIsFile : String → Bool)
    (readDir : Except GoError (List DirEntry))
    (matchFn : String → String → Bool × Option GoError) :
    Chain GoValue LsContext GoType.stringT :=
  Chain.append
    (Chain.append
      (Chain.append (Chain.source (NewParseArgumentsStep osArgs statIsFile))
        (NewListFilesStep readDir))
      (NewFilterFilesStep matchFn))
    NewPrintFilesStep

/-! ## Histories of the loop over `stepFunctions` -/

/-- The record of calling adapter `f` on `cur` in the runtime `rt`. -/
def Call.of {Val Ctx : Type} (f : StepFunction Val Ctx) (cur : Handle) (rt : Runtime Val Ctx) :
    Call :=
  { input := cur, output := (f cur rt).output, err := (f cur rt).err }

/-- The calls `calls` ran the adapters of `L` in order from the input `cur0`,
each on the output of the one before, none returned an error, and the
adapters `rest` remain to be called on `cur`. -/
inductive Walked {Val Ctx : Type} :
    List (StepFunction Val Ctx) → Handle → List Call → List (StepFunction Val Ctx) → Handle → Prop where
  | nil (L : List (StepFunction Val Ctx)) (cur : Handle) : Walked L cur [] L cur
  | cons (f : StepFunction Val Ctx) (L : List (StepFunction Val Ctx)) (cur : Handle)
      (rt : Runtime Val Ctx) (calls : List Call) (rest : List (StepFunction Val Ctx))
      (cur1 : Handle) :
      (f cur rt).err = none → Walked L (f cur rt).output calls rest cur1 →
      Walked (f :: L) cur (Call.of f cur rt :: calls) rest cur1

/-- The calls `Execute` can have made on the adapters `L` from the input `cur`:
the adapters in order, each on the output of the one before, and nothing after a
call that returned an error. -/
inductive WalkLog {Val Ctx : Type} : List (StepFunction Val Ctx) → Handle → List Call → Prop where
  | nil (L : List (StepFunction Val Ctx)) (cur : Handle) : WalkLog L cur []
  | cons (f : StepFunction Val Ctx) (L : List (StepFunction Val Ctx)) (cur : Handle)
      (rt : Runtime Val Ctx) (calls : List Call) :
      (f cur rt).err = none → WalkLog L (f cur rt).output calls →
      WalkLog (f :: L) cur (Call.of f cur rt :: calls)
  | fail (f : StepFunction Val Ctx) (L : List (StepFunction Val Ctx)) (cur : Handle)
      (rt : Runtime Val Ctx) (e : GoError) :
      (f cur rt).err = some e → WalkLog (f :: L) cur [Call.of f cur rt]

/-- What holds of `Execute` on the adapters `L` at every moment of an execution. -/
def WalkInv {Val Ctx : Type} (L : List (StepFunction Val Ctx)) (Final : GoType)
    (n : Net Val Ctx) : Prop :=
  n.finalType = Final ∧
  match n.main with
  | Main.walking rest cur => Walked L Handle.nil n.calls rest cur ∧ n.drained = []
  | Main.draining ch => Walked L Handle.nil n.calls [] (Handle.chan Final ch)
  | Main.returned none => ∃ ch, Walked L Handle.nil n.calls [] (Handle.chan Final ch)
  | Main.returned (some e) =>
    n.drained = [] ∧
    ((∃ calls0 f rest cur rt, Walked L Handle.nil calls0 (f :: rest) cur ∧
        (f cur rt).err = some e ∧ n.calls = calls0 ++ [Call.of f cur rt]) ∨
     (∃ cur, Walked L Handle.nil n.calls [] cur ∧ (∀ ch, cur ≠ Handle.chan Final ch) ∧
        e = "unexpected final output type"))

/-! ## The steps of a goroutine, case by case -/

/-- The steps goroutine `i`, whose record is `t`, can take from `n`: the cases of
`Net.stepTask`. -/
inductive TaskStep {Val Ctx : Type} (n : Net Val Ctx) (i : Nat) (t : Task Val Ctx) :
    Net Val Ctx → Prop where
  | close (e : Option GoError) (c : Chan Val) :
      t.status = Status.returned e → n.rt.chans[t.output]? = some c →
      TaskStep n i t
        ({ n with rt := n.rt.setChan t.output { c with closes := c.closes + 1 } }.setStatus i t
          Status.done)
  | ret (s : t.σ) (e : Option GoError) :
      t.status = Status.running s → t.code s = Instr.ret e →
      TaskStep n i t (n.setStatus i t (Status.returned e))
  | withCtx (s : t.σ) (f : Ctx → Ctx × t.σ) :
      t.status = Status.running s → t.code s = Instr.withCtx f →
      TaskStep n i t
        ({ n with pipelineContext := (f n.pipelineContext).1 }.setStatus i t
          (Status.running (f n.pipelineContext).2))
  | print (s : t.σ) (line : String) (k : t.σ) :
      t.status = Status.running s → t.code s = Instr.print line k →
      TaskStep n i t ({ n with stdout := n.stdout ++ [line] }.setStatus i t (Status.running k))
  | recvItem (s : t.σ) (k : Option (StepResult Val) → t.σ) (ch : Nat) (c : Chan Val)
      (x : StepResult Val) (xs : List (StepResult Val)) :
      t.status = Status.running s → t.code s = Instr.recv k → t.input = some ch →
      n.rt.chans[ch]? = some c → c.buf = x :: xs →
      TaskStep n i t
        ({ n with rt := n.rt.setChan ch { c with buf := xs } }.setStatus i t
          (Status.running (k (some x))))
  | recvClosed (s : t.σ) (k : Option (StepResult Val) → t.σ) (ch : Nat) (c : Chan Val) :
      t.status = Status.running s → t.code s = Instr.recv k → t.input = some ch →
      n.rt.chans[ch]? = some c → c.buf = [] → c.closed = true →
      TaskStep n i t (n.setStatus i t (Status.running (k none)))
  | send (s : t.σ) (r : StepResult Val) (k : t.σ) (c : Chan Val) :
      t.status = Status.running s →
      (t.code s = Instr.send r k ∨ ∃ onDone, t.code s = Instr.selectSend r onDone k) →
      n.rt.chans[t.output]? = some c → c.closed = false → c.buf.length < c.cap →
      TaskStep n i t
        ({ n with rt := n.rt.setChan t.output { c with buf := c.buf ++ [r] } }.setStatus i t
          (Status.running k))
  | ctxDone (s : t.σ) (r : StepResult Val) (onDone : t.σ) (onSent : t.σ) :
      t.status = Status.running s → t.code s = Instr.selectSend r onDone onSent →
      n.cancelled = true →
      TaskStep n i t (n.setStatus i t (Status.running onDone))

/-! ## Concrete executions -/

/-- `Net.run`, staying in `n` when the schedule cannot be fired. -/
def Net.runD {Val Ctx : Type} (n : Net Val Ctx) (es : List Event) : Net Val Ctx :=
  (n.run es).getD n

/-- The context `&steps.LsContext{}` of `examples/ls/main.go`. -/
def lsContext : LsContext := { Wildcard := "" }

/-- The context of `TestSingleStepHelloWorld`. -/
def testContext : TestContext := { Value := "test" }

/-! ## The shape of an execution of a built pipeline -/

/-- The input channel of the `j`-th goroutine: none for the source, else the
output channel of the goroutine before. -/
def inputOf (j : Nat) : Option Nat :=
  if j = 0 then none else some (j - 1)

/-- The goroutine of stage `st` as the `j`-th adapter starts it, in `status`. -/
def AnyStep.task {Val Ctx : Type} (st : AnyStep Val Ctx) (status : Status st.step.σ) (j : Nat) :
    Task Val Ctx :=
  { name := st.step.Name, σ := st.step.σ, code := st.step.Process, status := status,
    input := inputOf j, output := j }

/-- What the adapter of stage `st` does on an input of the right type: allocate
the output channel, start the goroutine, return the channel. -/
def AnyStep.spawn {Val Ctx : Type} (st : AnyStep Val Ctx) (input : Option Nat)
    (rt : Runtime Val Ctx) : AdapterResult Val Ctx :=
  { rt := (rt.makeChan st.outT defaultBufferSize).1.go st.step input
            (rt.makeChan st.outT defaultBufferSize).2,
    output := Handle.chan st.outT (rt.makeChan st.outT defaultBufferSize).2, err := none }

/-- The handle `Execute` holds before it calls the `j`-th adapter. -/
def handleBefore {Val Ctx : Type} (S : List (AnyStep Val Ctx)) : Nat → Handle
  | 0 => Handle.nil
  | j + 1 =>
    match S[j]? with
    | some st => Handle.chan st.outT j
    | none => Handle.nil

/-- Whether a goroutine has finished. -/
def Task.isDone {Val Ctx : Type} (t : Task Val Ctx) : Bool :=
  match t.status with
  | Status.done => true
  | _ => false

/-- The adapters `F` are those of the stages `S`, their types chain, and the last
stage produces `T`. -/
structure WellTyped {Val Ctx : Type} (S : List (AnyStep Val Ctx))
    (F : List (StepFunction Val Ctx)) (T : GoType) : Prop where
  length_eq : F.length = S.length
  pos : 0 < S.length
  adapter : ∀ (j : Nat) (f : StepFunction Val Ctx) (st : AnyStep Val Ctx),
    F[j]? = some f → S[j]? = some st →
    ∀ rt : Runtime Val Ctx, f (handleBefore S j) rt = st.spawn (inputOf j) rt
  input : ∀ (j : Nat) (st : AnyStep Val Ctx), S[j]? = some st → 0 < j →
    handleBefore S j = Handle.chan st.inT (j - 1)
  final : handleBefore S S.length = Handle.chan T (S.length - 1)

/-- The calls `Execute` has made once `k` goroutines are started. -/
def callsUpTo {Val Ctx : Type} (S : List (AnyStep Val Ctx)) (k : Nat) : List Call :=
  (List.range k).map (fun j =>
    { input := handleBefore S j, output := handleBefore S (j + 1), err := none })

/-- What holds at every moment of an execution of the pipeline built from the
stages `S`: the `j`-th goroutine runs stage `j` from channel `j - 1` to channel
`j`, channel `j` has the type stage `j` declares and is closed exactly when
goroutine `j` has finished, and `Execute` is where the goroutines started so far
put it. -/
structure ChainInv {Val Ctx : Type} (S : List (AnyStep Val Ctx))
    (F : List (StepFunction Val Ctx)) (T : GoType) (n : Net Val Ctx) : Prop where
  finalType : n.finalType = T
  lens : n.rt.chans.length = n.rt.tasks.length
  le : n.rt.tasks.length ≤ S.length
  task : ∀ (j : Nat) (t : Task Val Ctx), n.rt.tasks[j]? = some t →
    ∃ st status, S[j]? = some st ∧ t = st.task status j
  chan : ∀ (j : Nat) (t : Task Val Ctx) (c : Chan Val), n.rt.tasks[j]? = some t →
    n.rt.chans[j]? = some c →
    ∃ st, S[j]? = some st ∧ c.elemType = st.outT ∧ c.cap = defaultBufferSize ∧
      c.closes = (if t.isDone then 1 else 0)
  calls : n.calls = callsUpTo S n.rt.tasks.length
  main : match n.main with
    | Main.walking rest cur =>
      rest = F.drop n.rt.tasks.length ∧ cur = handleBefore S n.rt.tasks.length
    | Main.draining ch => n.rt.tasks.length = S.length ∧ ch + 1 = S.length
    | Main.returned e => n.rt.tasks.length = S.length ∧ e = none

/-- The `ls` pipeline in an empty directory, started without arguments. -/
def lsEmpty : Chain GoValue LsContext GoType.stringT :=
  lsChain [] (fun _ => false) (Except.ok []) (fun _ _ => (true, none))

/-- The schedule on which `Execute` calls the four adapters of the `ls` pipeline
and asserts the type of the final channel before any goroutine has run. -/
def walkFirst : List Event :=
  [Event.main, Event.main, Event.main, Event.main, Event.main]

/-- The schedule on which `HelloWorld.Process` is cancelled before it sends:
`Execute` starts the goroutine and asserts the final type, the context is
cancelled, the `select` takes the `Done` case and `Process` returns the
context's error. -/
def helloCancelled : List Event :=
  [Event.main, Event.main, Event.cancel, Event.task 0 true, Event.task 0 false]

/-- The schedule on which `HelloWorld.Process` sends its item and returns nil,
the goroutine closes the channel and `Execute` drains it. -/
def helloRun : List Event :=
  [Event.main, Event.main, Event.task 0 false, Event.task 0 false, Event.task 0 false,
    Event.main, Event.main]

/-- Once `Execute` has returned, the final channel is closed and empty. -/
def FinalDrained {Val Ctx : Type} (S : List (AnyStep Val Ctx)) (n : Net Val Ctx) : Prop :=
  ∀ e, n.main = Main.returned e →
    ∃ ch, n.rt.chans[S.length - 1]? = some ch ∧ ch.buf = [] ∧ ch.closed = true

/-- What `Process` has returned in a goroutine that has not closed its channel yet. -/
def Task.returnedErr {Val Ctx : Type} (t : Task Val Ctx) : Option (Option GoError) :=
  match t.status with
  | Status.returned e => some e
  | _ => none

/-- The `ls` pipeline when `os.ReadDir` fails. -/
def lsFailing : Chain GoValue LsContext GoType.stringT :=
  lsChain [] (fun _ => false) (Except.error "permission denied") (fun _ _ => (true, none))

/-- A schedule of `lsFailing` up to the return of `ListFilesStep.Process`:
`Execute` starts the four goroutines, `ParseArgumentsStep` runs to its end,
`ListFilesStep` reads its input, fails to list the directory and returns the
error. -/
def lsFailingToError : List Event :=
  walkFirst ++
  [Event.task 0 false, Event.task 0 false, Event.task 0 false, Event.task 0 false,
    Event.task 1 false, Event.task 1 false]

/-- The schedule `lsFailingToError` continued to the return of `Execute`: every
goroutine closes its channel in turn and `Execute` finds the final channel closed. -/
def lsFailingRun : List Event :=
  lsFailingToError ++
  [Event.task 1 false,
    Event.task 2 false, Event.task 2 false, Event.task 2 false, Event.task 2 false,
    Event.task 3 false, Event.task 3 false, Event.task 3 false,
    Event.main]

/-! ## `filepath.Match`

`FilterFilesStep` calls Go's `filepath.Match`.  The functions below follow the
standard library's `path/filepath/match.go` on Unix (the separator is `/`, the
backslash escapes) and `unicode/utf8`; a Go string is the list of its bytes. -/

/-- The error `filepath.ErrBadPattern`. -/
def errBadPattern : GoError := "syntax error in pattern"

/-- The byte of an ASCII character. -/
def byteOf (c : Char) : Nat := c.toNat

/-- The UTF-8 encoding of a code point. -/
def utf8EncodeRune (c : Nat) : List Nat :=
  if c < 0x80 then [c]
  else if c < 0x800 then [0xC0 + c / 0x40, 0x80 + c % 0x40]
  else if c < 0x10000 then [0xE0 + c / 0x1000, 0x80 + c / 0x40 % 0x40, 0x80 + c % 0x40]
  else [0xF0 + c / 0x40000, 0x80 + c / 0x1000 % 0x40, 0x80 + c / 0x40 % 0x40, 0x80 + c % 0x40]

/-- The bytes of the Go string that holds the text `s`. -/
def goBytes (s : String) : List Nat :=
  s.data.flatMap (fun c => utf8EncodeRune c.toNat)

/-- The constant `utf8.RuneError`. -/
def runeError : Nat := 0xFFFD

/-- The function `utf8.DecodeRuneInString`: the first rune of `s` and its width
in bytes; `(RuneError, 0)` on the empty string and `(RuneError, 1)` on an
encoding that is not valid. -/
def decodeRune (s : List Nat) : Nat × Nat :=
  match s with
  | [] => (runeError, 0)
  | s0 :: t =>
    if s0 < 0x80 then (s0, 1)
    else if s0 < 0xC2 ∨ 0xF4 < s0 then (runeError, 1)
    else
      let sz := if s0 < 0xE0 then 2 else if s0 < 0xF0 then 3 else 4
      let lo := if s0 = 0xE0 then 0xA0 else if s0 = 0xF0 then 0x90 else 0x80
      let hi := if s0 = 0xED then 0x9F else if s0 = 0xF4 then 0x8F else 0xBF
      if s.length < sz then (runeError, 1)
      else
        match t with
        | [] => (runeError, 1)
        | s1 :: t1 =>
          if s1 < lo ∨ hi < s1 then (runeError, 1)
          else if sz ≤ 2 then (s0 % 0x20 * 0x40 + s1 % 0x40, 2)
          else
            match t1 with
            | [] => (runeError, 1)
            | s2 :: t2 =>
              if s2 < 0x80 ∨ 0xBF < s2 then (runeError, 1)
              else if sz ≤ 3 then (s0 % 0x10 * 0x1000 + s1 % 0x40 * 0x40 + s2 % 0x40, 3)
              else
                match t2 with
                | [] => (runeError, 1)
                | s3 :: _ =>
                  if s3 < 0x80 ∨ 0xBF < s3 then (runeError, 1)
                  else
                    (s0 % 8 * 0x40000 + s1 % 0x40 * 0x1000 + s2 % 0x40 * 0x40 + s3 % 0x40, 4)

/-- The loop of `scanChunk`: the chunk up to the next star outside a character
class, and the rest of the pattern. -/
def scanChunkLoop : Bool → List Nat → List Nat → List Nat × List Nat
  | _, [], acc => (acc.reverse, [])
  | inrange, c :: rest, acc =>
    if c = byteOf '\\' then
      match rest with
      | [] => ((c :: acc).reverse, [])
      | c2 :: rest2 => scanChunkLoop inrange rest2 (c2 :: c :: acc)
    else if c = byteOf '[' then scanChunkLoop true rest (c :: acc)
    else if c = byteOf ']' then scanChunkLoop false rest (c :: acc)
    else if c = byteOf '*' then
      if inrange then scanChunkLoop inrange rest (c :: acc) else (acc.reverse, c :: rest)
    else scanChunkLoop inrange rest (c :: acc)

/-- The function `scanChunk`: whether stars lead the pattern, the chunk after
them, and the rest. -/
def scanChunk (pattern : List Nat) : Bool × List Nat × List Nat :=
  let stripped := pattern.dropWhile (fun c => c = byteOf '*')
  (decide (stripped.length < pattern.length), scanChunkLoop false stripped [])

/-- The function `getEsc`: a possibly escaped rune of a character class. -/
def getEsc (chunk : List Nat) : Except GoError (Nat × List Nat) :=
  match chunk with
  | [] => Except.error errBadPattern
  | c :: rest =>
    if c = byteOf '-' ∨ c = byteOf ']' then Except.error errBadPattern
    else
      let chunk1 := if c = byteOf '\\' then rest else chunk
      if chunk1 = [] then Except.error errBadPattern
      else
        let rn := decodeRune chunk1
        if (rn.1 = runeError ∧ rn.2 = 1) ∨ chunk1.drop rn.2 = [] then Except.error errBadPattern
        else Except.ok (rn.1, chunk1.drop rn.2)

/-- The loop of `matchChunk` over the ranges of a character class: whether `r` is
in one of them, and the chunk after the closing bracket. -/
def matchClass : Nat → Nat → List Nat → Bool → Nat → Except GoError (Bool × List Nat)
  | 0, _, _, _, _ => Except.error errBadPattern
  | fuel + 1, r, chunk, found, nrange =>
    if chunk.head? = some (byteOf ']') ∧ 0 < nrange then Except.ok (found, chunk.tail)
    else
      match getEsc chunk with
      | Except.error e => Except.error e
      | Except.ok (lo, chunk1) =>
        if chunk1.head? = some (byteOf '-') then
          match getEsc chunk1.tail with
          | Except.error e => Except.error e
          | Except.ok (hi, chunk2) =>
            matchClass fuel r chunk2 (found || (decide (lo ≤ r) && decide (r ≤ hi))) (nrange + 1)
        else matchClass fuel r chunk1 (found || decide (lo = r)) (nrange + 1)

/-- The loop of `matchChunk`: the rest of `s` after the chunk, whether the chunk
matched, and the error of a malformed chunk. -/
def matchChunkLoop : Nat → List Nat → List Nat → Bool → List Nat × Bool × Option GoError
  | 0, _, _, _ => ([], false, some errBadPattern)
  | _ + 1, [], s, failed => if failed then ([], false, none) else (s, true, none)
  | fuel + 1, c :: chunk, s, failed0 =>
    let failed := failed0 || s.isEmpty
    if c = byteOf '[' then
      let r := if failed then 0 else (decodeRune s).1
      let s1 := if failed then s else s.drop (decodeRune s).2
      let negated := decide (chunk.head? = some (byteOf '^'))
      let chunk1 := if negated then chunk.tail else chunk
      match matchClass (chunk1.length + 1) r chunk1 false 0 with
      | Except.error e => ([], false, some e)
      | Except.ok (found, chunk2) => matchChunkLoop fuel chunk2 s1 (failed || (found == negated))
    else if c = byteOf '?' then
      if failed then matchChunkLoop fuel chunk s failed
      else matchChunkLoop fuel chunk (s.drop (decodeRune s).2) (decide (s.head? = some (byteOf '/')))
    else if c = byteOf '\\' then
      match chunk with
      | [] => ([], false, some errBadPattern)
      | c2 :: chunk2 =>
        if failed then matchChunkLoop fuel chunk2 s failed
        else matchChunkLoop fuel chunk2 s.tail (decide (s.head? ≠ some c2))
    else
      if failed then matchChunkLoop fuel chunk s failed
      else matchChunkLoop fuel chunk s.tail (decide (s.head? ≠ some c))

/-- The function `matchChunk`. -/
def matchChunk (chunk s : List Nat) : List Nat × Bool × Option GoError :=
  matchChunkLoop (chunk.length + 1) chunk s false

/-- The inner loop of `Match` after a star: try the chunk after skipping one more
byte of the name, up to a separator. -/
def matchAfterStar (chunk : List Nat) (lastChunk : Bool) :
    List Nat → Option (List Nat) × Option GoError
  | [] => (none, none)
  | c :: rest =>
    if c = byteOf '/' then (none, none)
    else
      match matchChunk chunk rest with
      | (t, ok, err) =>
        if ok then
          if lastChunk && !t.isEmpty then matchAfterStar chunk lastChunk rest else (some t, none)
        else if err.isSome then (none, err)
        else matchAfterStar chunk lastChunk rest

/-- The loop `Pattern` of `Match`. -/
def matchLoop : Nat → List Nat → List Nat → Bool × Option GoError
  | 0, _, _ => (false, some errBadPattern)
  | fuel + 1, pattern, name =>
    if pattern = [] then (name.isEmpty, none)
    else
      match scanChunk pattern with
      | (star, chunk, rest) =>
        if star && chunk.isEmpty then (!name.contains (byteOf '/'), none)
        else
          match matchChunk chunk name with
          | (t, ok, err) =>
            if ok && (t.isEmpty || !rest.isEmpty) then matchLoop fuel rest t
            else if err.isSome then (false, err)
            else if star then
              match matchAfterStar chunk rest.isEmpty name with
              | (some t1, _) => matchLoop fuel rest t1
              | (none, some e) => (false, some e)
              | (none, none) => (false, none)
            else (false, none)

/-- Go's `filepath.Match`. -/
def filepathMatch (pattern name : String) : Bool × Option GoError :=
  matchLoop ((goBytes pattern).length + 1) (goBytes pattern) (goBytes name)

/-! ## A stage run alone -/

/-- What a run of `Process` leaves: the items sent, the value returned, the
pipeline context and the lines printed. -/
structure ProcessRun (Val Ctx : Type) where
  sent : List (StepResult Val)
  result : Option GoError
  ctx : Ctx
  printed : List String
  deriving DecidableEq, Repr

/-- A stage's `Process` run alone: its input channel delivers `input` and is then
closed, every send is taken, and the execution context is never cancelled.
`none` when `fuel` operations do not get to the return. -/
def runProcess {Val Ctx σ : Type} (code : σ → Instr Val Ctx σ) :
    Nat → σ → List (StepResult Val) → Ctx → List (StepResult Val) → List String →
    Option (ProcessRun Val Ctx)
  | 0, _, _, _, _, _ => none
  | fuel + 1, s, input, ctx, sent, printed =>
    match code s with
    | Instr.ret e => some { sent := sent, result := e, ctx := ctx, printed := printed }
    | Instr.withCtx f => runProcess code fuel (f ctx).2 input (f ctx).1 sent printed
    | Instr.print line k => runProcess code fuel k input ctx sent (printed ++ [line])
    | Instr.recv k =>
      match input with
      | x :: xs => runProcess code fuel (k (some x)) xs ctx sent printed
      | [] => runProcess code fuel (k none) [] ctx sent printed
    | Instr.send r k => runProcess code fuel k input ctx (sent ++ [r]) printed
    | Instr.selectSend r _ onSent => runProcess code fuel onSent input ctx (sent ++ [r]) printed

/-- The directory entries named `names`, as `ListFilesStep` sends them. -/
def entriesNamed (names : List String) : List (StepResult GoValue) :=
  names.map (fun name => ToStepResult (GoValue.entry { Name := name }))

/-! ## Stages that return -/

/-- `Process`, from the state `s`, returns on every run in which its input
channel delivers the items `inp` and is then closed (`none`: the nil channel of
a source, on which a receive never returns), whatever case its `select`s take
and whatever the pipeline context holds. -/
inductive HaltsOn {Val Ctx σ : Type} (code : σ → Instr Val Ctx σ) :
    Option (List (StepResult Val)) → σ → Prop where
  | ret (inp : Option (List (StepResult Val))) (s : σ) (e : Option GoError) :
      code s = Instr.ret e → HaltsOn code inp s
  | withCtx (inp : Option (List (StepResult Val))) (s : σ) (f : Ctx → Ctx × σ) :
      code s = Instr.withCtx f → (∀ c, HaltsOn code inp (f c).2) → HaltsOn code inp s
  | print (inp : Option (List (StepResult Val))) (s : σ) (line : String) (k : σ) :
      code s = Instr.print line k → HaltsOn code inp k → HaltsOn code inp s
  | recvItem (x : StepResult Val) (xs : List (StepResult Val)) (s : σ)
      (k : Option (StepResult Val) → σ) :
      code s = Instr.recv k → HaltsOn code (some xs) (k (some x)) →
      HaltsOn code (some (x :: xs)) s
  | recvClosed (s : σ) (k : Option (StepResult Val) → σ) :
      code s = Instr.recv k → HaltsOn code (some []) (k none) → HaltsOn code (some []) s
  | send (inp : Option (List (StepResult Val))) (s : σ) (r : StepResult Val) (k : σ) :
      code s = Instr.send r k → HaltsOn code inp k → HaltsOn code inp s
  | selectSend (inp : Option (List (StepResult Val))) (s : σ) (r : StepResult Val)
      (onDone : σ) (onSent : σ) :
      code s = Instr.selectSend r onDone onSent → HaltsOn code inp onDone →
      HaltsOn code inp onSent → HaltsOn code inp s

/-- Every stage's `Process` returns once its input is exhausted: the source
without reading, every other stage on every finite input followed by the close. -/
def StagesHalt {Val Ctx : Type} (S : List (AnyStep Val Ctx)) : Prop :=
  ∀ (j : Nat) (st : AnyStep Val Ctx), S[j]? = some st →
    (j = 0 → HaltsOn st.step.Process none st.step.init) ∧
    (0 < j → ∀ xs, HaltsOn st.step.Process (some xs) st.step.init)

/-- The input channel of the `j`-th goroutine, if it has one. -/
def inputChan {Val Ctx : Type} (rt : Runtime Val Ctx) (j : Nat) : Option (Chan Val) :=
  (inputOf j).bind (fun ch => rt.chans[ch]?)

/-- `Process` returns from `s` on what its input channel holds and may still get. -/
def HaltGood {Val Ctx σ : Type} (code : σ → Instr Val Ctx σ) (input : Option (Chan Val))
    (s : σ) : Prop :=
  match input with
  | none => HaltsOn code none s
  | some c =>
    (c.closed = true → HaltsOn code (some c.buf) s) ∧
    (c.closed = false → ∀ xs, HaltsOn code (some (c.buf ++ xs)) s)

/-- Every running goroutine returns on what its input channel holds and may still get. -/
def HaltInv {Val Ctx : Type} (n : Net Val Ctx) : Prop :=
  ∀ (j : Nat) (t : Task Val Ctx) (s : t.σ), n.rt.tasks[j]? = some t →
    t.status = Status.running s → HaltGood t.code (inputChan n.rt j) s

/-! ## A measure that every event decreases -/

/-- The steps of a goroutine as seen from its own record and the queue of its
input channel: the cases of `TaskStep` without the conditions on the output
channel and on the cancellation. -/
inductive LocalStep {Val Ctx : Type} (t : Task Val Ctx) (inp : Option (List (StepResult Val))) :
    Task Val Ctx → Option (List (StepResult Val)) → Prop where
  | close (e : Option GoError) :
      t.status = Status.returned e → LocalStep t inp { t with status := Status.done } inp
  | ret (s : t.σ) (e : Option GoError) :
      t.status = Status.running s → t.code s = Instr.ret e →
      LocalStep t inp { t with status := Status.returned e } inp
  | withCtx (s : t.σ) (f : Ctx → Ctx × t.σ) (c : Ctx) :
      t.status = Status.running s → t.code s = Instr.withCtx f →
      LocalStep t inp { t with status := Status.running (f c).2 } inp
  | print (s : t.σ) (line : String) (k : t.σ) :
      t.status = Status.running s → t.code s = Instr.print line k →
      LocalStep t inp { t with status := Status.running k } inp
  | recvItem (s : t.σ) (k : Option (StepResult Val) → t.σ) (x : StepResult Val)
      (xs : List (StepResult Val)) :
      t.status = Status.running s → t.code s = Instr.recv k → inp = some (x :: xs) →
      LocalStep t inp { t with status := Status.running (k (some x)) } (some xs)
  | recvClosed (s : t.σ) (k : Option (StepResult Val) → t.σ) :
      t.status = Status.running s → t.code s = Instr.recv k → inp = some [] →
      LocalStep t inp { t with status := Status.running (k none) } (some [])
  | send (s : t.σ) (r : StepResult Val) (k : t.σ) :
      t.status = Status.running s →
      (t.code s = Instr.send r k ∨ ∃ onDone, t.code s = Instr.selectSend r onDone k) →
      LocalStep t inp { t with status := Status.running k } inp
  | ctxDone (s : t.σ) (r : StepResult Val) (onDone : t.σ) (onSent : t.σ) :
      t.status = Status.running s → t.code s = Instr.selectSend r onDone onSent →
      LocalStep t inp { t with status := Status.running onDone } inp

/-- A component of the measure: a counter, or a goroutine with the queue of its
input channel. -/
inductive Comp (Val Ctx : Type) where
  | num (k : Nat)
  | cfg (t : Task Val Ctx) (inp : Option (List (StepResult Val)))

/-- The order on components: counters decrease; a goroutine that returns on its
queue takes a step. -/
def CompLt {Val Ctx : Type} : Comp Val Ctx → Comp Val Ctx → Prop
  | Comp.num a, Comp.num b => a < b
  | Comp.cfg t1 i1, Comp.cfg t i =>
    LocalStep t i t1 i1 ∧ ∀ s, t.status = Status.running s → HaltsOn t.code i s
  | _, _ => False

/-- The lexicographic order on the first `M` components. -/
def LexLt {Val Ctx : Type} (M : Nat) (x y : Nat → Comp Val Ctx) : Prop :=
  ∃ i, i < M ∧ (∀ j, j < i → x j = y j) ∧ CompLt (x i) (y i)

/-- The first component: one until the context is cancelled, plus the iterations
`Execute` has left in its loop over the adapters and the type assertion. -/
def walkCtr {Val Ctx : Type} (n : Net Val Ctx) : Nat :=
  (if n.cancelled then 0 else 1) +
  (match n.main with
   | Main.walking rest _ => rest.length + 1
   | _ => 0)

/-- The last component: the items the drain loop has left to read, plus one for
its return. -/
def drainCtr {Val Ctx : Type} (n : Net Val Ctx) : Nat :=
  match n.main with
  | Main.draining ch =>
    match n.rt.chans[ch]? with
    | some c => c.buf.length + 1
    | none => 0
  | _ => 0

/-- The queue of the input channel of the `j`-th goroutine. -/
def inputBuf {Val Ctx : Type} (rt : Runtime Val Ctx) (j : Nat) :
    Option (List (StepResult Val)) :=
  (inputChan rt j).map (fun c => c.buf)

/-- The measure of a state of a pipeline of `N` stages: the counter of
`Execute`'s loop, the goroutines in order from the source, the counter of the
drain loop. -/
def netMeasure {Val Ctx : Type} (N : Nat) (n : Net Val Ctx) (i : Nat) : Comp Val Ctx :=
  if i = 0 then Comp.num (walkCtr n)
  else if i ≤ N then
    match n.rt.tasks[i - 1]? with
    | some t => Comp.cfg t (inputBuf n.rt (i - 1))
    | none => Comp.num 0
  else Comp.num (drainCtr n)

/-- The Hello World execution in which the context is cancelled once `Execute`
has reached its drain loop and before the source goroutine has run. -/
def helloAfterCancel : Net GoValue TestContext :=
  (helloWorldChain.builder.Build.Execute testContext).runD
    [Event.main, Event.main, Event.cancel]

/-- The `ls` execution in which the context is cancelled once `Execute` has
reached its drain loop; `FilterFilesStep` has read the wildcard and is at the
head of its loop, no other goroutine has run. -/
def lsAfterCancel : Net GoValue LsContext :=
  (lsEmpty.builder.Build.Execute lsContext).runD
    (walkFirst ++ [Event.cancel, Event.task 2 false])

/-! ## Linear chains: a source that emits a sequence, stages that forward one
output per input -/

/-- The source `s` emits the sequence `xs`: from a state with `rem = some ys` its
`Process` sends the items `ys`, in order, and returns; a `select` that takes the
`Done` case leads to a state from which it sends nothing more. -/
structure EmitsCert {Val Ctx : Type} {In Out : GoType} (s : Step Val Ctx In Out)
    (xs : List (StepResult Val)) where
  rem : s.σ → Option (List (StepResult Val))
  init : rem s.init = some xs
  step : ∀ (st : s.σ) (ys : List (StepResult Val)), rem st = some ys →
    match s.Process st with
    | Instr.selectSend r d k => ∃ ys1, ys = r :: ys1 ∧ rem k = some ys1 ∧ rem d = some []
    | Instr.send r k => ∃ ys1, ys = r :: ys1 ∧ rem k = some ys1
    | Instr.withCtx g => ∀ c, rem (g c).2 = some ys
    | Instr.print _ k => rem k = some ys
    | Instr.ret _ => ys = []
    | Instr.recv _ => False

/-- The stage `s` is a linear transform with the per-item function `f`: from a
state with `phase = some (b, h)` its `Process` sends the items `h` it owes, then,
unless `b`, forwards `f x` for every item `x` it reads, in order; `b` holds once
it has read the close of its input, or a `select` has taken the `Done` case, after
which it sends nothing more; and it returns only once `b` holds. -/
structure ForwardsCert {Val Ctx : Type} {In Out : GoType} (s : Step Val Ctx In Out)
    (f : StepResult Val → StepResult Val) where
  phase : s.σ → Option (Bool × List (StepResult Val))
  init : phase s.init = some (false, [])
  step : ∀ (st : s.σ) (b : Bool) (h : List (StepResult Val)), phase st = some (b, h) →
    match s.Process st with
    | Instr.recv k =>
      h = [] ∧ phase (k none) = some (true, []) ∧
        ∀ x, phase (k (some x)) = some (b, if b then [] else [f x])
    | Instr.selectSend r d k =>
      ∃ h1, h = r :: h1 ∧ phase k = some (b, h1) ∧ phase d = some (true, [])
    | Instr.send r k => ∃ h1, h = r :: h1 ∧ phase k = some (b, h1)
    | Instr.withCtx g => ∀ c, phase (g c).2 = some (b, h)
    | Instr.print _ k => phase k = some (b, h)
    | Instr.ret _ => b = true ∧ h = []

/-- A chain whose source emits a sequence and whose other stages are linear
transforms; the last index is the sequence the chain delivers: the source's items
mapped through the per-item functions in order. -/
inductive LinearChain (Val Ctx : Type) :
    (T : GoType) → Chain Val Ctx T → List (StepResult Val) → Type 1 where
  | source {Out : GoType} (s : Step Val Ctx GoType.anyT Out) (xs : List (StepResult Val))
      (cert : EmitsCert s xs) : LinearChain Val Ctx Out (Chain.source s) xs
  | append {Cur New : GoType} (c : Chain Val Ctx Cur) (ys : List (StepResult Val))
      (lc : LinearChain Val Ctx Cur c ys) (s : Step Val Ctx Cur New)
      (f : StepResult Val → StepResult Val) (cert : ForwardsCert s f) :
      LinearChain Val Ctx New (Chain.append c s) (ys.map f)

/-- The items a source in `status` has left to send. -/
def EmitsCert.futureOf {Val Ctx : Type} {In Out : GoType} {s : Step Val Ctx In Out}
    {xs : List (StepResult Val)} (cert : EmitsCert s xs) (status : Status s.σ)
    (fut : List (StepResult Val)) : Prop :=
  match status with
  | Status.running st => cert.rem st = some fut
  | _ => fut = []

/-- The items a linear transform in `status` has left to send when `below` are
the items still to arrive on its input: those it owes and, unless it has stopped
forwarding, the images of those still to arrive. -/
def ForwardsCert.futureOf {Val Ctx : Type} {In Out : GoType} {s : Step Val Ctx In Out}
    {f : StepResult Val → StepResult Val} (cert : ForwardsCert s f) (status : Status s.σ)
    (below fut : List (StepResult Val)) : Prop :=
  match status with
  | Status.running st =>
    ∃ b h, cert.phase st = some (b, h) ∧ fut = h ++ (if b then [] else below.map f)
  | _ => fut = []

/-- With the channels and goroutines `rt`, `here` are the items still to arrive at
the reader of the last channel of the chain: those in the channel, then those its
writer has left to send, which come from the items still to arrive at that writer. -/
def FlowAt {Val Ctx : Type} : {T : GoType} → {c : Chain Val Ctx T} →
    {ys : List (StepResult Val)} → LinearChain Val Ctx T c ys → Runtime Val Ctx →
    List (StepResult Val) → Prop
  | _, _, _, LinearChain.source s xs cert, rt, here =>
    match rt.tasks[0]? with
    | none => here = xs
    | some t =>
      ∃ ch status fut, rt.chans[0]? = some ch ∧
        t = AnyStep.task { inT := _, outT := _, step := s } status 0 ∧
        cert.futureOf status fut ∧ here = ch.buf ++ fut
  | _, _, _, LinearChain.append c _ lc s f cert, rt, here =>
    ∃ below, FlowAt lc rt below ∧
      match rt.tasks[c.stages.length]? with
      | none => here = below.map f
      | some t =>
        ∃ ch status fut, rt.chans[c.stages.length]? = some ch ∧
          t = AnyStep.task { inT := _, outT := _, step := s } status c.stages.length ∧
          cert.futureOf status below fut ∧ here = ch.buf ++ fut

/-- The items the drain loop has read, followed by the items still to arrive at
it, are the first items of the sequence the chain delivers, and all of it while
the context is not cancelled. -/
def FlowInv {Val Ctx : Type} {T : GoType} {c : Chain Val Ctx T} {ys : List (StepResult Val)}
    (lc : LinearChain Val Ctx T c ys) (n : Net Val Ctx) : Prop :=
  ∃ here, FlowAt lc n.rt here ∧ List.IsPrefix (n.drained ++ here) ys ∧
    (n.cancelled = false → n.drained ++ here = ys)

/-- The sequence the source of a linear chain emits. -/
def LinearChain.emitted {Val Ctx : Type} : {T : GoType} → {c : Chain Val Ctx T} →
    {ys : List (StepResult Val)} → LinearChain Val Ctx T c ys → List (StepResult Val)
  | _, _, _, LinearChain.source _ xs _ => xs
  | _, _, _, LinearChain.append _ _ lc _ _ _ => lc.emitted

/-- The per-item functions of a linear chain, composed in stage order. -/
def LinearChain.transform {Val Ctx : Type} : {T : GoType} → {c : Chain Val Ctx T} →
    {ys : List (StepResult Val)} → LinearChain Val Ctx T c ys →
    StepResult Val → StepResult Val
  | _, _, _, LinearChain.source _ _ _ => id
  | _, _, _, LinearChain.append _ _ lc _ f _ => f ∘ lc.transform

/-- `HelloWorld` emits the one item `Hi, World!`. -/
def helloWorldEmits :
    EmitsCert NewHelloWorldSource [ToStepResult (GoValue.str HelloWorld.Hi)] where
  rem := fun pc =>
    match pc with
    | HelloWorldPc.start => some [ToStepResult (GoValue.str HelloWorld.Hi)]
    | HelloWorldPc.sent => some []
    | HelloWorldPc.cancelled => some []
  init := rfl
  step := by
    intro st ys h
    cases st with
    | start => exact ⟨[], (Option.some.inj h).symm, rfl, rfl⟩
    | sent => exact (Option.some.inj h).symm
    | cancelled => exact (Option.some.inj h).symm

/-- The Hello World pipeline as a linear chain. -/
def helloWorldLinear :
    LinearChain GoValue TestContext GoType.stringT helloWorldChain
      [ToStepResult (GoValue.str HelloWorld.Hi)] :=
  LinearChain.source NewHelloWorldSource _ helloWorldEmits

/-- The per-item function of `PrintFilesStep`: the name of the entry, wrapped anew. -/
def printFilesItem (r : StepResult GoValue) : StepResult GoValue :=
  ToStepResult (GoValue.str r.Item.Name)

/-- `PrintFilesStep` is a linear transform. -/
def printFilesForwards : ForwardsCert NewPrintFilesStep printFilesItem where
  phase := fun pc =>
    match pc with
    | PrintFilesPc.loop => some (false, [])
    | PrintFilesPc.println fileEntry => some (false, [ToStepResult (GoValue.str fileEntry.Name)])
    | PrintFilesPc.emit fileEntry => some (false, [ToStepResult (GoValue.str fileEntry.Name)])
    | PrintFilesPc.finished => some (true, [])
    | PrintFilesPc.cancelled => some (true, [])
  init := rfl
  step := by
    intro st b h hph
    cases st with
    | loop =>
      cases hph
      exact ⟨rfl, rfl, fun _ => rfl⟩
    | println fileEntry =>
      cases hph
      rfl
    | emit fileEntry =>
      cases hph
      exact ⟨[], rfl, rfl, rfl⟩
    | finished =>
      cases hph
      exact ⟨rfl, rfl⟩
    | cancelled =>
      cases hph
      exact ⟨rfl, rfl⟩

/-- Program points of a source that sends given entries. -/
inductive EntriesPc where
  | emit (rest : List DirEntry)
  | cancelled
  deriving DecidableEq, Repr

/-- A source that sends the directory entries `entries` in order, each in a
`select` with the cancellation, and returns nil: the sending loop of
`ListFilesStep.Process` as a source. -/
def entriesSource (entries : List DirEntry) :
    Step GoValue LsContext GoType.anyT GoType.dirEntryT :=
  { Name := "Entries"
    σ := EntriesPc
    init := EntriesPc.emit entries
    Process := fun pc =>
      match pc with
      | EntriesPc.emit [] => Instr.ret none
      | EntriesPc.emit (entry :: rest) =>
        Instr.selectSend (ToStepResult (GoValue.entry entry)) EntriesPc.cancelled
          (EntriesPc.emit rest)
      | EntriesPc.cancelled => Instr.ret (some ctxErr) }

/-- The source `entriesSource entries` emits the entries. -/
def entriesEmits (entries : List DirEntry) :
    EmitsCert (entriesSource entries)
      (entries.map (fun entry => ToStepResult (GoValue.entry entry))) where
  rem := fun pc =>
    match pc with
    | EntriesPc.emit rest => some (rest.map (fun entry => ToStepResult (GoValue.entry entry)))
    | EntriesPc.cancelled => some []
  init := rfl
  step := by
    intro st ys h
    cases st with
    | emit rest =>
      cases rest with
      | nil => exact (Option.some.inj h).symm
      | cons entry rest => exact ⟨_, (Option.some.inj h).symm, rfl, rfl⟩
    | cancelled => exact (Option.some.inj h).symm

/-- The chain of a source of two entries followed by `PrintFilesStep`. -/
def printTwo : Chain GoValue LsContext GoType.stringT :=
  Chain.append (Chain.source (entriesSource [{ Name := "a.txt" }, { Name := "b.log" }]))
    NewPrintFilesStep

/-- The chain `printTwo` is linear. -/
def printTwoLinear :
    LinearChain GoValue LsContext GoType.stringT printTwo
      ((([{ Name := "a.txt" }, { Name := "b.log" }] : List DirEntry).map
        (fun entry => ToStepResult (GoValue.entry entry))).map printFilesItem) :=
  LinearChain.append _ _ (LinearChain.source _ _ (entriesEmits _)) NewPrintFilesStep
    printFilesItem printFilesForwards

/-- A schedule of `printTwo` up to the return of `Execute`: the source sends both
entries and finishes, `PrintFilesStep` forwards both names and finishes, the
drain loop reads them. -/
def printTwoRun : List Event :=
  [Event.main, Event.main, Event.main,
    Event.task 0 false, Event.task 0 false, Event.task 0 false, Event.task 0 false,
    Event.task 1 false, Event.task 1 false, Event.task 1 false,
    Event.task 1 false, Event.task 1 false, Event.task 1 false,
    Event.task 1 false, Event.task 1 false, Event.task 1 false,
    Event.main, Event.main, Event.main]

/-- The handle `Execute` passes to the `j`-th adapter when the walk started from
`cur0` and `calls` are the calls made: `cur0` for the first adapter, else the
output of the call before. -/
def inputFrom (cur0 : Handle) (calls : List Call) : Nat → Handle
  | 0 => cur0
  | j + 1 =>
    match calls[j]? with
    | some c => c.output
    | none => Handle.nil

/-- A pipeline whose second adapter gets a channel of another element type: the
adapters of `ParseArgumentsStep`, `FilterFilesStep` and `PrintFilesStep`, as
`AppendStep` builds them from the builder of `ParseArgumentsStep` converted to
`*PipelineBuilder[*LsContext, os.DirEntry]`. -/
def mistypedPipeline : Pipeline GoValue LsContext GoType.stringT :=
  (AppendStep
    (AppendStep
      (PipelineBuilder.mk (NewPipelineBuilder (NewParseArgumentsStep [] (fun _ => false))).stepFunctions :
        PipelineBuilder GoValue LsContext GoType.dirEntryT)
      (NewFilterFilesStep filepathMatch))
    NewPrintFilesStep).Build

/-- The second stage of `lsFailing` with its declared types. -/
def listFilesFailingStage : AnyStep GoValue LsContext :=
  { inT := GoType.stringT, outT := GoType.dirEntryT,
    step := NewListFilesStep (Except.error (GoError.msg "permission denied")) }

/-- The schedule `helloCancelled` continued to the return of `Execute`: the
goroutine closes the channel, on which nothing was sent, and `Execute` finds it
closed. -/
def helloCancelledRun : List Event :=
  helloCancelled ++ [Event.task 0 false, Event.main]

/-- A schedule of `printTwo` on which the context is cancelled while
`PrintFilesStep` holds the first entry: the source sends both entries, returns
nil and closes its channel; `PrintFilesStep` reads `a.txt` and prints it; the
context is cancelled; the `select` of `PrintFilesStep` takes the `Done` case,
`Process` returns the context's error and the goroutine closes the final
channel, which `Execute` finds closed and empty. -/
def printTwoCancelled : List Event :=
  [Event.main, Event.main, Event.main,
    Event.task 0 false, Event.task 0 false, Event.task 0 false, Event.task 0 false,
    Event.task 1 false, Event.task 1 false,
    Event.cancel,
    Event.task 1 true, Event.task 1 false, Event.task 1 false,
    Event.main]

end PipelineGo

namespace PipelineGo

/-! ## The result envelope -/

/-- C10: `ToStepResult` sets the item and leaves every signal field at its zero value. -/
theorem C10_ToStepResult_defaults {α : Type} (x : α) :
    (ToStepResult x).Item = x ∧ (ToStepResult x).IsSkipped = false ∧
    (ToStepResult x).Error = none ∧ (ToStepResult x).ShouldExit = false ∧
    (ToStepResult x).ExitReason = "" := by
  refine ⟨rfl, rfl, rfl, rfl, rfl⟩

/-! ## `AppendStep` in memory -/

section Memory

variable {Val Ctx : Type}

/-- Reading a slice whose array is known. -/
theorem Heap.read_eq {α : Type u} (h : Heap α) (s : Slice) (a : List (Option α))
    (ha : h.arrays[s.array]? = some a) : h.read s = a.take s.len := by
  simp [Heap.read, ha]

/-- What `AppendStepMem` leaves in memory: the arrays that existed are untouched,
two arrays are added; the second holds the old contents followed by the new adapter. -/
theorem appendStepMem_arrays {Cur New : GoType} (grow : Nat → Nat)
    (h : Heap (StepFunction Val Ctx)) (b : BuilderMem) (s : Step Val Ctx Cur New)
    (hv : h.Valid b.stepFunctions) :
    ∃ pad : List (Option (StepFunction Val Ctx)),
      (AppendStepMem grow h b s).1.arrays =
        h.arrays ++ [h.read b.stepFunctions,
          h.read b.stepFunctions ++ [some (wrappedTransformationFunction s)] ++ pad] ∧
      (AppendStepMem grow h b s).2.stepFunctions =
        { array := h.arrays.length + 1, len := b.stepFunctions.len + 1,
          cap := b.stepFunctions.len + 1 + pad.length } ∧
      (h.read b.stepFunctions).length = b.stepFunctions.len := by
  obtain ⟨hle, a, ha, hlen⟩ := hv
  have hlt : b.stepFunctions.array < h.arrays.length := by
    by_contra hc
    rw [List.getElem?_eq_none (Nat.le_of_not_lt hc)] at ha
    cases ha
  have hread : h.read b.stepFunctions = a.take b.stepFunctions.len := by
    simp [Heap.read, ha]
  have hrl : (h.read b.stepFunctions).length = b.stepFunctions.len := by
    rw [hread, List.length_take]; omega
  have hread1 : Heap.read (α := StepFunction Val Ctx)
      { arrays := h.arrays ++ [List.replicate b.stepFunctions.len none] } b.stepFunctions
      = a.take b.stepFunctions.len := by
    simp [Heap.read, List.getElem?_append_left hlt, ha]
  have hmod : (h.arrays ++ [List.replicate b.stepFunctions.len (none : Option (StepFunction Val Ctx))]).modify
      (fun a' => (a.take b.stepFunctions.len).take (min b.stepFunctions.len b.stepFunctions.len)
        ++ a'.drop (min b.stepFunctions.len b.stepFunctions.len)) h.arrays.length
      = h.arrays ++ [a.take b.stepFunctions.len] := by
    apply List.ext_getElem?
    intro i
    rw [List.getElem?_modify]
    by_cases hi : i < h.arrays.length
    · have hne : ¬ h.arrays.length = i := by omega
      simp [List.getElem?_append_left hi, hne]
    · by_cases hi2 : i = h.arrays.length
      · subst hi2
        simp
      · have hge : h.arrays.length + 1 ≤ i := by omega
        rw [List.getElem?_eq_none (by simpa using hge), List.getElem?_eq_none (by simpa using hge)]
        rfl
  refine ⟨List.replicate
    (max (grow b.stepFunctions.len) (b.stepFunctions.len + 1) - (b.stepFunctions.len + 1)) none,
    ?_, ?_, hrl⟩
  · simp only [AppendStepMem, goMake, goCopy, goAppend, hread1, hmod, Nat.lt_irrefl, if_false]
    simp [Heap.read, ha, List.take_take]
  · simp only [AppendStepMem, goMake, goCopy, goAppend, hread1, hmod, Nat.lt_irrefl, if_false]
    simp

/-- A slice that existed before `AppendStepMem` shows the same elements after it. -/
theorem appendStepMem_frame {Cur New : GoType} (grow : Nat → Nat)
    (h : Heap (StepFunction Val Ctx)) (b : BuilderMem) (s : Step Val Ctx Cur New)
    (hv : h.Valid b.stepFunctions) (t : Slice) (ht : h.Valid t) :
    (AppendStepMem grow h b s).1.read t = h.read t ∧ (AppendStepMem grow h b s).1.Valid t := by
  obtain ⟨pad, harr, -, -⟩ := appendStepMem_arrays grow h b s hv
  obtain ⟨hle, a, ha, hlen⟩ := ht
  have hlt : t.array < h.arrays.length := by
    by_contra hc
    rw [List.getElem?_eq_none (Nat.le_of_not_lt hc)] at ha
    cases ha
  have hget : (AppendStepMem grow h b s).1.arrays[t.array]? = some a := by
    rw [harr, List.getElem?_append_left hlt, ha]
  exact ⟨by simp [Heap.read, hget, ha], hle, a, hget, hlen⟩

/-- The slice of the builder `AppendStepMem` returns: the old elements, then the
new adapter. -/
theorem appendStepMem_read {Cur New : GoType} (grow : Nat → Nat)
    (h : Heap (StepFunction Val Ctx)) (b : BuilderMem) (s : Step Val Ctx Cur New)
    (hv : h.Valid b.stepFunctions) :
    (AppendStepMem grow h b s).1.read (AppendStepMem grow h b s).2.stepFunctions =
        h.read b.stepFunctions ++ [some (wrappedTransformationFunction s)] ∧
      (AppendStepMem grow h b s).1.Valid (AppendStepMem grow h b s).2.stepFunctions := by
  obtain ⟨pad, harr, hsl, hrl⟩ := appendStepMem_arrays grow h b s hv
  have hget : (AppendStepMem grow h b s).1.arrays[h.arrays.length + 1]? =
      some (h.read b.stepFunctions ++ [some (wrappedTransformationFunction s)] ++ pad) := by
    rw [harr, List.getElem?_append_right (by omega)]
    simp
  refine ⟨?_, ?_⟩
  · rw [hsl, Heap.read_eq _ _ _ hget]
    exact List.take_left' (by rw [List.length_append, hrl]; rfl)
  · rw [hsl]
    refine ⟨by simp, _, hget, ?_⟩
    simp only [List.length_append, hrl, List.length_singleton]

/-- C5: `AppendStep` does not touch the builder it is given.  In memory, for a
builder `b` showing the adapters `L`: the builder returned shows `L` followed by
exactly the one new adapter (so `len(L)+1` entries, the first `len(L)` as in
`L`), which is what `AppendStep` computes on slice contents; `b`, a `Pipeline`
built from `b`, and every other slice that existed still show what they showed;
and `b` can be appended to again, the second result being `L` followed by the
second adapter while the first result still shows the same. -/
theorem C5_AppendStep_nondestructive {Cur New New2 : GoType} (grow grow2 : Nat → Nat)
    (h : Heap (StepFunction Val Ctx)) (b : BuilderMem) (s : Step Val Ctx Cur New)
    (s2 : Step Val Ctx Cur New2) (hv : h.Valid b.stepFunctions) :
    (AppendStepMem grow h b s).1.read (AppendStepMem grow h b s).2.stepFunctions =
        h.read b.stepFunctions ++ [some (wrappedTransformationFunction s)] ∧
    ((AppendStepMem grow h b s).1.read (AppendStepMem grow h b s).2.stepFunctions).length =
        (h.read b.stepFunctions).length + 1 ∧
    ((AppendStepMem grow h b s).1.read (AppendStepMem grow h b s).2.stepFunctions).take
        (h.read b.stepFunctions).length = h.read b.stepFunctions ∧
    (∀ B : PipelineBuilder Val Ctx Cur, h.read b.stepFunctions = B.stepFunctions.map some →
      (AppendStepMem grow h b s).1.read (AppendStepMem grow h b s).2.stepFunctions =
        (AppendStep B s).stepFunctions.map some) ∧
    (AppendStepMem grow h b s).1.read b.stepFunctions = h.read b.stepFunctions ∧
    (AppendStepMem grow h b s).1.read (BuildMem b).stepFunctions =
        h.read (BuildMem b).stepFunctions ∧
    (∀ t : Slice, h.Valid t → (AppendStepMem grow h b s).1.read t = h.read t) ∧
    (AppendStepMem grow2 (AppendStepMem grow h b s).1 b s2).1.read
        (AppendStepMem grow2 (AppendStepMem grow h b s).1 b s2).2.stepFunctions =
        h.read b.stepFunctions ++ [some (wrappedTransformationFunction s2)] ∧
    (AppendStepMem grow2 (AppendStepMem grow h b s).1 b s2).1.read
        (AppendStepMem grow h b s).2.stepFunctions =
        h.read b.stepFunctions ++ [some (wrappedTransformationFunction s)] := by
  have h1 := appendStepMem_read grow h b s hv
  have hb := appendStepMem_frame grow h b s hv b.stepFunctions hv
  have h2 := appendStepMem_read grow2 (AppendStepMem grow h b s).1 b s2 hb.2
  have h3 := appendStepMem_frame grow2 (AppendStepMem grow h b s).1 b s2 hb.2
    (AppendStepMem grow h b s).2.stepFunctions h1.2
  refine ⟨h1.1, ?_, ?_, ?_, hb.1, hb.1, ?_, ?_, ?_⟩
  · rw [h1.1]; simp
  · rw [h1.1]; simp
  · intro B hB
    rw [h1.1, hB]
    simp [AppendStep]
  · intro t ht
    exact (appendStepMem_frame grow h b s hv t ht).1
  · rw [h2.1, hb.1]
  · rw [h3.1, h1.1]

/-- The builder `NewPipelineBuilderMem` returns points into the heap and shows
the source adapter. -/
theorem newPipelineBuilderMem_valid {Out : GoType} (h : Heap (StepFunction Val Ctx))
    (src : Step Val Ctx GoType.anyT Out) :
    (NewPipelineBuilderMem h src).1.Valid (NewPipelineBuilderMem h src).2.stepFunctions ∧
    (NewPipelineBuilderMem h src).1.read (NewPipelineBuilderMem h src).2.stepFunctions =
      (NewPipelineBuilder src).stepFunctions.map some := by
  refine ⟨⟨by simp [NewPipelineBuilderMem, goLiteral], [some (wrappedSourceFunction src)], ?_, ?_⟩,
    ?_⟩
  · simp [NewPipelineBuilderMem, goLiteral]
  · simp [NewPipelineBuilderMem, goLiteral]
  · simp [NewPipelineBuilderMem, goLiteral, Heap.read, NewPipelineBuilder]

/-- C5 at the builder of `examples/ls/main.go`: `builderStep`, appended to twice. -/
theorem C5_AppendStep_nondestructive_witness :
    (NewPipelineBuilderMem (Heap.mk []) (NewParseArgumentsStep [] (fun _ => false))).1.Valid
      (NewPipelineBuilderMem (Heap.mk []) (NewParseArgumentsStep [] (fun _ => false))).2.stepFunctions ∧
    (AppendStepMem (fun n => 2 * n)
        (NewPipelineBuilderMem (Heap.mk []) (NewParseArgumentsStep [] (fun _ => false))).1
        (NewPipelineBuilderMem (Heap.mk []) (NewParseArgumentsStep [] (fun _ => false))).2
        (NewListFilesStep (Except.ok []))).1.read
      (NewPipelineBuilderMem (Heap.mk []) (NewParseArgumentsStep [] (fun _ => false))).2.stepFunctions =
      (NewPipelineBuilderMem (Heap.mk []) (NewParseArgumentsStep [] (fun _ => false))).1.read
        (NewPipelineBuilderMem (Heap.mk []) (NewParseArgumentsStep [] (fun _ => false))).2.stepFunctions :=
  ⟨(newPipelineBuilderMem_valid _ _).1,
    (C5_AppendStep_nondestructive (fun n => 2 * n) (fun n => 2 * n) _ _
      (NewListFilesStep (Except.ok [])) (NewListFilesStep (Except.ok []))
      (newPipelineBuilderMem_valid _ _).1).2.2.2.2.1⟩

end Memory

/-! ## Executions -/

section Executions

variable {Val Ctx : Type}

/-- Induction over the states of an execution. -/
theorem Net.Reaches.induction {P : Net Val Ctx → Prop} {n0 n : Net Val Ctx}
    (hr : n0.Reaches n) (h0 : P n0)
    (hstep : ∀ (m : Net Val Ctx) (e : Event) (m1 : Net Val Ctx), P m → m.step e = some m1 → P m1) :
    P n := by
  obtain ⟨es, hes⟩ := hr
  induction es generalizing n0 with
  | nil =>
    simp only [Net.run, Option.some.injEq] at hes
    exact hes ▸ h0
  | cons e es ih =>
    simp only [Net.run] at hes
    cases hs : n0.step e with
    | none => simp [hs] at hes
    | some m1 =>
      rw [hs] at hes
      exact ih (hstep n0 e m1 h0 hs) hes

/-- An execution can be continued by one event. -/
theorem Net.Reaches.step {n0 n n1 : Net Val Ctx} (hr : n0.Reaches n) (e : Event)
    (hs : n.step e = some n1) : n0.Reaches n1 := by
  obtain ⟨es, hes⟩ := hr
  refine ⟨es ++ [e], ?_⟩
  induction es generalizing n0 with
  | nil =>
    simp only [Net.run, Option.some.injEq] at hes
    subst hes
    simp [Net.run, hs]
  | cons e0 es ih =>
    simp only [Net.run, List.cons_append] at hes ⊢
    cases hs0 : n0.step e0 with
    | none => simp [hs0] at hes
    | some m1 =>
      rw [hs0] at hes
      simpa [hs0] using ih hes

/-- Every state reaches itself. -/
theorem Net.Reaches.refl (n : Net Val Ctx) : n.Reaches n := ⟨[], rfl⟩

/-- A step of a stage goroutine leaves `Execute`, its history and the cancellation
flag as they are. -/
theorem Net.stepTask_frame {n n1 : Net Val Ctx} {i : Nat} {d : Bool}
    (hs : n.stepTask i d = some n1) :
    n1.main = n.main ∧ n1.calls = n.calls ∧ n1.drained = n.drained ∧
    n1.finalType = n.finalType ∧ n1.cancelled = n.cancelled := by
  unfold Net.stepTask at hs
  split at hs
  · cases hs
  · split at hs
    · cases hs
    · split at hs
      · cases hs
      · cases hs; simp [Net.setStatus]
    · split at hs
      · cases hs; simp [Net.setStatus]
      · cases hs; simp [Net.setStatus]
      · cases hs; simp [Net.setStatus]
      · unfold Net.tryRecv at hs
        split at hs
        · cases hs
        · split at hs
          · cases hs
          · split at hs
            · cases hs; simp [Net.setStatus]
            · split at hs
              · cases hs; simp [Net.setStatus]
              · cases hs
      · unfold Net.trySend at hs
        split at hs
        · cases hs
        · split at hs
          · cases hs
          · split at hs
            · cases hs; simp [Net.setStatus]
            · cases hs
      · split at hs
        · split at hs
          · cases hs; simp [Net.setStatus]
          · cases hs
        · unfold Net.trySend at hs
          split at hs
          · cases hs
          · split at hs
            · cases hs
            · split at hs
              · cases hs; simp [Net.setStatus]
              · cases hs

/-- Every step of a goroutine is one of the cases of `TaskStep`. -/
theorem Net.stepTask_inv {n n1 : Net Val Ctx} {i : Nat} {d : Bool}
    (hs : n.stepTask i d = some n1) :
    ∃ t, n.rt.tasks[i]? = some t ∧ TaskStep n i t n1 := by
  unfold Net.stepTask at hs
  split at hs
  · cases hs
  · rename_i t ht
    refine ⟨t, ht, ?_⟩
    split at hs
    · cases hs
    · rename_i e hst
      split at hs
      · cases hs
      · rename_i c hc
        cases hs
        exact TaskStep.close e c hst hc
    · rename_i s hst
      split at hs
      · rename_i e hcode
        cases hs
        exact TaskStep.ret s e hst hcode
      · rename_i f hcode
        cases hs
        exact TaskStep.withCtx s f hst hcode
      · rename_i line k hcode
        cases hs
        exact TaskStep.print s line k hst hcode
      · rename_i k hcode
        unfold Net.tryRecv at hs
        split at hs
        · cases hs
        · rename_i ch hin
          split at hs
          · cases hs
          · rename_i c hc
            split at hs
            · rename_i x xs hbuf
              cases hs
              exact TaskStep.recvItem s k ch c x xs hst hcode hin hc hbuf
            · rename_i hbuf
              split at hs
              · rename_i hcl
                cases hs
                exact TaskStep.recvClosed s k ch c hst hcode hin hc hbuf hcl
              · cases hs
      · rename_i r k hcode
        unfold Net.trySend at hs
        split at hs
        · cases hs
        · rename_i c hc
          split at hs
          · cases hs
          · rename_i hcl
            split at hs
            · rename_i hlen
              cases hs
              exact TaskStep.send s r k c hst (Or.inl hcode) hc (by simpa using hcl) hlen
            · cases hs
      · rename_i r onDone onSent hcode
        split at hs
        · split at hs
          · rename_i hcan
            cases hs
            exact TaskStep.ctxDone s r onDone onSent hst hcode hcan
          · cases hs
        · unfold Net.trySend at hs
          split at hs
          · cases hs
          · rename_i c hc
            split at hs
            · cases hs
            · rename_i hcl
              split at hs
              · rename_i hlen
                cases hs
                exact TaskStep.send s r onSent c hst (Or.inr ⟨onDone, hcode⟩) hc
                  (by simpa using hcl) hlen
              · cases hs

end Executions

/-! ## The loop over `stepFunctions` -/

section Walk

variable {Val Ctx : Type}

/-- One more successful call extends a history. -/
theorem Walked.snoc {L rest : List (StepFunction Val Ctx)} {c0 cur : Handle} {calls : List Call}
    {f : StepFunction Val Ctx} (hw : Walked L c0 calls (f :: rest) cur) (rt : Runtime Val Ctx)
    (he : (f cur rt).err = none) :
    Walked L c0 (calls ++ [Call.of f cur rt]) rest (f cur rt).output := by
  generalize hR : f :: rest = R at hw
  induction hw with
  | nil L cur =>
    subst hR
    exact Walked.cons f rest cur rt [] rest _ he (Walked.nil _ _)
  | cons g L cur rt1 calls rest1 cur1 hg _ ih =>
    exact Walked.cons g L cur rt1 _ _ _ hg (ih he hR)

/-- No call of a history returned an error. -/
theorem Walked.err_none {L rest : List (StepFunction Val Ctx)} {c0 cur : Handle}
    {calls : List Call} (hw : Walked L c0 calls rest cur) : ∀ c ∈ calls, c.err = none := by
  induction hw with
  | nil L cur => intro c hc; cases hc
  | cons g L cur rt1 calls rest1 cur1 hg _ ih =>
    intro c hc
    rcases List.mem_cons.1 hc with h | h
    · subst h; exact hg
    · exact ih c h

/-- A history is a possible log. -/
theorem Walked.toLog {L rest : List (StepFunction Val Ctx)} {c0 cur : Handle}
    {calls : List Call} (hw : Walked L c0 calls rest cur) : WalkLog L c0 calls := by
  induction hw with
  | nil L cur => exact WalkLog.nil _ _
  | cons g L cur rt1 calls rest1 cur1 hg _ ih => exact WalkLog.cons g L cur rt1 calls hg ih

/-- A history followed by a call that returned an error is a possible log. -/
theorem Walked.toLog_fail {L rest : List (StepFunction Val Ctx)} {c0 cur : Handle}
    {calls : List Call} {f : StepFunction Val Ctx} (hw : Walked L c0 calls (f :: rest) cur)
    (rt : Runtime Val Ctx) (e : GoError) (he : (f cur rt).err = some e) :
    WalkLog L c0 (calls ++ [Call.of f cur rt]) := by
  generalize hR : f :: rest = R at hw
  induction hw with
  | nil L cur =>
    subst hR
    exact WalkLog.fail f rest cur rt e he
  | cons g L cur rt1 calls rest1 cur1 hg _ ih =>
    exact WalkLog.cons g L cur rt1 _ hg (ih he hR)

/-- `WalkInv` holds when `Execute` is entered. -/
theorem walkInv_init {Final : GoType} (p : Pipeline Val Ctx Final) (ctx : Ctx) :
    WalkInv p.stepFunctions Final (p.Execute ctx) :=
  ⟨rfl, Walked.nil _ _, rfl⟩

/-- `WalkInv` is kept by every event. -/
theorem walkInv_step {Final : GoType} {L : List (StepFunction Val Ctx)} {n n1 : Net Val Ctx}
    {e : Event} (hi : WalkInv L Final n) (hs : n.step e = some n1) : WalkInv L Final n1 := by
  cases e with
  | cancel =>
    simp only [Net.step] at hs
    split at hs
    · cases hs
    · cases hs; exact hi
  | task i d =>
    obtain ⟨hm, hc, hd, hf, -⟩ := Net.stepTask_frame hs
    unfold WalkInv at hi ⊢
    rw [hm, hc, hd, hf]
    exact hi
  | main =>
    simp only [Net.step] at hs
    obtain ⟨hF, hi⟩ := hi
    unfold Net.stepMain at hs
    split at hs
    · rename_i f rest cur hmain
      rw [hmain] at hi
      obtain ⟨hw, hd⟩ := hi
      dsimp only at hs
      split at hs
      · rename_i err herr
        cases hs
        exact ⟨hF, hd, Or.inl ⟨n.calls, f, rest, cur, n.rt, hw, herr, rfl⟩⟩
      · rename_i herr
        cases hs
        exact ⟨hF, hw.snoc n.rt herr, hd⟩
    · rename_i cur hmain
      rw [hmain] at hi
      obtain ⟨hw, hd⟩ := hi
      split at hs
      · rename_i elem ch
        split at hs
        · rename_i hel
          cases hs
          rw [hF] at hel
          subst hel
          exact ⟨hF, hw⟩
        · rename_i hel
          cases hs
          refine ⟨hF, hd, Or.inr ⟨_, hw, ?_, rfl⟩⟩
          intro ch1 hch
          injection hch with h1 h2
          exact hel (by rw [hF]; exact h1)
      · cases hs
        refine ⟨hF, hd, Or.inr ⟨_, hw, ?_, rfl⟩⟩
        intro ch1 hch
        cases hch
    · rename_i ch hmain
      rw [hmain] at hi
      split at hs
      · cases hs
      · split at hs
        · cases hs
          refine ⟨hF, ?_⟩
          simp only [hmain]
          exact hi
        · split at hs
          · cases hs
            exact ⟨hF, ch, hi⟩
          · cases hs
    · cases hs

/-- `WalkInv` holds throughout an execution. -/
theorem walkInv_reaches {Final : GoType} (p : Pipeline Val Ctx Final) (ctx : Ctx)
    {n : Net Val Ctx} (hr : (p.Execute ctx).Reaches n) : WalkInv p.stepFunctions Final n :=
  hr.induction (walkInv_init p ctx) (fun _ _ _ hi hs => walkInv_step hi hs)

/-- The input of a later adapter, seen from the adapter after the first. -/
theorem inputFrom_cons (cur : Handle) (c : Call) (calls : List Call) (j : Nat) :
    inputFrom cur (c :: calls) (j + 1) = inputFrom c.output calls j := by
  cases j with
  | zero => simp [inputFrom]
  | succ j => simp [inputFrom]

/-- A history has called as many adapters as are not left. -/
theorem Walked.length_add {L rest : List (StepFunction Val Ctx)} {c0 cur : Handle}
    {calls : List Call} (hw : Walked L c0 calls rest cur) :
    calls.length + rest.length = L.length := by
  induction hw with
  | nil L cur => simp
  | cons g L cur rt1 calls rest1 cur1 _ _ ih =>
    simp only [List.length_cons]
    omega

/-- The adapters a history leaves are those after the calls made. -/
theorem Walked.rest_eq {L rest : List (StepFunction Val Ctx)} {c0 cur : Handle}
    {calls : List Call} (hw : Walked L c0 calls rest cur) : rest = L.drop calls.length := by
  induction hw with
  | nil L cur => rfl
  | cons g L cur rt1 calls rest1 cur1 _ _ ih => simpa using ih

/-- The handle a history leaves is the output of its last call. -/
theorem Walked.cur_eq {L rest : List (StepFunction Val Ctx)} {c0 cur : Handle}
    {calls : List Call} (hw : Walked L c0 calls rest cur) :
    cur = inputFrom c0 calls calls.length := by
  induction hw with
  | nil L cur => rfl
  | cons g L cur rt1 calls rest1 cur1 _ _ ih =>
    rw [List.length_cons, inputFrom_cons]
    exact ih

/-- In a possible log, the `j`-th call is a call of the `j`-th adapter on the
output of the call before. -/
theorem WalkLog.call_at {L : List (StepFunction Val Ctx)} {c0 : Handle} {calls : List Call}
    (hw : WalkLog L c0 calls) (j : Nat) (call : Call) (hc : calls[j]? = some call) :
    ∃ f rt, L[j]? = some f ∧ call = Call.of f (inputFrom c0 calls j) rt := by
  induction hw generalizing j with
  | nil L cur => cases hc
  | cons g L cur rt1 calls _ _ ih =>
    cases j with
    | zero =>
      simp only [List.getElem?_cons_zero, Option.some.injEq] at hc
      exact ⟨g, rt1, List.getElem?_cons_zero, hc.symm⟩
    | succ j =>
      simp only [List.getElem?_cons_succ] at hc
      obtain ⟨f, rt, hf, hcall⟩ := ih j hc
      refine ⟨f, rt, by simpa using hf, ?_⟩
      rw [inputFrom_cons]
      exact hcall
  | fail g L cur rt1 e _ =>
    cases j with
    | zero =>
      simp only [List.getElem?_cons_zero, Option.some.injEq] at hc
      exact ⟨g, rt1, List.getElem?_cons_zero, hc.symm⟩
    | succ j => simp at hc

/-- C4: `Execute` walks the adapter list left to right from a nil input.  In
every execution on any list of adapters: the `j`-th call made is a call of the
`j`-th adapter, the first on `nil` and each next one on the handle the call
before returned; while `Execute` is in the loop, the adapters left are those
after the calls made, and its next step is the call of the next adapter on that
handle, after which it goes on with the adapter after it, or returns the error
of the call; so when the loop is over without an error every adapter has been
called.  When a call returns a non-nil error `e`, that call is the last one made
(no adapter after it is called), `Execute` has returned exactly `e`, the drain
loop has read nothing, and `Execute`, once returned, takes no further step. -/
theorem C4_walk_aborts_at_first_error {Final : GoType} (p : Pipeline Val Ctx Final) (ctx : Ctx)
    (n : Net Val Ctx) (hr : (p.Execute ctx).Reaches n) :
    WalkLog p.stepFunctions Handle.nil n.calls ∧
    (∀ (j : Nat) (call : Call), n.calls[j]? = some call →
      ∃ f rt, p.stepFunctions[j]? = some f ∧
        call = Call.of f (inputFrom Handle.nil n.calls j) rt) ∧
    (∀ (i : Nat) (c : Call) (e : GoError), n.calls[i]? = some c → c.err = some e →
      n.main = Main.returned (some e) ∧ n.calls.length = i + 1 ∧ n.drained = []) ∧
    (∀ rest cur, n.main = Main.walking rest cur →
      rest = p.stepFunctions.drop n.calls.length ∧
      cur = inputFrom Handle.nil n.calls n.calls.length ∧ n.drained = []) ∧
    (∀ f rest cur, n.main = Main.walking (f :: rest) cur →
      ∃ n1, n.step Event.main = some n1 ∧ n1.rt = (f cur n.rt).rt ∧
        n1.calls = n.calls ++ [Call.of f cur n.rt] ∧ n1.drained = n.drained ∧
        n1.main = (match (f cur n.rt).err with
          | some e => Main.returned (some e)
          | none => Main.walking rest (f cur n.rt).output)) ∧
    ((∃ ch, n.main = Main.draining ch) ∨ n.main = Main.returned none →
      n.calls.length = p.stepFunctions.length) ∧
    (∀ r, n.main = Main.returned r → n.step Event.main = none) := by
  obtain ⟨-, hi⟩ := walkInv_reaches p ctx hr
  have hnone : ∀ {rest cur}, Walked p.stepFunctions Handle.nil n.calls rest cur →
      ∀ (i : Nat) (c : Call) (e : GoError), n.calls[i]? = some c → c.err = some e → False := by
    intro rest cur hw i c e hc he
    have := hw.err_none c (List.getElem?_mem hc)
    rw [this] at he
    cases he
  have hstep : ∀ f rest cur, n.main = Main.walking (f :: rest) cur →
      ∃ n1, n.step Event.main = some n1 ∧ n1.rt = (f cur n.rt).rt ∧
        n1.calls = n.calls ++ [Call.of f cur n.rt] ∧ n1.drained = n.drained ∧
        n1.main = (match (f cur n.rt).err with
          | some e => Main.returned (some e)
          | none => Main.walking rest (f cur n.rt).output) := by
    intro f rest cur hm
    cases herr : (f cur n.rt).err with
    | none =>
      have hs : n.step Event.main = some { n with
          rt := (f cur n.rt).rt, main := Main.walking rest (f cur n.rt).output,
          calls := n.calls ++ [Call.of f cur n.rt] } := by
        simp only [Net.step, Net.stepMain, hm, herr, Call.of]
      exact ⟨_, hs, rfl, rfl, rfl, rfl⟩
    | some e =>
      have hs : n.step Event.main = some { n with
          rt := (f cur n.rt).rt, main := Main.returned (some e),
          calls := n.calls ++ [Call.of f cur n.rt] } := by
        simp only [Net.step, Net.stepMain, hm, herr, Call.of]
      exact ⟨_, hs, rfl, rfl, rfl, rfl⟩
  have hret : ∀ r, n.main = Main.returned r → n.step Event.main = none := by
    intro r hm
    simp only [Net.step, Net.stepMain, hm]
  have hlog : WalkLog p.stepFunctions Handle.nil n.calls ∧
      (∀ (i : Nat) (c : Call) (e : GoError), n.calls[i]? = some c → c.err = some e →
        n.main = Main.returned (some e) ∧ n.calls.length = i + 1 ∧ n.drained = []) ∧
      (∀ rest cur, n.main = Main.walking rest cur →
        rest = p.stepFunctions.drop n.calls.length ∧
        cur = inputFrom Handle.nil n.calls n.calls.length ∧ n.drained = []) ∧
      ((∃ ch, n.main = Main.draining ch) ∨ n.main = Main.returned none →
        n.calls.length = p.stepFunctions.length) := by
    cases hmain : n.main with
    | walking rest cur =>
      rw [hmain] at hi
      refine ⟨hi.1.toLog, fun i c e hc he => (hnone hi.1 i c e hc he).elim, ?_, ?_⟩
      · intro rest1 cur1 h
        cases h
        exact ⟨hi.1.rest_eq, hi.1.cur_eq, hi.2⟩
      · rintro (⟨ch, h⟩ | h) <;> cases h
    | draining ch =>
      rw [hmain] at hi
      refine ⟨hi.toLog, fun i c e hc he => (hnone hi i c e hc he).elim, ?_, ?_⟩
      · intro rest1 cur1 h
        cases h
      · intro _
        simpa using hi.length_add
    | returned r =>
      rw [hmain] at hi
      cases r with
      | none =>
        obtain ⟨ch, hw⟩ := hi
        refine ⟨hw.toLog, fun i c e hc he => (hnone hw i c e hc he).elim, ?_, ?_⟩
        · intro rest1 cur1 h
          cases h
        · intro _
          simpa using hw.length_add
      | some e0 =>
        obtain ⟨hd, h | h⟩ := hi
        · obtain ⟨calls0, f, rest, cur, rt, hw, herr, hcalls⟩ := h
          refine ⟨hcalls ▸ hw.toLog_fail rt e0 herr, ?_, ?_, ?_⟩
          · intro i c e hc he
            rw [hcalls] at hc
            rw [hcalls]
            by_cases hlt : i < calls0.length
            · rw [List.getElem?_append_left hlt] at hc
              have := hw.err_none c (List.getElem?_mem hc)
              rw [this] at he
              cases he
            · rw [List.getElem?_append_right (Nat.le_of_not_lt hlt)] at hc
              have hi0 : i - calls0.length = 0 := by
                by_contra hne
                obtain ⟨k, hk⟩ := Nat.exists_eq_succ_of_ne_zero hne
                rw [hk] at hc
                simp at hc
              rw [hi0] at hc
              simp only [List.getElem?_cons_zero, Option.some.injEq] at hc
              subst hc
              have : e = e0 := by
                have h2 : (Call.of f cur rt).err = some e0 := herr
                rw [h2] at he
                exact (Option.some.inj he).symm
              subst this
              refine ⟨rfl, ?_, hd⟩
              simp only [List.length_append, List.length_singleton]
              omega
          · intro rest1 cur1 h
            cases h
          · rintro (⟨ch, h⟩ | h) <;> cases h
        · obtain ⟨cur, hw, -, -⟩ := h
          refine ⟨hw.toLog, fun i c e hc he => (hnone hw i c e hc he).elim, ?_, ?_⟩
          · intro rest1 cur1 h
            cases h
          · rintro (⟨ch, h⟩ | h) <;> cases h
  exact ⟨hlog.1, fun j call hc => hlog.1.call_at j call hc, hlog.2.1, hlog.2.2.1, hstep,
    hlog.2.2.2, hret⟩

/-- C4 at a pipeline of three adapters whose second adapter fails: `Execute`
calls the first adapter, which starts its goroutine on a fresh channel, then the
second on the channel the first returned; the second returns its error, which
`Execute` returns after these two calls, with the third adapter not called, no
second goroutine or channel, and nothing drained. -/
theorem C4_walk_aborts_at_first_error_witness :
    (mistypedPipeline.Execute lsContext).Reaches
      ((mistypedPipeline.Execute lsContext).runD [Event.main, Event.main]) ∧
    (((mistypedPipeline.Execute lsContext).runD [Event.main, Event.main]).main =
        Main.returned (some (GoError.msg "invalid input type for step FilterFiles")) ∧
      ((mistypedPipeline.Execute lsContext).runD [Event.main, Event.main]).calls.length = 1 + 1 ∧
      ((mistypedPipeline.Execute lsContext).runD [Event.main, Event.main]).drained = []) ∧
    mistypedPipeline.stepFunctions.length = 3 ∧
    ((mistypedPipeline.Execute lsContext).runD [Event.main, Event.main]).calls =
      [{ input := Handle.nil, output := Handle.chan GoType.stringT 0, err := none },
        { input := Handle.chan GoType.stringT 0, output := Handle.nil,
          err := some (GoError.msg "invalid input type for step FilterFiles") }] ∧
    ((mistypedPipeline.Execute lsContext).runD [Event.main, Event.main]).rt.tasks.length = 1 ∧
    ((mistypedPipeline.Execute lsContext).runD [Event.main, Event.main]).rt.chans.length = 1 :=
  ⟨⟨[Event.main, Event.main], rfl⟩,
    (C4_walk_aborts_at_first_error mistypedPipeline lsContext
      ((mistypedPipeline.Execute lsContext).runD [Event.main, Event.main])
      ⟨[Event.main, Event.main], rfl⟩).2.2.1 1
      { input := Handle.chan GoType.stringT 0, output := Handle.nil,
        err := some (GoError.msg "invalid input type for step FilterFiles") }
      (GoError.msg "invalid input type for step FilterFiles") rfl rfl,
    rfl, rfl, rfl, rfl⟩

end Walk

/-! ## Built pipelines -/

section Built

variable {Val Ctx : Type}

/-- The handle before adapter `j` only depends on the stages before `j`. -/
theorem handleBefore_append (S X : List (AnyStep Val Ctx)) (j : Nat) (hj : j ≤ S.length) :
    handleBefore (S ++ X) j = handleBefore S j := by
  cases j with
  | zero => rfl
  | succ j =>
    simp only [handleBefore]
    rw [List.getElem?_append_left (by omega)]

/-- The input channel of a goroutine that is not the first. -/
theorem inputOf_pos {j : Nat} (hj : 0 < j) : inputOf j = some (j - 1) := by
  unfold inputOf
  rw [if_neg (by omega)]

/-- The adapters of a chain of `NewPipelineBuilder` and `AppendStep` calls are
those of its stages, with types that chain. -/
theorem Chain.wellTyped {T : GoType} (c : Chain Val Ctx T) :
    WellTyped c.stages c.builder.stepFunctions T := by
  induction c with
  | source s =>
    refine ⟨rfl, by simp [Chain.stages], ?_, ?_, rfl⟩
    · intro j f st hf hst rt
      cases j with
      | zero =>
        simp only [Chain.builder, NewPipelineBuilder, List.getElem?_cons_zero,
          Option.some.injEq] at hf
        simp only [Chain.stages, List.getElem?_cons_zero, Option.some.injEq] at hst
        subst hf
        subst hst
        rfl
      | succ j => simp [Chain.builder, NewPipelineBuilder] at hf
    · intro j st hst hj
      cases j with
      | zero => exact absurd hj (Nat.lt_irrefl 0)
      | succ j => simp [Chain.stages] at hst
  | append c s ih =>
    rename_i Cur New
    have hlen : c.builder.stepFunctions.length = c.stages.length := ih.length_eq
    refine ⟨?_, ?_, ?_, ?_, ?_⟩
    · simp [Chain.builder, AppendStep, Chain.stages, hlen]
    · simp [Chain.stages]
    · intro j f st hf hst rt
      simp only [Chain.builder, AppendStep] at hf
      simp only [Chain.stages] at hst ⊢
      by_cases hj : j < c.stages.length
      · rw [List.getElem?_append_left (by omega)] at hf
        rw [List.getElem?_append_left hj] at hst
        rw [handleBefore_append _ _ _ (by omega)]
        exact ih.adapter j f st hf hst rt
      · have hge : c.stages.length ≤ j := Nat.le_of_not_lt hj
        rw [List.getElem?_append_right (by omega)] at hf
        rw [List.getElem?_append_right hge] at hst
        have hj0 : j - c.stages.length = 0 := by
          by_contra hne
          obtain ⟨k, hk⟩ := Nat.exists_eq_succ_of_ne_zero hne
          rw [hk] at hst
          simp at hst
        have hjeq : j = c.stages.length := by omega
        rw [hlen, hj0] at hf
        rw [hj0] at hst
        simp only [List.getElem?_cons_zero, Option.some.injEq] at hf hst
        subst hf
        subst hst
        subst hjeq
        rw [handleBefore_append _ _ _ (Nat.le_refl _), ih.final, inputOf_pos ih.pos]
        simp only [wrappedTransformationFunction, if_true]
        rfl
    · intro j st hst hj
      simp only [Chain.stages] at hst ⊢
      by_cases hlt : j < c.stages.length
      · rw [List.getElem?_append_left hlt] at hst
        rw [handleBefore_append _ _ _ (by omega)]
        exact ih.input j st hst hj
      · have hge : c.stages.length ≤ j := Nat.le_of_not_lt hlt
        rw [List.getElem?_append_right hge] at hst
        have hj0 : j - c.stages.length = 0 := by
          by_contra hne
          obtain ⟨k, hk⟩ := Nat.exists_eq_succ_of_ne_zero hne
          rw [hk] at hst
          simp at hst
        have hjeq : j = c.stages.length := by omega
        rw [hj0] at hst
        simp only [List.getElem?_cons_zero, Option.some.injEq] at hst
        subst hst
        subst hjeq
        rw [handleBefore_append _ _ _ (Nat.le_refl _), ih.final]
    · simp only [Chain.stages, List.length_append, List.length_singleton, handleBefore]
      rw [List.getElem?_append_right (Nat.le_refl _)]
      simp

/-- `ChainInv` holds when `Execute` is entered. -/
theorem chainInv_init {T : GoType} (S : List (AnyStep Val Ctx)) (F : List (StepFunction Val Ctx))
    (ctx : Ctx) : ChainInv S F T ((Pipeline.mk F : Pipeline Val Ctx T).Execute ctx) where
  finalType := rfl
  lens := rfl
  le := Nat.zero_le _
  task := by intro j t h; simp [Pipeline.Execute] at h
  chan := by intro j t c h; simp [Pipeline.Execute] at h
  calls := rfl
  main := ⟨rfl, rfl⟩

/-- Looking up a list after `set`. -/
theorem getElem?_set_cases {α : Type u} {l : List α} {i j : Nat} {x y : α}
    (h : (l.set i x)[j]? = some y) : (j = i ∧ y = x ∧ i < l.length) ∨ (j ≠ i ∧ l[j]? = some y) := by
  rw [List.getElem?_set] at h
  by_cases hij : i = j
  · rw [if_pos hij] at h
    by_cases hlt : i < l.length
    · rw [if_pos hlt] at h
      exact Or.inl ⟨hij.symm, (Option.some.inj h).symm, hlt⟩
    · rw [if_neg hlt] at h
      cases h
  · rw [if_neg hij] at h
    exact Or.inr ⟨fun h' => hij h'.symm, h⟩

/-- Setting a cell to what it holds changes nothing. -/
theorem set_getElem_same {α : Type u} {l : List α} {i : Nat} (h : i < l.length) :
    l.set i l[i] = l := by
  apply List.ext_getElem?
  intro j
  rw [List.getElem?_set]
  by_cases h1 : i = j
  · subst h1
    rw [if_pos rfl, if_pos h]
    exact (List.getElem?_eq_getElem h).symm
  · rw [if_neg h1]

/-- `ChainInv` is kept by a change that moves goroutines to other statuses and
changes channels in their queue only, or closes the channel of a goroutine that
finishes. -/
theorem ChainInv.similar {T : GoType} {S : List (AnyStep Val Ctx)}
    {F : List (StepFunction Val Ctx)} {n n1 : Net Val Ctx} (hi : ChainInv S F T n)
    (hF : n1.finalType = n.finalType) (hm : n1.main = n.main) (hcalls : n1.calls = n.calls)
    (hlt : n1.rt.tasks.length = n.rt.tasks.length)
    (hlc : n1.rt.chans.length = n.rt.chans.length)
    (ht : ∀ (j : Nat) (t1 : Task Val Ctx), n1.rt.tasks[j]? = some t1 →
      ∃ t, n.rt.tasks[j]? = some t ∧ ∃ status1 : Status t.σ, t1 = { t with status := status1 })
    (hc : ∀ (j : Nat) (t1 : Task Val Ctx) (c1 : Chan Val), n1.rt.tasks[j]? = some t1 →
      n1.rt.chans[j]? = some c1 → ∃ t c, n.rt.tasks[j]? = some t ∧ n.rt.chans[j]? = some c ∧
        c1.elemType = c.elemType ∧ c1.cap = c.cap ∧
        ((c1.closes = c.closes ∧ t1.isDone = t.isDone) ∨
         (c.closes = 0 ∧ c1.closes = 1 ∧ t1.isDone = true))) :
    ChainInv S F T n1 where
  finalType := hF ▸ hi.finalType
  lens := by rw [hlt, hlc]; exact hi.lens
  le := hlt ▸ hi.le
  task := by
    intro j t1 h1
    obtain ⟨t, ht0, status1, rfl⟩ := ht j t1 h1
    obtain ⟨st, status, hS, rfl⟩ := hi.task j t ht0
    exact ⟨st, status1, hS, rfl⟩
  chan := by
    intro j t1 c1 h1 h2
    obtain ⟨t, c, ht0, hc0, hel, hcap, hcl⟩ := hc j t1 c1 h1 h2
    obtain ⟨st, hS, hel0, hcap0, hcl0⟩ := hi.chan j t c ht0 hc0
    refine ⟨st, hS, hel.trans hel0, hcap.trans hcap0, ?_⟩
    rcases hcl with ⟨h3, h4⟩ | ⟨-, h3, h4⟩
    · rw [h3, h4, hcl0]
    · rw [h3, h4]; rfl
  calls := by rw [hcalls, hlt]; exact hi.calls
  main := by rw [hm, hlt]; exact hi.main

/-- `ChainInv` is kept when goroutine `i` changes status and channel `a` changes. -/
theorem ChainInv.update {T : GoType} {S : List (AnyStep Val Ctx)}
    {F : List (StepFunction Val Ctx)} {n n1 : Net Val Ctx} (hi : ChainInv S F T n)
    (hF : n1.finalType = n.finalType) (hm : n1.main = n.main) (hcalls : n1.calls = n.calls)
    {i a : Nat} {t : Task Val Ctx} {c d : Chan Val} (status1 : Status t.σ)
    (hti : n.rt.tasks[i]? = some t) (hca : n.rt.chans[a]? = some c)
    (hrt : n1.rt = (n.rt.setChan a d).setTask i { t with status := status1 })
    (hel : d.elemType = c.elemType) (hcap : d.cap = c.cap)
    (hcl : (d.closes = c.closes ∧ ({ t with status := status1 } : Task Val Ctx).isDone = t.isDone) ∨
      (a = i ∧ c.closes = 0 ∧ d.closes = 1 ∧
        ({ t with status := status1 } : Task Val Ctx).isDone = true)) :
    ChainInv S F T n1 := by
  refine hi.similar hF hm hcalls (by simp [hrt, Runtime.setTask, Runtime.setChan])
    (by simp [hrt, Runtime.setTask, Runtime.setChan]) ?_ ?_
  · intro j t1 h1
    simp only [hrt, Runtime.setTask, Runtime.setChan] at h1
    rcases getElem?_set_cases h1 with ⟨rfl, rfl, -⟩ | ⟨-, h2⟩
    · exact ⟨t, hti, status1, rfl⟩
    · exact ⟨t1, h2, t1.status, rfl⟩
  · intro j t1 c2 h1 h2
    simp only [hrt, Runtime.setTask, Runtime.setChan] at h1 h2
    rcases getElem?_set_cases h1 with ⟨rfl, rfl, -⟩ | ⟨hji, h3⟩
    · rcases getElem?_set_cases h2 with ⟨hja, rfl, -⟩ | ⟨hja, h4⟩
      · subst hja
        refine ⟨t, c, hti, hca, hel, hcap, ?_⟩
        rcases hcl with h5 | ⟨-, h5⟩
        · exact Or.inl h5
        · exact Or.inr h5
      · refine ⟨t, c2, hti, h4, rfl, rfl, Or.inl ⟨rfl, ?_⟩⟩
        rcases hcl with h5 | ⟨h5, -⟩
        · exact h5.2
        · exact (hja h5.symm).elim
    · rcases getElem?_set_cases h2 with ⟨hja, rfl, -⟩ | ⟨hja, h4⟩
      · subst hja
        refine ⟨t1, c, h3, hca, hel, hcap, Or.inl ⟨?_, rfl⟩⟩
        rcases hcl with h5 | ⟨h5, -⟩
        · exact h5.1
        · exact (hji h5).elim
      · exact ⟨t1, c2, h3, h4, rfl, rfl, Or.inl ⟨rfl, rfl⟩⟩

/-- `ChainInv` is kept when goroutine `i` changes status and no channel changes. -/
theorem ChainInv.updateTask {T : GoType} {S : List (AnyStep Val Ctx)}
    {F : List (StepFunction Val Ctx)} {n n1 : Net Val Ctx} (hi : ChainInv S F T n)
    (hF : n1.finalType = n.finalType) (hm : n1.main = n.main) (hcalls : n1.calls = n.calls)
    {i : Nat} {t : Task Val Ctx} (status1 : Status t.σ)
    (hti : n.rt.tasks[i]? = some t)
    (hrt : n1.rt = n.rt.setTask i { t with status := status1 })
    (hd : ({ t with status := status1 } : Task Val Ctx).isDone = t.isDone) :
    ChainInv S F T n1 := by
  have hlt : i < n.rt.chans.length := by
    rw [hi.lens]
    by_contra hc
    rw [List.getElem?_eq_none (Nat.le_of_not_lt hc)] at hti
    cases hti
  refine hi.update hF hm hcalls (a := i) (c := n.rt.chans[i]) (d := n.rt.chans[i]) status1 hti
    (List.getElem?_eq_getElem hlt) ?_ rfl rfl (Or.inl ⟨rfl, hd⟩)
  rw [hrt]
  simp [Runtime.setChan, Runtime.setTask, set_getElem_same hlt]

/-- A goroutine the invariant describes writes to the channel of its index. -/
theorem ChainInv.output_eq {T : GoType} {S : List (AnyStep Val Ctx)}
    {F : List (StepFunction Val Ctx)} {n : Net Val Ctx} (hi : ChainInv S F T n) {i : Nat}
    {t : Task Val Ctx} (hti : n.rt.tasks[i]? = some t) :
    t.output = i ∧ t.input = inputOf i := by
  obtain ⟨st, status, -, rfl⟩ := hi.task i t hti
  exact ⟨rfl, rfl⟩

/-- `ChainInv` is kept by every step of a stage goroutine. -/
theorem chainInv_stepTask {T : GoType} {S : List (AnyStep Val Ctx)}
    {F : List (StepFunction Val Ctx)} {n n1 : Net Val Ctx} {i : Nat} {t : Task Val Ctx}
    (hi : ChainInv S F T n) (hti : n.rt.tasks[i]? = some t) (hs : TaskStep n i t n1) :
    ChainInv S F T n1 := by
  obtain ⟨hout, -⟩ := hi.output_eq hti
  cases hs with
  | close e c hst hc =>
    rw [hout] at hc
    obtain ⟨st, -, -, -, hcl⟩ := hi.chan i t c hti hc
    have h0 : c.closes = 0 := by
      rw [hcl]
      simp [Task.isDone, hst]
    refine hi.update rfl rfl rfl (a := i) (d := { c with closes := c.closes + 1 }) Status.done
      hti hc ?_ rfl rfl (Or.inr ⟨rfl, h0, ?_, rfl⟩)
    · simp [Net.setStatus, hout]
    · simp [h0]
  | ret s e hst hcode =>
    exact hi.updateTask rfl rfl rfl (Status.returned e) hti rfl (by simp [Task.isDone, hst])
  | withCtx s f hst hcode =>
    exact hi.updateTask rfl rfl rfl (Status.running (f n.pipelineContext).2) hti rfl
      (by simp [Task.isDone, hst])
  | print s line k hst hcode =>
    exact hi.updateTask rfl rfl rfl (Status.running k) hti rfl (by simp [Task.isDone, hst])
  | recvItem s k ch c x xs hst hcode hin hc hbuf =>
    exact hi.update rfl rfl rfl (a := ch) (d := { c with buf := xs })
      (Status.running (k (some x))) hti hc rfl rfl rfl
      (Or.inl ⟨rfl, by simp [Task.isDone, hst]⟩)
  | recvClosed s k ch c hst hcode hin hc hbuf hcl =>
    exact hi.updateTask rfl rfl rfl (Status.running (k none)) hti rfl
      (by simp [Task.isDone, hst])
  | send s r k c hst hcode hc hcl hlen =>
    exact hi.update rfl rfl rfl (a := t.output) (d := { c with buf := c.buf ++ [r] })
      (Status.running k) hti hc rfl rfl rfl (Or.inl ⟨rfl, by simp [Task.isDone, hst]⟩)
  | ctxDone s r onDone onSent hst hcode hcan =>
    exact hi.updateTask rfl rfl rfl (Status.running onDone) hti rfl
      (by simp [Task.isDone, hst])

/-- While adapters remain, the next one is the adapter of the next stage. -/
theorem WellTyped.next {T : GoType} {S : List (AnyStep Val Ctx)}
    {F : List (StepFunction Val Ctx)} (hw : WellTyped S F T) {k : Nat}
    {f : StepFunction Val Ctx} {rest : List (StepFunction Val Ctx)}
    (hd : f :: rest = F.drop k) :
    rest = F.drop (k + 1) ∧ ∃ st, S[k]? = some st ∧
      ∀ rt : Runtime Val Ctx, f (handleBefore S k) rt = st.spawn (inputOf k) rt := by
  have hf : F[k]? = some f := by
    have := List.getElem?_drop F k 0
    rw [← hd] at this
    simpa using this.symm
  have hk : k < S.length := by
    rw [← hw.length_eq]
    by_contra hc
    rw [List.getElem?_eq_none (Nat.le_of_not_lt hc)] at hf
    cases hf
  refine ⟨?_, S[k], List.getElem?_eq_getElem hk, hw.adapter k f S[k] hf (List.getElem?_eq_getElem hk)⟩
  rw [← List.tail_drop, ← hd]
  rfl

/-- `ChainInv` is kept by every step of `Execute`. -/
theorem chainInv_stepMain {T : GoType} {S : List (AnyStep Val Ctx)}
    {F : List (StepFunction Val Ctx)} {n n1 : Net Val Ctx} (hw : WellTyped S F T)
    (hi : ChainInv S F T n) (hs : n.stepMain = some n1) : ChainInv S F T n1 := by
  have hmain := hi.main
  unfold Net.stepMain at hs
  split at hs
  · rename_i f rest cur hm
    rw [hm] at hmain
    obtain ⟨hrest, hcur⟩ := hmain
    obtain ⟨hrest1, st, hS, had⟩ := hw.next hrest
    dsimp only at hs
    rw [hcur, had n.rt] at hs
    simp only [AnyStep.spawn] at hs
    cases hs
    have hk : n.rt.tasks.length < S.length := by
      by_contra hc
      rw [List.getElem?_eq_none (Nat.le_of_not_lt hc)] at hS
      cases hS
    refine ⟨hi.finalType, ?_, ?_, ?_, ?_, ?_, ?_⟩
    · simp [Runtime.go, Runtime.makeChan, hi.lens]
    · simp only [Runtime.go, Runtime.makeChan, List.length_append, List.length_singleton]
      omega
    · intro j t h
      simp only [Runtime.go, Runtime.makeChan] at h
      by_cases hj : j < n.rt.tasks.length
      · rw [List.getElem?_append_left hj] at h
        exact hi.task j t h
      · rw [List.getElem?_append_right (Nat.le_of_not_lt hj)] at h
        have hj0 : j - n.rt.tasks.length = 0 := by
          by_contra hne
          obtain ⟨m, hm1⟩ := Nat.exists_eq_succ_of_ne_zero hne
          rw [hm1] at h
          simp at h
        have hjeq : j = n.rt.tasks.length := by omega
        rw [hj0] at h
        simp only [List.getElem?_cons_zero, Option.some.injEq] at h
        subst h
        rw [hjeq]
        exact ⟨st, Status.running st.step.init, hS, by simp [AnyStep.task, hi.lens]⟩
    · intro j t c h1 h2
      simp only [Runtime.go, Runtime.makeChan] at h1 h2
      by_cases hj : j < n.rt.tasks.length
      · rw [List.getElem?_append_left hj] at h1
        rw [List.getElem?_append_left (by rw [hi.lens]; exact hj)] at h2
        exact hi.chan j t c h1 h2
      · rw [List.getElem?_append_right (Nat.le_of_not_lt hj)] at h1
        rw [List.getElem?_append_right (by rw [hi.lens]; exact Nat.le_of_not_lt hj)] at h2
        have hj0 : j - n.rt.tasks.length = 0 := by
          by_contra hne
          obtain ⟨m, hm1⟩ := Nat.exists_eq_succ_of_ne_zero hne
          rw [hm1] at h1
          simp at h1
        have hjeq : j = n.rt.tasks.length := by omega
        rw [hj0] at h1
        rw [hi.lens, hj0] at h2
        simp only [List.getElem?_cons_zero, Option.some.injEq] at h1 h2
        subst h1
        subst h2
        rw [hjeq]
        exact ⟨st, hS, rfl, rfl, rfl⟩
    · simp only [Runtime.go, Runtime.makeChan, List.length_append, List.length_singleton]
      rw [hi.calls, callsUpTo, callsUpTo, List.range_succ, List.map_append]
      simp [handleBefore, hS, hi.lens]
    · simp only [Runtime.go, Runtime.makeChan, List.length_append, List.length_singleton]
      refine ⟨hrest1, ?_⟩
      simp [handleBefore, hS, hi.lens]
  · rename_i cur hm
    rw [hm] at hmain
    obtain ⟨hrest, hcur⟩ := hmain
    have hlen : n.rt.tasks.length = S.length := by
      have := List.drop_eq_nil_iff.1 hrest.symm
      rw [hw.length_eq] at this
      exact Nat.le_antisymm hi.le this
    rw [hlen, hw.final] at hcur
    subst hcur
    simp only [hi.finalType, if_true, Option.some.injEq] at hs
    subst hs
    refine ⟨rfl, hi.lens, hi.le, hi.task, hi.chan, hi.calls, hlen, ?_⟩
    have := hw.pos
    omega
  · rename_i ch hm
    rw [hm] at hmain
    split at hs
    · cases hs
    · rename_i c hc
      split at hs
      · rename_i x xs hbuf
        cases hs
        refine hi.similar rfl rfl rfl rfl (by simp [Runtime.setChan]) ?_ ?_
        · intro j t1 h1
          exact ⟨t1, h1, t1.status, rfl⟩
        · intro j t1 c1 h1 h2
          simp only [Runtime.setChan] at h1 h2
          rcases getElem?_set_cases h2 with ⟨rfl, rfl, -⟩ | ⟨-, h3⟩
          · exact ⟨t1, c, h1, hc, rfl, rfl, Or.inl ⟨rfl, rfl⟩⟩
          · exact ⟨t1, c1, h1, h3, rfl, rfl, Or.inl ⟨rfl, rfl⟩⟩
      · split at hs
        · cases hs
          exact ⟨hi.finalType, hi.lens, hi.le, hi.task, hi.chan, hi.calls, hmain.1, rfl⟩
        · cases hs
  · cases hs

/-- `ChainInv` is kept by every event. -/
theorem chainInv_step {T : GoType} {S : List (AnyStep Val Ctx)}
    {F : List (StepFunction Val Ctx)} {n n1 : Net Val Ctx} {e : Event} (hw : WellTyped S F T)
    (hi : ChainInv S F T n) (hs : n.step e = some n1) : ChainInv S F T n1 := by
  cases e with
  | main => exact chainInv_stepMain hw hi hs
  | task i d =>
    obtain ⟨t, hti, hts⟩ := Net.stepTask_inv hs
    exact chainInv_stepTask hi hti hts
  | cancel =>
    simp only [Net.step] at hs
    split at hs
    · cases hs
    · cases hs
      exact ⟨hi.finalType, hi.lens, hi.le, hi.task, hi.chan, hi.calls, hi.main⟩

/-- `ChainInv` holds throughout every execution of a built pipeline. -/
theorem Chain.inv {T : GoType} (c : Chain Val Ctx T) (ctx : Ctx) {n : Net Val Ctx}
    (hr : (c.builder.Build.Execute ctx).Reaches n) :
    ChainInv c.stages c.builder.stepFunctions T n :=
  hr.induction (chainInv_init c.stages c.builder.stepFunctions ctx)
    (fun _ _ _ hi hs => chainInv_step c.wellTyped hi hs)

/-- The calls recorded once `k` goroutines are started. -/
theorem callsUpTo_getElem? (S : List (AnyStep Val Ctx)) (k j : Nat) (call : Call)
    (h : (callsUpTo S k)[j]? = some call) :
    call = { input := handleBefore S j, output := handleBefore S (j + 1), err := none } := by
  unfold callsUpTo at h
  rw [List.getElem?_map] at h
  by_cases hj : j < k
  · rw [List.getElem?_range hj] at h
    simpa using h.symm
  · rw [List.getElem?_eq_none (by simpa using Nat.le_of_not_lt hj)] at h
    cases h

/-- C2: in an execution of a pipeline built by `NewPipelineBuilder`, `AppendStep`
calls and `Build`, the handle passed to each appended adapter is a channel of
`StepResult` of the input type its stage declares and the call returns no error;
the handle the final type assertion sees is a channel of `StepResult` of the
final output type; `Execute` never returns a non-nil error, so neither the
`invalid input type for step ...` branch nor the `unexpected final output type`
branch is taken. -/
theorem C2_no_type_error_at_execute {T : GoType} (c : Chain Val Ctx T) (ctx : Ctx)
    (n : Net Val Ctx) (hr : (c.builder.Build.Execute ctx).Reaches n) :
    (∀ (j : Nat) (call : Call), n.calls[j]? = some call → call.err = none) ∧
    (∀ (j : Nat) (call : Call) (st : AnyStep Val Ctx), n.calls[j]? = some call →
      c.stages[j]? = some st → 0 < j → ∃ id, call.input = Handle.chan st.inT id) ∧
    (∀ cur, n.main = Main.walking [] cur → ∃ id, cur = Handle.chan T id) ∧
    (∀ e : GoError, n.main ≠ Main.returned (some e)) := by
  have hi := c.inv ctx hr
  have hw := c.wellTyped
  refine ⟨?_, ?_, ?_, ?_⟩
  · intro j call hc
    rw [hi.calls] at hc
    rw [callsUpTo_getElem? _ _ _ _ hc]
  · intro j call st hc hst hj
    rw [hi.calls] at hc
    rw [callsUpTo_getElem? _ _ _ _ hc]
    exact ⟨j - 1, hw.input j st hst hj⟩
  · intro cur hm
    have hmain := hi.main
    rw [hm] at hmain
    obtain ⟨hrest, hcur⟩ := hmain
    have hlen : n.rt.tasks.length = c.stages.length := by
      have := List.drop_eq_nil_iff.1 hrest.symm
      rw [hw.length_eq] at this
      exact Nat.le_antisymm hi.le this
    rw [hlen, hw.final] at hcur
    exact ⟨_, hcur⟩
  · intro e hm
    have hmain := hi.main
    rw [hm] at hmain
    cases hmain.2

/-- C2 at the `ls` pipeline, once `Execute` has called its four adapters and
asserted the final type: no call returned an error and `Execute` has not
returned one. -/
theorem C2_no_type_error_at_execute_witness :
    (lsEmpty.builder.Build.Execute lsContext).Reaches
      ((lsEmpty.builder.Build.Execute lsContext).runD walkFirst) ∧
    ((lsEmpty.builder.Build.Execute lsContext).runD walkFirst).calls.length = 4 ∧
    ∀ e : GoError,
      ((lsEmpty.builder.Build.Execute lsContext).runD walkFirst).main ≠ Main.returned (some e) :=
  ⟨⟨walkFirst, rfl⟩, rfl,
    (C2_no_type_error_at_execute lsEmpty lsContext
      ((lsEmpty.builder.Build.Execute lsContext).runD walkFirst) ⟨walkFirst, rfl⟩).2.2.2⟩

/-- C6: every terminal state of a stage task closes that stage's output stream.
In an execution of a built pipeline: every call of an adapter, the source's and
every appended one's, has started one goroutine and made one channel, so that
the `j`-th call has returned channel `j`, goroutine `j` runs the `Process` of
stage `j` and writes to channel `j`; the call of the next adapter is the next
step of `Execute` and starts the goroutine of the next stage on a fresh open
channel; once the loop over the adapters is over, every stage has its goroutine.
For the goroutine of every stage: its output channel has been closed once if the
goroutine has finished and never otherwise; when `Process` returns `e`, whatever
`e` is (nil, the error of the context, any other error), the goroutine gets to
the point before `close(outputChannel)`; from there its next step is that close,
which is never blocked, closes the channel (one `close` in all) and finishes the
goroutine; and a read on the closed, empty channel ends the loop of the reader,
a stage or `Execute`. -/
theorem C6_every_return_closes_output {T : GoType} (c : Chain Val Ctx T) (ctx : Ctx)
    (n : Net Val Ctx) (hr : (c.builder.Build.Execute ctx).Reaches n) :
    (n.rt.tasks.length = n.calls.length ∧ n.rt.chans.length = n.calls.length) ∧
    (∀ (j : Nat) (call : Call), n.calls[j]? = some call →
      ∃ st status ch, c.stages[j]? = some st ∧ call.err = none ∧
        call.output = Handle.chan st.outT j ∧ n.rt.tasks[j]? = some (st.task status j) ∧
        n.rt.chans[j]? = some ch ∧ ch.elemType = st.outT ∧
        ch.closes = (if (st.task status j).isDone then 1 else 0)) ∧
    (∀ f rest cur, n.main = Main.walking (f :: rest) cur →
      ∃ n1 st, n.step Event.main = some n1 ∧ c.stages[n.rt.tasks.length]? = some st ∧
        n1.rt.tasks = n.rt.tasks ++ [st.task (Status.running st.step.init) n.rt.tasks.length] ∧
        n1.rt.chans = n.rt.chans ++
          [{ elemType := st.outT, cap := defaultBufferSize, buf := [], closes := 0 }]) ∧
    ((∃ ch, n.main = Main.draining ch) ∨ (∃ r, n.main = Main.returned r) →
      n.rt.tasks.length = c.stages.length) ∧
    (∀ (i : Nat) (t : Task Val Ctx), n.rt.tasks[i]? = some t →
      t.output = i ∧
      (∃ ch, n.rt.chans[i]? = some ch ∧ ch.closes = (if t.isDone then 1 else 0)) ∧
      (∀ (s : t.σ) (e : Option GoError) (d : Bool), t.status = Status.running s →
        t.code s = Instr.ret e → n.stepTask i d = some (n.setStatus i t (Status.returned e))) ∧
      (∀ (e : Option GoError) (d : Bool), t.status = Status.returned e →
        ∃ n1 ch1 t1, n.stepTask i d = some n1 ∧ n1.rt.chans[i]? = some ch1 ∧ ch1.closes = 1 ∧
          ch1.closed = true ∧ n1.rt.tasks[i]? = some t1 ∧ t1.isDone = true) ∧
      (∀ (j : Nat) (tj : Task Val Ctx) (s : tj.σ) (k : Option (StepResult Val) → tj.σ)
        (ch : Chan Val) (d : Bool), n.rt.tasks[j]? = some tj → tj.input = some i →
        tj.status = Status.running s → tj.code s = Instr.recv k → n.rt.chans[i]? = some ch →
        ch.buf = [] → ch.closed = true →
        n.stepTask j d = some (n.setStatus j tj (Status.running (k none)))) ∧
      (∀ ch : Chan Val, n.main = Main.draining i → n.rt.chans[i]? = some ch → ch.buf = [] →
        ch.closed = true → n.stepMain = some { n with main := Main.returned none })) := by
  have hi := c.inv ctx hr
  have hw := c.wellTyped
  have hclen : n.calls.length = n.rt.tasks.length := by
    rw [hi.calls]
    simp [callsUpTo]
  refine ⟨⟨hclen.symm, hi.lens.trans hclen.symm⟩, ?_, ?_, ?_, ?_⟩
  · intro j call hc
    have hj : j < n.rt.tasks.length := by
      rw [← hclen]
      by_contra hcon
      rw [List.getElem?_eq_none (Nat.le_of_not_lt hcon)] at hc
      cases hc
    have hcall : n.calls[j]? = some call := hc
    rw [hi.calls] at hc
    have hce := callsUpTo_getElem? _ _ _ _ hc
    obtain ⟨st, status, hS, ht⟩ := hi.task j _ (List.getElem?_eq_getElem hj)
    have hjc : j < n.rt.chans.length := by rw [hi.lens]; exact hj
    obtain ⟨st1, hS1, hel, -, hcl⟩ := hi.chan j _ _ (List.getElem?_eq_getElem hj)
      (List.getElem?_eq_getElem hjc)
    rw [hS] at hS1
    cases hS1
    refine ⟨st, status, n.rt.chans[j], hS, ?_, ?_, ?_, List.getElem?_eq_getElem hjc, hel, ?_⟩
    · rw [hce]
    · rw [hce]
      simp [handleBefore, hS]
    · rw [List.getElem?_eq_getElem hj, ht]
    · rw [← ht]
      exact hcl
  · intro f rest cur hm
    have hmain := hi.main
    rw [hm] at hmain
    obtain ⟨hrest, hcur⟩ := hmain
    obtain ⟨-, st, hS, had⟩ := hw.next hrest
    have hs : n.step Event.main = some { n with
        rt := (st.spawn (inputOf n.rt.tasks.length) n.rt).rt,
        main := Main.walking rest (st.spawn (inputOf n.rt.tasks.length) n.rt).output,
        calls := n.calls ++ [Call.of f cur n.rt] } := by
      simp only [Net.step, Net.stepMain, hm, hcur, had n.rt, AnyStep.spawn, Call.of]
    refine ⟨_, st, hs, hS, ?_, ?_⟩
    · simp [AnyStep.spawn, Runtime.go, Runtime.makeChan, AnyStep.task, hi.lens]
    · simp [AnyStep.spawn, Runtime.go, Runtime.makeChan]
  · intro h
    have hmain := hi.main
    rcases h with ⟨ch, hm⟩ | ⟨r, hm⟩
    · rw [hm] at hmain
      exact hmain.1
    · rw [hm] at hmain
      exact hmain.1
  · intro i t hti
    obtain ⟨hout, -⟩ := hi.output_eq hti
    have hlt : i < n.rt.chans.length := by
      rw [hi.lens]
      by_contra hc
      rw [List.getElem?_eq_none (Nat.le_of_not_lt hc)] at hti
      cases hti
    have hch : n.rt.chans[i]? = some n.rt.chans[i] := List.getElem?_eq_getElem hlt
    obtain ⟨st, -, -, -, hcl⟩ := hi.chan i t _ hti hch
    refine ⟨hout, ⟨_, hch, hcl⟩, ?_, ?_, ?_, ?_⟩
    · intro s e d hst hcode
      simp [Net.stepTask, hti, hst, hcode]
    · intro e d hst
      have h0 : n.rt.chans[i].closes = 0 := by
        rw [hcl]
        simp [Task.isDone, hst]
      have hstep : ∀ c0 : Chan Val, n.rt.chans[i]? = some c0 → n.stepTask i d = some
          ({ n with rt := n.rt.setChan i { c0 with closes := c0.closes + 1 } }.setStatus i t
            Status.done) := by
        intro c0 hc0
        simp only [Net.stepTask, hti, hst, hout, hc0]
      refine ⟨_, { n.rt.chans[i] with closes := n.rt.chans[i].closes + 1 },
        { t with status := Status.done }, hstep _ hch, ?_, ?_, ?_, ?_, rfl⟩
      · simp [Net.setStatus, Runtime.setTask, Runtime.setChan, hlt]
      · simp [h0]
      · simp [Chan.closed]
      · have hlt2 : i < n.rt.tasks.length := hi.lens ▸ hlt
        simp [Net.setStatus, Runtime.setTask, Runtime.setChan, hlt2]
    · intro j tj s k ch d htj hin hst hcode hc hbuf hclosed
      simp [Net.stepTask, htj, hst, hcode, Net.tryRecv, hin, hc, hbuf, hclosed]
    · intro ch hm hc hbuf hclosed
      simp [Net.stepMain, hm, hc, hbuf, hclosed]

/-- C6 at the appended stage `ListFilesStep` of the `ls` pipeline when
`os.ReadDir` fails: on the schedule `lsFailingToError` the four adapters have
each started a goroutine on a channel, `ListFilesStep.Process` has returned the
error, its channel is not closed yet, and the next step of its goroutine closes
it. -/
theorem C6_every_return_closes_output_witness :
    (lsFailing.builder.Build.Execute lsContext).Reaches
      ((lsFailing.builder.Build.Execute lsContext).runD lsFailingToError) ∧
    ((lsFailing.builder.Build.Execute lsContext).runD lsFailingToError).rt.tasks[1]? =
      some (listFilesFailingStage.task
        (Status.returned (some (GoError.msg "permission denied"))) 1) ∧
    ((lsFailing.builder.Build.Execute lsContext).runD lsFailingToError).calls.length = 4 ∧
    (((lsFailing.builder.Build.Execute lsContext).runD lsFailingToError).rt.tasks.length =
        ((lsFailing.builder.Build.Execute lsContext).runD lsFailingToError).calls.length ∧
      ((lsFailing.builder.Build.Execute lsContext).runD lsFailingToError).rt.chans.length =
        ((lsFailing.builder.Build.Execute lsContext).runD lsFailingToError).calls.length) ∧
    (∃ ch, ((lsFailing.builder.Build.Execute lsContext).runD lsFailingToError).rt.chans[1]?
        = some ch ∧
      ch.closes = (if (listFilesFailingStage.task
        (Status.returned (some (GoError.msg "permission denied"))) 1).isDone then 1 else 0)) ∧
    ∃ n1 ch1 t1,
      ((lsFailing.builder.Build.Execute lsContext).runD lsFailingToError).stepTask 1 false
        = some n1 ∧
      n1.rt.chans[1]? = some ch1 ∧ ch1.closes = 1 ∧ ch1.closed = true ∧
      n1.rt.tasks[1]? = some t1 ∧ t1.isDone = true :=
  ⟨⟨lsFailingToError, rfl⟩, rfl, rfl,
    (C6_every_return_closes_output lsFailing lsContext
      ((lsFailing.builder.Build.Execute lsContext).runD lsFailingToError)
      ⟨lsFailingToError, rfl⟩).1,
    ((C6_every_return_closes_output lsFailing lsContext
      ((lsFailing.builder.Build.Execute lsContext).runD lsFailingToError)
      ⟨lsFailingToError, rfl⟩).2.2.2.2 1
      (listFilesFailingStage.task (Status.returned (some (GoError.msg "permission denied"))) 1)
      rfl).2.1,
    ((C6_every_return_closes_output lsFailing lsContext
      ((lsFailing.builder.Build.Execute lsContext).runD lsFailingToError)
      ⟨lsFailingToError, rfl⟩).2.2.2.2 1
      (listFilesFailingStage.task (Status.returned (some (GoError.msg "permission denied"))) 1)
      rfl).2.2.2.1 (some (GoError.msg "permission denied")) false rfl⟩

/-- `FinalDrained` is kept by every step of a stage goroutine. -/
theorem finalDrained_stepTask {T : GoType} {S : List (AnyStep Val Ctx)}
    {F : List (StepFunction Val Ctx)} {n n1 : Net Val Ctx} {i : Nat} {t : Task Val Ctx}
    (hi : ChainInv S F T n) (hd : FinalDrained S n) (hti : n.rt.tasks[i]? = some t)
    (hs : TaskStep n i t n1) : FinalDrained S n1 := by
  obtain ⟨hout, hin0⟩ := hi.output_eq hti
  have hilt : i < n.rt.tasks.length := by
    by_contra hc
    rw [List.getElem?_eq_none (Nat.le_of_not_lt hc)] at hti
    cases hti
  have hmain := hi.main
  cases hs with
  | close e c hst hc =>
    intro e1 hm
    obtain ⟨ch, hch, hbuf, hcl⟩ := hd e1 hm
    refine ⟨ch, ?_, hbuf, hcl⟩
    have hne : t.output ≠ S.length - 1 := by
      intro heq
      rw [heq, hch] at hc
      cases hc
      obtain ⟨st, -, -, -, hcl0⟩ := hi.chan i t c hti (by rw [← hout, heq]; exact hch)
      simp [Task.isDone, hst] at hcl0
      simp [Chan.closed, hcl0] at hcl
    simpa [Net.setStatus, Runtime.setTask, Runtime.setChan, List.getElem?_set_ne hne] using hch
  | ret s e hst hcode => exact hd
  | withCtx s f hst hcode => exact hd
  | print s line k hst hcode => exact hd
  | recvItem s k ch c x xs hst hcode hin hc hbuf =>
    intro e1 hm
    obtain ⟨ch1, hch, hbuf1, hcl⟩ := hd e1 hm
    refine ⟨ch1, ?_, hbuf1, hcl⟩
    have hm2 : n.main = Main.returned e1 := hm
    rw [hm2] at hmain
    have hne : ch ≠ S.length - 1 := by
      rw [hin0] at hin
      unfold inputOf at hin
      split at hin
      · cases hin
      · cases hin
        omega
    simpa [Net.setStatus, Runtime.setTask, Runtime.setChan, List.getElem?_set_ne hne] using hch
  | recvClosed s k ch c hst hcode hin hc hbuf hcl => exact hd
  | send s r k c hst hcode hc hcl hlen =>
    intro e1 hm
    obtain ⟨ch1, hch, hbuf1, hcl1⟩ := hd e1 hm
    refine ⟨ch1, ?_, hbuf1, hcl1⟩
    have hne : t.output ≠ S.length - 1 := by
      intro heq
      rw [heq, hch] at hc
      cases hc
      rw [hcl] at hcl1
      cases hcl1
    simpa [Net.setStatus, Runtime.setTask, Runtime.setChan, List.getElem?_set_ne hne] using hch
  | ctxDone s r onDone onSent hst hcode hcan => exact hd

/-- `FinalDrained` is kept by every event. -/
theorem finalDrained_step {T : GoType} {S : List (AnyStep Val Ctx)}
    {F : List (StepFunction Val Ctx)} {n n1 : Net Val Ctx} {e : Event} (hw : WellTyped S F T)
    (hi : ChainInv S F T n) (hd : FinalDrained S n) (hs : n.step e = some n1) :
    FinalDrained S n1 := by
  have hi1 := chainInv_step hw hi hs
  cases e with
  | task i d =>
    obtain ⟨t, hti, hts⟩ := Net.stepTask_inv hs
    exact finalDrained_stepTask hi hd hti hts
  | cancel =>
    simp only [Net.step] at hs
    split at hs
    · cases hs
    · cases hs
      exact hd
  | main =>
    simp only [Net.step] at hs
    have hmain := hi.main
    intro e1 hm1
    have hmain1 := hi1.main
    rw [hm1] at hmain1
    obtain ⟨-, rfl⟩ := hmain1
    unfold Net.stepMain at hs
    split at hs
    · dsimp only at hs
      split at hs
      · cases hs; cases hm1
      · cases hs; cases hm1
    · split at hs
      · split at hs
        · cases hs; cases hm1
        · cases hs; cases hm1
      · cases hs; cases hm1
    · rename_i ch hm
      rw [hm] at hmain
      split at hs
      · cases hs
      · rename_i c hc
        split at hs
        · cases hs
          have hm2 : n.main = Main.returned none := hm1
          rw [hm] at hm2
          cases hm2
        · rename_i hbuf
          split at hs
          · rename_i hcl
            cases hs
            have : ch = S.length - 1 := by omega
            subst this
            exact ⟨c, hc, hbuf, hcl⟩
          · cases hs
    · cases hs

/-- Throughout an execution of a built pipeline, the final channel is closed and
empty once `Execute` has returned. -/
theorem Chain.finalDrained {T : GoType} (c : Chain Val Ctx T) (ctx : Ctx) {n : Net Val Ctx}
    (hr : (c.builder.Build.Execute ctx).Reaches n) : FinalDrained c.stages n := by
  have h : ChainInv c.stages c.builder.stepFunctions T n ∧ FinalDrained c.stages n := by
    refine Net.Reaches.induction
      (P := fun m => ChainInv c.stages c.builder.stepFunctions T m ∧ FinalDrained c.stages m)
      hr ⟨chainInv_init _ _ ctx, ?_⟩ ?_
    · intro e hm
      cases hm
    · intro m e m1 hm hs
      exact ⟨chainInv_step c.wellTyped hm.1 hs, finalDrained_step c.wellTyped hm.1 hm.2 hs⟩
  exact h.2

/-- C3: the error a stage's `Process` returns never reaches the caller of
`Execute`.  For every pipeline built through the public API, whatever its stages
return: when `Execute` has returned, it has returned nil, and the final channel
is closed and empty; a step of the drain loop is the same whatever status (so
whatever returned error) any goroutine has.  And for any list of adapters, a
non-nil error returned by `Execute` is the error a call of an adapter returned
or the final type mismatch. -/
theorem C3_stage_errors_never_reach_caller {T : GoType} (c : Chain Val Ctx T) (ctx : Ctx)
    (n : Net Val Ctx) (hr : (c.builder.Build.Execute ctx).Reaches n) :
    (∀ e, n.main = Main.returned e →
      e = none ∧ ∃ ch, n.rt.chans[c.stages.length - 1]? = some ch ∧ ch.buf = [] ∧
        ch.closed = true) ∧
    (∀ (m : Net Val Ctx) (ch i : Nat) (t : Task Val Ctx) (status : Status t.σ),
      m.main = Main.draining ch →
      (m.setStatus i t status).stepMain = (m.stepMain).map (fun m1 => m1.setStatus i t status)) ∧
    (∀ (Final : GoType) (p : Pipeline Val Ctx Final) (ctx1 : Ctx) (m : Net Val Ctx),
      (p.Execute ctx1).Reaches m → ∀ e : GoError, m.main = Main.returned (some e) →
      (∃ call ∈ m.calls, call.err = some e) ∨ e = "unexpected final output type") := by
  refine ⟨?_, ?_, ?_⟩
  · intro e hm
    have hmain := (c.inv ctx hr).main
    rw [hm] at hmain
    exact ⟨hmain.2, c.finalDrained ctx hr e hm⟩
  · intro m ch i t status hm
    have hm1 : (m.setStatus i t status).main = Main.draining ch := hm
    unfold Net.stepMain
    rw [hm, hm1]
    simp only [Net.setStatus, Runtime.setTask]
    cases hc : m.rt.chans[ch]? with
    | none => rfl
    | some c0 =>
      simp only [hc]
      cases hb : c0.buf with
      | nil =>
        simp only [hb]
        split <;> rfl
      | cons x xs => rfl
  · intro Final p ctx1 m hm e he
    obtain ⟨-, hi⟩ := walkInv_reaches p ctx1 hm
    rw [he] at hi
    obtain ⟨-, h | h⟩ := hi
    · obtain ⟨calls0, f, rest, cur, rt, -, herr, hcalls⟩ := h
      left
      exact ⟨Call.of f cur rt, by rw [hcalls]; simp, herr⟩
    · obtain ⟨cur, -, -, h3⟩ := h
      exact Or.inr h3

/-- C3 at the `ls` pipeline whose `ListFilesStep` fails to read the directory:
on the schedule `lsFailingRun`, `ListFilesStep.Process` returns the error of
`os.ReadDir`, and `Execute` returns nil with the final channel closed and empty. -/
theorem C3_stage_errors_never_reach_caller_witness :
    (lsFailing.builder.Build.Execute lsContext).Reaches
      ((lsFailing.builder.Build.Execute lsContext).runD lsFailingRun) ∧
    (((lsFailing.builder.Build.Execute lsContext).runD lsFailingToError).rt.tasks[1]?).bind
      Task.returnedErr = some (some (GoError.msg "permission denied")) ∧
    ((lsFailing.builder.Build.Execute lsContext).runD lsFailingRun).main = Main.returned none ∧
    ((none : Option GoError) = none ∧
      ∃ ch, ((lsFailing.builder.Build.Execute lsContext).runD lsFailingRun).rt.chans[
          lsFailing.stages.length - 1]? = some ch ∧ ch.buf = [] ∧ ch.closed = true) :=
  ⟨⟨lsFailingRun, rfl⟩, rfl, rfl,
    (C3_stage_errors_never_reach_caller lsFailing lsContext
      ((lsFailing.builder.Build.Execute lsContext).runD lsFailingRun)
      ⟨lsFailingRun, rfl⟩).1 none rfl⟩

end Built

/-! ## `FilterFilesStep` -/

section Filter

/-- The loop of `FilterFilesStep.Process` on the items `rs`: it sends the kept
items in order, wrapped anew, and returns nil. -/
theorem filter_loop (matchFn : String → String → Bool × Option GoError) (pattern : String)
    (ctx : LsContext) (rs : List (StepResult GoValue)) :
    ∀ (fuel : Nat) (sent : List (StepResult GoValue)) (printed : List String),
      2 * rs.length + 2 ≤ fuel →
      runProcess (NewFilterFilesStep matchFn).Process fuel (FilterFilesPc.loop pattern) rs ctx
          sent printed =
        some { sent := sent ++ (rs.filter (fun r => filterKeeps matchFn pattern r.Item)).map
                  (fun r => ToStepResult r.Item),
               result := none, ctx := ctx, printed := printed } := by
  induction rs with
  | nil =>
    intro fuel sent printed hf
    obtain ⟨f1, rfl⟩ : ∃ f1, fuel = f1 + 2 := ⟨fuel - 2, by simp at hf; omega⟩
    simp [runProcess, NewFilterFilesStep]
  | cons r rs ih =>
    intro fuel sent printed hf
    obtain ⟨f1, rfl⟩ : ∃ f1, fuel = f1 + 2 := ⟨fuel - 2, by simp at hf; omega⟩
    have hf1 : 2 * rs.length + 2 ≤ f1 := by simp at hf; omega
    by_cases hk : filterKeeps matchFn pattern r.Item = true
    · have h1 := ih f1 (sent ++ [ToStepResult r.Item]) printed hf1
      simp only [runProcess, NewFilterFilesStep, hk, if_true, List.filter_cons]
      simp only [NewFilterFilesStep] at h1
      rw [h1]
      simp
    · have h1 := ih (f1 + 1) sent printed (by omega)
      simp only [runProcess, NewFilterFilesStep, hk, List.filter_cons]
      simp only [NewFilterFilesStep] at h1
      simpa using h1

/-- C8, as the code has it: run alone on the items `rs` with the wildcard
`pattern` in the context and no cancellation, `FilterFilesStep.Process` sends, in
input order, exactly the items it keeps, and returns nil; it keeps every item
when the pattern is empty or `*`, and otherwise the items whose name
`filepath.Match` matches without error; what it sends is a subsequence of its
input; when it keeps no item it sends nothing; and for the names `a.txt`,
`b.log`, `readme.md` and the pattern `*.txt` it sends exactly `a.txt`. -/
theorem C8_filter_emits_kept_entries (matchFn : String → String → Bool × Option GoError)
    (pattern : String) (rs : List (StepResult GoValue)) (fuel : Nat)
    (hf : 2 * rs.length + 3 ≤ fuel) :
    runProcess (NewFilterFilesStep matchFn).Process fuel (NewFilterFilesStep matchFn).init rs
        { Wildcard := pattern } [] [] =
      some { sent := (rs.filter (fun r => filterKeeps matchFn pattern r.Item)).map
                (fun r => ToStepResult r.Item),
             result := none, ctx := { Wildcard := pattern }, printed := [] } ∧
    (∀ item : GoValue, filterKeeps matchFn pattern item = true ↔
      (pattern = "" ∨ pattern = "*" ∨ matchFn pattern item.Name = (true, none))) ∧
    (((rs.filter (fun r => filterKeeps matchFn pattern r.Item)).map
        (fun r => ToStepResult r.Item)).map (fun r => r.Item)).Sublist
      (rs.map (fun r => r.Item)) ∧
    ((∀ r ∈ rs, filterKeeps matchFn pattern r.Item = false) →
      (rs.filter (fun r => filterKeeps matchFn pattern r.Item)).map
        (fun r => ToStepResult r.Item) = []) ∧
    runProcess (NewFilterFilesStep filepathMatch).Process 9
        (NewFilterFilesStep filepathMatch).init (entriesNamed ["a.txt", "b.log", "readme.md"])
        { Wildcard := "*.txt" } [] [] =
      some { sent := entriesNamed ["a.txt"], result := none, ctx := { Wildcard := "*.txt" },
             printed := [] } := by
  refine ⟨?_, ?_, ?_, ?_, by decide⟩
  · obtain ⟨f1, rfl⟩ : ∃ f1, fuel = f1 + 1 := ⟨fuel - 1, by omega⟩
    have h1 := filter_loop matchFn pattern { Wildcard := pattern } rs f1 [] [] (by omega)
    simp only [NewFilterFilesStep] at h1
    simp only [runProcess, NewFilterFilesStep]
    rw [h1]
    simp
  · intro item
    unfold filterKeeps
    by_cases h1 : pattern = ""
    · simp [h1]
    · by_cases h2 : pattern = "*"
      · simp [h2]
      · rcases hm : matchFn pattern item.Name with ⟨matched, err⟩
        cases err <;> cases matched <;> simp [h1, h2]
  · rw [List.map_map]
    have : ((fun r : StepResult GoValue => r.Item) ∘ fun r : StepResult GoValue =>
        ToStepResult r.Item) = fun r => r.Item := by
      funext r
      rfl
    rw [this]
    exact (List.filter_sublist rs).map _
  · intro h
    rw [List.filter_eq_nil_iff.2 (fun r hr => by simp [h r hr])]
    rfl

/-- C8 at the directory `a.txt`, `b.log`, `readme.md` with the pattern `*.log`. -/
theorem C8_filter_emits_kept_entries_witness :
    2 * (entriesNamed ["a.txt", "b.log", "readme.md"]).length + 3 ≤ 9 ∧
    runProcess (NewFilterFilesStep filepathMatch).Process 9
        (NewFilterFilesStep filepathMatch).init (entriesNamed ["a.txt", "b.log", "readme.md"])
        { Wildcard := "*.log" } [] [] =
      some { sent := ((entriesNamed ["a.txt", "b.log", "readme.md"]).filter
                (fun r => filterKeeps filepathMatch "*.log" r.Item)).map
                (fun r => ToStepResult r.Item),
             result := none, ctx := { Wildcard := "*.log" }, printed := [] } :=
  ⟨by decide,
    (C8_filter_emits_kept_entries filepathMatch "*.log"
      (entriesNamed ["a.txt", "b.log", "readme.md"]) 9 (by decide)).1⟩

/-- C8 as stated fails: with the empty pattern in the context (the wildcard of
`&steps.LsContext{}`, and what `ParseArgumentsStep` stores for an empty
argument), `FilterFilesStep.Process` sends the entry `a.txt`, which
`filepath.Match` does not match against the empty pattern, and its output is its
whole input, not a strict subsequence of it. -/
theorem C8_counterexample_empty_pattern :
    runProcess (NewFilterFilesStep filepathMatch).Process 5
        (NewFilterFilesStep filepathMatch).init (entriesNamed ["a.txt"]) { Wildcard := "" } [] [] =
      some { sent := entriesNamed ["a.txt"], result := none, ctx := { Wildcard := "" },
             printed := [] } ∧
    filepathMatch "" "a.txt" = (false, none) ∧
    parseWildcard ["ls", ""] (fun _ => false) = "" := by
  decide

end Filter

/-! ## Executions of stages that return -/

section Halting

variable {Val Ctx : Type}

theorem HaltsOn.inv_withCtx {σ : Type} {code : σ → Instr Val Ctx σ}
    {inp : Option (List (StepResult Val))} {s : σ} {f : Ctx → Ctx × σ}
    (h : HaltsOn code inp s) (hc : code s = Instr.withCtx f) : ∀ c, HaltsOn code inp (f c).2 := by
  cases h <;> rename_i h1 <;> rw [hc] at h1 <;> cases h1
  rename_i h2
  exact h2

theorem HaltsOn.inv_print {σ : Type} {code : σ → Instr Val Ctx σ}
    {inp : Option (List (StepResult Val))} {s k : σ} {line : String}
    (h : HaltsOn code inp s) (hc : code s = Instr.print line k) : HaltsOn code inp k := by
  cases h <;> rename_i h1 <;> rw [hc] at h1 <;> cases h1
  rename_i h2
  exact h2

theorem HaltsOn.inv_send {σ : Type} {code : σ → Instr Val Ctx σ}
    {inp : Option (List (StepResult Val))} {s k : σ} {r : StepResult Val}
    (h : HaltsOn code inp s) (hc : code s = Instr.send r k) : HaltsOn code inp k := by
  cases h <;> rename_i h1 <;> rw [hc] at h1 <;> cases h1
  rename_i h2
  exact h2

theorem HaltsOn.inv_selectSend {σ : Type} {code : σ → Instr Val Ctx σ}
    {inp : Option (List (StepResult Val))} {s d k : σ} {r : StepResult Val}
    (h : HaltsOn code inp s) (hc : code s = Instr.selectSend r d k) :
    HaltsOn code inp d ∧ HaltsOn code inp k := by
  cases h <;> rename_i h1 <;> rw [hc] at h1 <;> cases h1
  rename_i h2 h3
  exact ⟨h2, h3⟩

theorem HaltsOn.inv_recvItem {σ : Type} {code : σ → Instr Val Ctx σ}
    {x : StepResult Val} {xs : List (StepResult Val)} {s : σ}
    {k : Option (StepResult Val) → σ}
    (h : HaltsOn code (some (x :: xs)) s) (hc : code s = Instr.recv k) :
    HaltsOn code (some xs) (k (some x)) := by
  cases h <;> rename_i h1 <;> rw [hc] at h1 <;> cases h1
  rename_i h2
  exact h2

theorem HaltsOn.inv_recvClosed {σ : Type} {code : σ → Instr Val Ctx σ} {s : σ}
    {k : Option (StepResult Val) → σ}
    (h : HaltsOn code (some []) s) (hc : code s = Instr.recv k) :
    HaltsOn code (some []) (k none) := by
  cases h <;> rename_i h1 <;> rw [hc] at h1 <;> cases h1
  rename_i h2
  exact h2

theorem HaltsOn.inv_recv_nil {σ : Type} {code : σ → Instr Val Ctx σ} {s : σ}
    {k : Option (StepResult Val) → σ}
    (h : HaltsOn code none s) (hc : code s = Instr.recv k) : False := by
  cases h <;> rename_i h1 <;> rw [hc] at h1 <;> cases h1

/-- `HaltInv` is kept when goroutine `i` changes status, channel `a` changes,
the new state of goroutine `i` is good, and the change of channel `a` keeps its
other readers good. -/
theorem HaltInv.updateChan {n n1 : Net Val Ctx} (hh : HaltInv n) {i a : Nat} {t : Task Val Ctx}
    {c d : Chan Val} (status1 : Status t.σ) (hti : n.rt.tasks[i]? = some t)
    (hca : n.rt.chans[a]? = some c)
    (hrt : n1.rt = (n.rt.setChan a d).setTask i { t with status := status1 })
    (hself : ∀ s1, status1 = Status.running s1 → HaltGood t.code (inputChan n1.rt i) s1)
    (hother : ∀ j, j ≠ i → inputOf j = some a → ∀ (σ : Type) (code : σ → Instr Val Ctx σ)
      (s2 : σ), HaltGood code (some c) s2 → HaltGood code (some d) s2) :
    HaltInv n1 := by
  intro j t2 s2 h1 h2
  simp only [hrt, Runtime.setTask, Runtime.setChan] at h1
  rcases getElem?_set_cases h1 with ⟨rfl, rfl, -⟩ | ⟨hji, h3⟩
  · exact hself s2 h2
  · have hold := hh j t2 s2 h3 h2
    unfold inputChan at hold ⊢
    simp only [hrt, Runtime.setTask, Runtime.setChan]
    cases hin : inputOf j with
    | none =>
      rw [hin] at hold
      exact hold
    | some ch =>
      rw [hin] at hold
      simp only [Option.bind] at hold ⊢
      by_cases hach : a = ch
      · subst hach
        have hlt : a < n.rt.chans.length := by
          by_contra hc
          rw [List.getElem?_eq_none (Nat.le_of_not_lt hc)] at hca
          cases hca
        rw [List.getElem?_set_self hlt]
        rw [hca] at hold
        exact hother j hji hin _ _ _ hold
      · rw [List.getElem?_set_ne hach]
        exact hold

/-- `HaltInv` is kept when goroutine `i` changes status, no channel changes and
the new state of goroutine `i` is good. -/
theorem HaltInv.updateStatus {n n1 : Net Val Ctx} (hh : HaltInv n) {i : Nat} {t : Task Val Ctx}
    (status1 : Status t.σ) (hrt : n1.rt = n.rt.setTask i { t with status := status1 })
    (hself : ∀ s1, status1 = Status.running s1 → HaltGood t.code (inputChan n.rt i) s1) :
    HaltInv n1 := by
  intro j t2 s2 h1 h2
  have hin : inputChan n1.rt j = inputChan n.rt j := by
    unfold inputChan
    rw [hrt]
    rfl
  rw [hin]
  simp only [hrt, Runtime.setTask] at h1
  rcases getElem?_set_cases h1 with ⟨rfl, rfl, -⟩ | ⟨hji, h3⟩
  · exact hself s2 h2
  · exact hh j t2 s2 h3 h2

/-- From what holds of a state on the present input to what holds of it once the
input is the present buffer. -/
theorem HaltGood.now {σ : Type} {code : σ → Instr Val Ctx σ} {c : Chan Val} {s : σ}
    (h : HaltGood code (some c) s) : HaltsOn code (some c.buf) s := by
  obtain ⟨h1, h2⟩ := h
  cases hc : c.closed with
  | true => exact h1 hc
  | false => simpa using h2 hc []

/-- What holds of a state is kept by a step that does not read. -/
theorem HaltGood.map {σ : Type} {code : σ → Instr Val Ctx σ} {input : Option (Chan Val)}
    {s s1 : σ}
    (hstep : ∀ inp, HaltsOn code inp s → HaltsOn code inp s1)
    (h : HaltGood code input s) : HaltGood code input s1 := by
  cases input with
  | none => exact hstep _ h
  | some c => exact ⟨fun hc => hstep _ (h.1 hc), fun hc xs => hstep _ (h.2 hc xs)⟩

/-- The goroutine reading channel `a` is goroutine `a + 1`. -/
theorem inputOf_eq_some {j a : Nat} : inputOf j = some a ↔ j = a + 1 := by
  unfold inputOf
  constructor
  · intro h
    split at h
    · cases h
    · cases h; omega
  · intro h
    subst h
    simp

/-- The input channel of a goroutine after a change of another channel. -/
theorem inputChan_update_ne {rt : Runtime Val Ctx} {i a j : Nat} {t1 : Task Val Ctx}
    {c1 : Chan Val} (h : inputOf j ≠ some a) :
    inputChan ((rt.setChan a c1).setTask i t1) j = inputChan rt j := by
  unfold inputChan
  simp only [Runtime.setTask, Runtime.setChan]
  cases hin : inputOf j with
  | none => rfl
  | some ch =>
    simp only [Option.bind]
    rw [List.getElem?_set_ne]
    intro hach
    exact h (by rw [hin, hach])

/-- The input channel of a goroutine after a change of another channel alone. -/
theorem inputChan_setChan_ne {rt : Runtime Val Ctx} {a j : Nat} {c1 : Chan Val}
    (h : inputOf j ≠ some a) : inputChan (rt.setChan a c1) j = inputChan rt j := by
  unfold inputChan
  simp only [Runtime.setChan]
  cases hin : inputOf j with
  | none => rfl
  | some ch =>
    simp only [Option.bind]
    rw [List.getElem?_set_ne]
    intro hach
    exact h (by rw [hin, hach])

/-- The input channel of a goroutine after a change of that channel. -/
theorem inputChan_update_eq {rt : Runtime Val Ctx} {i a j : Nat} {u : Task Val Ctx}
    {c d : Chan Val} (hca : rt.chans[a]? = some c) (h : inputOf j = some a) :
    inputChan ((rt.setChan a d).setTask i u) j = some d ∧ inputChan rt j = some c := by
  have hlt : a < rt.chans.length := by
    by_contra hc
    rw [List.getElem?_eq_none (Nat.le_of_not_lt hc)] at hca
    cases hca
  unfold inputChan
  simp only [Runtime.setTask, Runtime.setChan, h, Option.bind]
  exact ⟨List.getElem?_set_self hlt, hca⟩

/-- `HaltInv` is kept by every step of a stage goroutine. -/
theorem haltInv_stepTask {T : GoType} {S : List (AnyStep Val Ctx)}
    {F : List (StepFunction Val Ctx)} {n n1 : Net Val Ctx} {i : Nat} {t : Task Val Ctx}
    (hi : ChainInv S F T n) (hh : HaltInv n) (hti : n.rt.tasks[i]? = some t)
    (hs : TaskStep n i t n1) : HaltInv n1 := by
  obtain ⟨hout, hin0⟩ := hi.output_eq hti
  have hni : inputOf i ≠ some t.output := by
    intro h
    rw [hout] at h
    have := inputOf_eq_some.1 h
    omega
  cases hs with
  | close e c hst hc =>
    obtain ⟨st, -, -, -, hcl⟩ := hi.chan i t c hti (hout ▸ hc)
    have h0 : c.closes = 0 := by
      rw [hcl]
      simp [Task.isDone, hst]
    refine hh.updateChan (d := { c with closes := c.closes + 1 }) Status.done hti hc rfl ?_ ?_
    · intro s1 h
      cases h
    · intro j _ _ σ code s2 hg
      refine ⟨fun _ => hg.now, fun hcl1 => ?_⟩
      simp [Chan.closed] at hcl1
  | ret s e hst hcode =>
    refine hh.updateStatus (Status.returned e) rfl ?_
    intro s1 h
    cases h
  | withCtx s f hst hcode =>
    refine hh.updateStatus (Status.running (f n.pipelineContext).2) rfl ?_
    intro s1 h
    cases h
    exact HaltGood.map (fun _ h1 => h1.inv_withCtx hcode _) (hh i t s hti hst)
  | print s line k hst hcode =>
    refine hh.updateStatus (Status.running k) rfl ?_
    intro s1 h
    cases h
    exact HaltGood.map (fun _ h1 => h1.inv_print hcode) (hh i t s hti hst)
  | recvItem s k ch c x xs hst hcode hin hc hbuf =>
    rw [hin0] at hin
    refine hh.updateChan (d := { c with buf := xs }) (Status.running (k (some x))) hti hc rfl ?_ ?_
    · intro s1 h
      cases h
      have hold := hh i t s hti hst
      simp only [Net.setStatus]
      rw [(inputChan_update_eq hc hin).1]
      rw [(inputChan_update_eq (i := i) (u := t) (d := c) hc hin).2] at hold
      refine ⟨fun hcl => ?_, fun hcl ys => ?_⟩
      · have := hold.1 hcl
        rw [hbuf] at this
        exact this.inv_recvItem hcode
      · have := hold.2 hcl ys
        rw [hbuf] at this
        exact this.inv_recvItem hcode
    · intro j hji hj
      have h1 := inputOf_eq_some.1 hj
      have h2 := inputOf_eq_some.1 hin
      exact absurd (h1.trans h2.symm) hji
  | recvClosed s k ch c hst hcode hin hc hbuf hcl =>
    rw [hin0] at hin
    refine hh.updateStatus (Status.running (k none)) rfl ?_
    intro s1 h
    cases h
    have hold := hh i t s hti hst
    have h2 : inputChan n.rt i = some c := by
      unfold inputChan
      simp [hin, hc]
    rw [h2] at hold ⊢
    refine ⟨fun _ => ?_, fun hcl1 => ?_⟩
    · have := hold.1 hcl
      rw [hbuf] at this ⊢
      exact this.inv_recvClosed hcode
    · rw [hcl] at hcl1
      cases hcl1
  | send s r k c hst hcode hc hcl hlen =>
    refine hh.updateChan (d := { c with buf := c.buf ++ [r] }) (Status.running k) hti hc rfl ?_ ?_
    · intro s1 h
      cases h
      simp only [Net.setStatus]
      rw [inputChan_update_ne hni]
      refine HaltGood.map (fun _ h1 => ?_) (hh i t s hti hst)
      rcases hcode with hcode | ⟨d, hcode⟩
      · exact h1.inv_send hcode
      · exact (h1.inv_selectSend hcode).2
    · intro j _ _ σ code s2 hg
      refine ⟨fun hcl1 => ?_, fun _ ys => ?_⟩
      · have : c.closed = true := hcl1
        rw [hcl] at this
        cases this
      · have := hg.2 hcl ([r] ++ ys)
        simpa using this
  | ctxDone s r onDone onSent hst hcode hcan =>
    refine hh.updateStatus (Status.running onDone) rfl ?_
    intro s1 h
    cases h
    exact HaltGood.map (fun _ h1 => (h1.inv_selectSend hcode).1) (hh i t s hti hst)

/-- `HaltInv` is kept by every step of `Execute`. -/
theorem haltInv_stepMain {T : GoType} {S : List (AnyStep Val Ctx)}
    {F : List (StepFunction Val Ctx)} {n n1 : Net Val Ctx} (hw : WellTyped S F T)
    (hH : StagesHalt S) (hi : ChainInv S F T n) (hh : HaltInv n)
    (hs : n.stepMain = some n1) : HaltInv n1 := by
  have hmain := hi.main
  unfold Net.stepMain at hs
  split at hs
  · rename_i f rest cur hm
    rw [hm] at hmain
    obtain ⟨hrest, hcur⟩ := hmain
    obtain ⟨hrest1, st, hS, had⟩ := hw.next hrest
    dsimp only at hs
    rw [hcur, had n.rt] at hs
    simp only [AnyStep.spawn] at hs
    cases hs
    intro j t s h1 h2
    simp only [Runtime.go, Runtime.makeChan] at h1
    have hin : inputChan
        { chans := n.rt.chans ++ [{ elemType := st.outT, cap := defaultBufferSize, buf := [],
                                    closes := 0 }],
          tasks := n.rt.tasks ++ [{ name := st.step.Name, σ := st.step.σ,
                                    code := st.step.Process,
                                    status := Status.running st.step.init,
                                    input := inputOf n.rt.tasks.length,
                                    output := n.rt.chans.length }] } j = inputChan n.rt j ∨
        n.rt.tasks.length < j := by
      by_cases hj : j ≤ n.rt.tasks.length
      · left
        unfold inputChan
        cases hio : inputOf j with
        | none => rfl
        | some ch =>
          have := inputOf_eq_some.1 hio
          simp only [Option.bind]
          rw [List.getElem?_append_left (by rw [hi.lens]; omega)]
      · exact Or.inr (Nat.lt_of_not_le hj)
    by_cases hj : j < n.rt.tasks.length
    · rw [List.getElem?_append_left hj] at h1
      rcases hin with hin | hin
      · simp only [Runtime.go, Runtime.makeChan]
        rw [hin]
        exact hh j t s h1 h2
      · omega
    · rw [List.getElem?_append_right (Nat.le_of_not_lt hj)] at h1
      have hj0 : j - n.rt.tasks.length = 0 := by
        by_contra hne
        obtain ⟨m, hm1⟩ := Nat.exists_eq_succ_of_ne_zero hne
        rw [hm1] at h1
        simp at h1
      have hjeq : j = n.rt.tasks.length := by omega
      rw [hj0] at h1
      simp only [List.getElem?_cons_zero, Option.some.injEq] at h1
      subst h1
      cases h2
      rcases hin with hin | hin
      · simp only [Runtime.go, Runtime.makeChan]
        rw [hin]
        obtain ⟨hS0, hS1⟩ := hH _ st hS
        unfold inputChan
        cases hio : inputOf j with
        | none =>
          have hz : j = 0 := by
            unfold inputOf at hio
            split at hio
            · assumption
            · cases hio
          exact hS0 (hjeq ▸ hz)
        | some ch =>
          have hpos := inputOf_eq_some.1 hio
          have hlt : ch < n.rt.chans.length := by rw [hi.lens]; omega
          simp only [Option.bind, List.getElem?_eq_getElem hlt]
          exact ⟨fun _ => hS1 (by omega) _, fun _ xs => hS1 (by omega) _⟩
      · omega
  · split at hs
    · split at hs
      · cases hs; exact hh
      · cases hs; exact hh
    · cases hs; exact hh
  · rename_i ch hm
    rw [hm] at hmain
    split at hs
    · cases hs
    · rename_i c hc
      split at hs
      · cases hs
        intro j t s h1 h2
        have hjlt : j < n.rt.tasks.length := by
          by_contra hcon
          have h3 : n.rt.tasks[j]? = some t := h1
          rw [List.getElem?_eq_none (Nat.le_of_not_lt hcon)] at h3
          cases h3
        have hne : inputOf j ≠ some ch := by
          intro h
          have := inputOf_eq_some.1 h
          omega
        simp only []
        rw [inputChan_setChan_ne hne]
        exact hh j t s h1 h2
      · split at hs
        · cases hs; exact hh
        · cases hs
  · cases hs

/-- `HaltInv` is kept by every event. -/
theorem haltInv_step {T : GoType} {S : List (AnyStep Val Ctx)}
    {F : List (StepFunction Val Ctx)} {n n1 : Net Val Ctx} {e : Event} (hw : WellTyped S F T)
    (hH : StagesHalt S) (hi : ChainInv S F T n) (hh : HaltInv n) (hs : n.step e = some n1) :
    HaltInv n1 := by
  cases e with
  | main => exact haltInv_stepMain hw hH hi hh hs
  | task i d =>
    obtain ⟨t, hti, hts⟩ := Net.stepTask_inv hs
    exact haltInv_stepTask hi hh hti hts
  | cancel =>
    simp only [Net.step] at hs
    split at hs
    · cases hs
    · cases hs
      exact hh

/-- A goroutine that exists has an output channel. -/
theorem ChainInv.chan_of_task {T : GoType} {S : List (AnyStep Val Ctx)}
    {F : List (StepFunction Val Ctx)} {n : Net Val Ctx} (hi : ChainInv S F T n) {j : Nat}
    (hj : j < n.rt.tasks.length) :
    ∃ t c, n.rt.tasks[j]? = some t ∧ n.rt.chans[j]? = some c ∧ t.output = j ∧
      t.input = inputOf j ∧ c.cap = defaultBufferSize ∧
      c.closes = (if t.isDone then 1 else 0) := by
  have hjc : j < n.rt.chans.length := by rw [hi.lens]; exact hj
  have hti := List.getElem?_eq_getElem hj
  have hci := List.getElem?_eq_getElem hjc
  obtain ⟨hout, hin⟩ := hi.output_eq hti
  obtain ⟨st, -, -, hcap, hcl⟩ := hi.chan j _ _ hti hci
  exact ⟨_, _, hti, hci, hout, hin, hcap, hcl⟩

/-- When a channel is empty and open, some goroutine at or before its writer can
take a step. -/
theorem upstream_progress {T : GoType} {S : List (AnyStep Val Ctx)}
    {F : List (StepFunction Val Ctx)} {n : Net Val Ctx} (hi : ChainInv S F T n)
    (hh : HaltInv n) :
    ∀ (j : Nat) (c : Chan Val), n.rt.chans[j]? = some c → c.buf = [] → c.closed = false →
      ∃ i d n1, n.stepTask i d = some n1 := by
  intro j
  induction j with
  | zero =>
    intro c hc hbuf hcl
    have hj : 0 < n.rt.tasks.length := by
      rw [← hi.lens]
      by_contra hcon
      rw [List.getElem?_eq_none (Nat.le_of_not_lt hcon)] at hc
      cases hc
    obtain ⟨t, c0, hti, hci, hout, hin, hcap, hcls⟩ := hi.chan_of_task hj
    rw [hc] at hci
    cases hci
    refine ⟨0, false, ?_⟩
    cases hst : t.status with
    | done =>
      simp [Task.isDone, hst] at hcls
      simp [Chan.closed, hcls] at hcl
    | returned e => simp [Net.stepTask, hti, hst, hout, hc]
    | running s =>
      cases hcode : t.code s with
      | ret e => simp [Net.stepTask, hti, hst, hcode]
      | withCtx f => simp [Net.stepTask, hti, hst, hcode]
      | print line k => simp [Net.stepTask, hti, hst, hcode]
      | send r k =>
        simp [Net.stepTask, hti, hst, hcode, Net.trySend, hout, hc, hcl, hbuf, hcap,
          defaultBufferSize]
      | selectSend r d k =>
        simp [Net.stepTask, hti, hst, hcode, Net.trySend, hout, hc, hcl, hbuf, hcap,
          defaultBufferSize]
      | recv k =>
        have hg := hh 0 t s hti hst
        simp only [inputChan, inputOf, if_true, Option.bind] at hg
        exact (hg.inv_recv_nil hcode).elim
  | succ j ih =>
    intro c hc hbuf hcl
    have hj : j + 1 < n.rt.tasks.length := by
      rw [← hi.lens]
      by_contra hcon
      rw [List.getElem?_eq_none (Nat.le_of_not_lt hcon)] at hc
      cases hc
    obtain ⟨t, c0, hti, hci, hout, hin, hcap, hcls⟩ := hi.chan_of_task hj
    rw [hc] at hci
    cases hci
    cases hst : t.status with
    | done =>
      simp [Task.isDone, hst] at hcls
      simp [Chan.closed, hcls] at hcl
    | returned e => exact ⟨j + 1, false, by simp [Net.stepTask, hti, hst, hout, hc]⟩
    | running s =>
      cases hcode : t.code s with
      | ret e => exact ⟨j + 1, false, by simp [Net.stepTask, hti, hst, hcode]⟩
      | withCtx f => exact ⟨j + 1, false, by simp [Net.stepTask, hti, hst, hcode]⟩
      | print line k => exact ⟨j + 1, false, by simp [Net.stepTask, hti, hst, hcode]⟩
      | send r k =>
        exact ⟨j + 1, false, by
          simp [Net.stepTask, hti, hst, hcode, Net.trySend, hout, hc, hcl, hbuf, hcap,
            defaultBufferSize]⟩
      | selectSend r d k =>
        exact ⟨j + 1, false, by
          simp [Net.stepTask, hti, hst, hcode, Net.trySend, hout, hc, hcl, hbuf, hcap,
            defaultBufferSize]⟩
      | recv k =>
        have hjc : j < n.rt.chans.length := by rw [hi.lens]; omega
        have hcj := List.getElem?_eq_getElem hjc
        have hin1 : t.input = some j := by rw [hin]; exact inputOf_eq_some.2 rfl
        cases hb : n.rt.chans[j].buf with
        | cons x xs =>
          exact ⟨j + 1, false, by simp [Net.stepTask, hti, hst, hcode, Net.tryRecv, hin1, hcj, hb]⟩
        | nil =>
          cases hclj : n.rt.chans[j].closed with
          | true =>
            exact ⟨j + 1, false, by
              simp [Net.stepTask, hti, hst, hcode, Net.tryRecv, hin1, hcj, hb, hclj]⟩
          | false => exact ih _ hcj hb hclj

/-- While `Execute` has not returned, some event can fire. -/
theorem chain_progress {T : GoType} {S : List (AnyStep Val Ctx)}
    {F : List (StepFunction Val Ctx)} {n : Net Val Ctx} (hi : ChainInv S F T n)
    (hh : HaltInv n) (hm : n.main.result = none) : ∃ e n1, n.step e = some n1 := by
  have hmain := hi.main
  cases hmn : n.main with
  | returned e => simp [hmn, Main.result] at hm
  | walking rest cur =>
    refine ⟨Event.main, ?_⟩
    cases rest with
    | nil =>
      cases cur with
      | nil => simp [Net.step, Net.stepMain, hmn]
      | chan elem ch =>
        by_cases hel : elem = n.finalType
        · simp [Net.step, Net.stepMain, hmn, hel]
        · simp [Net.step, Net.stepMain, hmn, hel]
    | cons f rest =>
      cases herr : (f cur n.rt).err with
      | none => simp [Net.step, Net.stepMain, hmn, herr]
      | some e => simp [Net.step, Net.stepMain, hmn, herr]
  | draining ch =>
    rw [hmn] at hmain
    have hlt : ch < n.rt.chans.length := by rw [hi.lens]; omega
    have hc := List.getElem?_eq_getElem hlt
    cases hb : n.rt.chans[ch].buf with
    | cons x xs => exact ⟨Event.main, by simp [Net.step, Net.stepMain, hmn, hc, hb]⟩
    | nil =>
      cases hcl : n.rt.chans[ch].closed with
      | true => exact ⟨Event.main, by simp [Net.step, Net.stepMain, hmn, hc, hb, hcl]⟩
      | false =>
        obtain ⟨i, d, n1, hs⟩ := upstream_progress hi hh ch _ hc hb hcl
        exact ⟨Event.task i d, n1, hs⟩

end Halting

/-! ## Termination -/

section Termination

variable {Val Ctx : Type}

/-- Counters are accessible. -/
theorem acc_num (a : Nat) : Acc (@CompLt Val Ctx) (Comp.num a) := by
  induction a using Nat.strong_induction_on with
  | _ a ih =>
    constructor
    intro y hy
    cases y with
    | num b => exact ih b hy
    | cfg t inp => exact hy.elim

/-- A finished goroutine is accessible. -/
theorem acc_done (name : String) (σ : Type) (code : σ → Instr Val Ctx σ) (input : Option Nat)
    (output : Nat) (inp : Option (List (StepResult Val))) :
    Acc CompLt (Comp.cfg { name := name, σ := σ, code := code, status := Status.done,
                           input := input, output := output } inp) := by
  constructor
  intro y hy
  cases y with
  | num b => exact hy.elim
  | cfg t1 i1 =>
    obtain ⟨hl, -⟩ := hy
    cases hl with
    | close e1 h1 => cases h1
    | ret s e1 h1 _ => cases h1
    | withCtx s f c h1 _ => cases h1
    | print s line k h1 _ => cases h1
    | recvItem s k x xs h1 _ _ => cases h1
    | recvClosed s k h1 _ _ => cases h1
    | send s r k h1 _ => cases h1
    | ctxDone s r d k h1 _ => cases h1

/-- A goroutine whose `Process` has returned is accessible. -/
theorem acc_returned (name : String) (σ : Type) (code : σ → Instr Val Ctx σ)
    (input : Option Nat) (output : Nat) (inp : Option (List (StepResult Val)))
    (e : Option GoError) :
    Acc CompLt (Comp.cfg { name := name, σ := σ, code := code, status := Status.returned e,
                           input := input, output := output } inp) := by
  constructor
  intro y hy
  cases y with
  | num b => exact hy.elim
  | cfg t1 i1 =>
    obtain ⟨hl, -⟩ := hy
    cases hl with
    | close e1 h1 => exact acc_done _ _ _ _ _ _
    | ret s e1 h1 _ => cases h1
    | withCtx s f c h1 _ => cases h1
    | print s line k h1 _ => cases h1
    | recvItem s k x xs h1 _ _ => cases h1
    | recvClosed s k h1 _ _ => cases h1
    | send s r k h1 _ => cases h1
    | ctxDone s r d k h1 _ => cases h1

/-- The steps of a running goroutine, by the operation it is at. -/
theorem localStep_running {name : String} {σ : Type} {code : σ → Instr Val Ctx σ}
    {input : Option Nat} {output : Nat} {inp i1 : Option (List (StepResult Val))} {s : σ}
    {t1 : Task Val Ctx}
    (hl : LocalStep { name := name, σ := σ, code := code, status := Status.running s,
                      input := input, output := output } inp t1 i1) :
    match code s with
    | Instr.ret e =>
      t1 = { name := name, σ := σ, code := code, status := Status.returned e,
             input := input, output := output } ∧ i1 = inp
    | Instr.withCtx f =>
      ∃ c, t1 = { name := name, σ := σ, code := code, status := Status.running (f c).2,
                  input := input, output := output } ∧ i1 = inp
    | Instr.print _ k =>
      t1 = { name := name, σ := σ, code := code, status := Status.running k,
             input := input, output := output } ∧ i1 = inp
    | Instr.recv k =>
      (∃ x xs, inp = some (x :: xs) ∧
        t1 = { name := name, σ := σ, code := code, status := Status.running (k (some x)),
               input := input, output := output } ∧ i1 = some xs) ∨
      (inp = some [] ∧
        t1 = { name := name, σ := σ, code := code, status := Status.running (k none),
               input := input, output := output } ∧ i1 = some [])
    | Instr.send _ k =>
      t1 = { name := name, σ := σ, code := code, status := Status.running k,
             input := input, output := output } ∧ i1 = inp
    | Instr.selectSend _ d k =>
      (t1 = { name := name, σ := σ, code := code, status := Status.running k,
              input := input, output := output } ∨
       t1 = { name := name, σ := σ, code := code, status := Status.running d,
              input := input, output := output }) ∧ i1 = inp := by
  cases hl with
  | close e1 h1 => cases h1
  | ret s1 e1 h1 h2 =>
    cases h1
    dsimp only at h2
    rw [h2]
    exact ⟨rfl, rfl⟩
  | withCtx s1 f c h1 h2 =>
    cases h1
    dsimp only at h2
    rw [h2]
    exact ⟨c, rfl, rfl⟩
  | print s1 line k h1 h2 =>
    cases h1
    dsimp only at h2
    rw [h2]
    exact ⟨rfl, rfl⟩
  | recvItem s1 k x xs h1 h2 h3 =>
    cases h1
    dsimp only at h2
    rw [h2]
    exact Or.inl ⟨x, xs, h3, rfl, rfl⟩
  | recvClosed s1 k h1 h2 h3 =>
    cases h1
    dsimp only at h2
    rw [h2]
    exact Or.inr ⟨h3, rfl, rfl⟩
  | send s1 r k h1 h2 =>
    cases h1
    dsimp only at h2
    rcases h2 with h2 | ⟨d, h2⟩
    · rw [h2]
      exact ⟨rfl, rfl⟩
    · rw [h2]
      exact ⟨Or.inl rfl, rfl⟩
  | ctxDone s1 r d k h1 h2 =>
    cases h1
    dsimp only at h2
    rw [h2]
    exact ⟨Or.inr rfl, rfl⟩

/-- A running goroutine that returns on its queue is accessible. -/
theorem acc_running (name : String) (σ : Type) (code : σ → Instr Val Ctx σ)
    (input : Option Nat) (output : Nat) (inp : Option (List (StepResult Val))) (s : σ)
    (h : HaltsOn code inp s) :
    Acc CompLt (Comp.cfg { name := name, σ := σ, code := code, status := Status.running s,
                           input := input, output := output } inp) := by
  induction h with
  | ret inp s e hcode =>
    constructor
    intro y hy
    cases y with
    | num b => exact hy.elim
    | cfg t1 i1 =>
      have := localStep_running hy.1
      rw [hcode] at this
      obtain ⟨rfl, rfl⟩ := this
      exact acc_returned _ _ _ _ _ _ _
  | withCtx inp s f hcode _ ih =>
    constructor
    intro y hy
    cases y with
    | num b => exact hy.elim
    | cfg t1 i1 =>
      have := localStep_running hy.1
      rw [hcode] at this
      obtain ⟨c, rfl, rfl⟩ := this
      exact ih c
  | print inp s line k hcode _ ih =>
    constructor
    intro y hy
    cases y with
    | num b => exact hy.elim
    | cfg t1 i1 =>
      have := localStep_running hy.1
      rw [hcode] at this
      obtain ⟨rfl, rfl⟩ := this
      exact ih
  | recvItem x xs s k hcode _ ih =>
    constructor
    intro y hy
    cases y with
    | num b => exact hy.elim
    | cfg t1 i1 =>
      have := localStep_running hy.1
      rw [hcode] at this
      rcases this with ⟨x1, xs1, h1, rfl, rfl⟩ | ⟨h1, -, -⟩
      · cases h1
        exact ih
      · cases h1
  | recvClosed s k hcode _ ih =>
    constructor
    intro y hy
    cases y with
    | num b => exact hy.elim
    | cfg t1 i1 =>
      have := localStep_running hy.1
      rw [hcode] at this
      rcases this with ⟨x1, xs1, h1, -, -⟩ | ⟨-, rfl, rfl⟩
      · cases h1
      · exact ih
  | send inp s r k hcode _ ih =>
    constructor
    intro y hy
    cases y with
    | num b => exact hy.elim
    | cfg t1 i1 =>
      have := localStep_running hy.1
      rw [hcode] at this
      obtain ⟨rfl, rfl⟩ := this
      exact ih
  | selectSend inp s r d k hcode _ _ ih1 ih2 =>
    constructor
    intro y hy
    cases y with
    | num b => exact hy.elim
    | cfg t1 i1 =>
      have := localStep_running hy.1
      rw [hcode] at this
      obtain ⟨rfl | rfl, rfl⟩ := this
      · exact ih2
      · exact ih1

/-- The order on components is well founded. -/
theorem compLt_wf : WellFounded (@CompLt Val Ctx) := by
  constructor
  intro x
  cases x with
  | num a => exact acc_num a
  | cfg t inp =>
    obtain ⟨name, σ, code, status, input, output⟩ := t
    cases status with
    | done => exact acc_done _ _ _ _ _ _
    | returned e => exact acc_returned _ _ _ _ _ _ _
    | running s =>
      by_cases h : HaltsOn code inp s
      · exact acc_running _ _ _ _ _ _ _ h
      · constructor
        intro y hy
        cases y with
        | num b => exact hy.elim
        | cfg t1 i1 => exact (h (hy.2 s rfl)).elim

/-- The lexicographic order on measures is well founded. -/
theorem lexLt_wf (M : Nat) : WellFounded (@LexLt Val Ctx M) := by
  have hwf := Pi.Lex.wellFounded (ι := Fin M) (α := fun _ => Comp Val Ctx) (· < ·)
    (s := fun _ => CompLt) (fun _ => compLt_wf)
  refine Subrelation.wf ?_ (InvImage.wf (fun (x : Nat → Comp Val Ctx) (i : Fin M) => x i.val) hwf)
  intro x y hxy
  obtain ⟨i, hi, heq, hlt⟩ := hxy
  exact ⟨⟨i, hi⟩, fun j hj => heq j.val hj, hlt⟩

/-- The component of goroutine `i` in the measure. -/
theorem netMeasure_task {N : Nat} {n : Net Val Ctx} {i : Nat} {t : Task Val Ctx}
    (hi : i < N) (hti : n.rt.tasks[i]? = some t) :
    netMeasure N n (i + 1) = Comp.cfg t (inputBuf n.rt i) := by
  simp [netMeasure, hti, Nat.succ_le_of_lt hi]

/-- The components of the goroutines before `i` only depend on those goroutines
and on their input channels. -/
theorem netMeasure_eq_below {N : Nat} {n n1 : Net Val Ctx} {i : Nat}
    (hm : n1.main = n.main) (hc : n1.cancelled = n.cancelled) (hiN : i ≤ N)
    (ht : ∀ j, j < i → n1.rt.tasks[j]? = n.rt.tasks[j]?)
    (hin : ∀ j, j < i → inputChan n1.rt j = inputChan n.rt j) :
    ∀ j, j < i + 1 → netMeasure N n1 j = netMeasure N n j := by
  intro j hj
  unfold netMeasure
  by_cases hj0 : j = 0
  · simp [hj0, walkCtr, hm, hc]
  · have hjN : j ≤ N := by omega
    simp only [hj0, if_false, hjN, if_true, inputBuf]
    rw [ht (j - 1) (by omega), hin (j - 1) (by omega)]

/-- A step of goroutine `i` that changes no channel before channel `i - 1`
decreases the measure when it decreases the component of goroutine `i`. -/
theorem lexLt_of_task {N : Nat} {n n1 : Net Val Ctx} {i : Nat} {t t1 : Task Val Ctx}
    (hm : n1.main = n.main) (hc : n1.cancelled = n.cancelled) (hiN : i < N)
    (hti : n.rt.tasks[i]? = some t) (hti1 : n1.rt.tasks[i]? = some t1)
    (ht : ∀ j, j < i → n1.rt.tasks[j]? = n.rt.tasks[j]?)
    (hin : ∀ j, j < i → inputChan n1.rt j = inputChan n.rt j)
    (hlt : CompLt (Comp.cfg t1 (inputBuf n1.rt i)) (Comp.cfg t (inputBuf n.rt i))) :
    LexLt (N + 2) (netMeasure N n1) (netMeasure N n) := by
  refine ⟨i + 1, by omega, netMeasure_eq_below hm hc (Nat.le_of_lt hiN) ht hin, ?_⟩
  rw [netMeasure_task hiN hti, netMeasure_task hiN hti1]
  exact hlt

/-- Looking up the goroutines after a change of goroutine `i`. -/
theorem tasks_setTask_ne {rt : Runtime Val Ctx} {i j : Nat} {t1 : Task Val Ctx} (h : j ≠ i) :
    (rt.setTask i t1).tasks[j]? = rt.tasks[j]? := by
  simp only [Runtime.setTask]
  exact List.getElem?_set_ne (fun h1 => h h1.symm)

/-- Looking up goroutine `i` after its change. -/
theorem tasks_setTask_self {rt : Runtime Val Ctx} {i : Nat} {t t1 : Task Val Ctx}
    (hti : rt.tasks[i]? = some t) : (rt.setTask i t1).tasks[i]? = some t1 := by
  have hlt : i < rt.tasks.length := by
    by_contra hc
    rw [List.getElem?_eq_none (Nat.le_of_not_lt hc)] at hti
    cases hti
  simp only [Runtime.setTask]
  exact List.getElem?_set_self hlt

/-- What `HaltInv` gives on the queue a goroutine sees. -/
theorem HaltInv.onBuf {n : Net Val Ctx} (hh : HaltInv n) {i : Nat} {t : Task Val Ctx}
    (hti : n.rt.tasks[i]? = some t) :
    ∀ s, t.status = Status.running s → HaltsOn t.code (inputBuf n.rt i) s := by
  intro s hst
  have hg := hh i t s hti hst
  unfold inputBuf
  cases hin : inputChan n.rt i with
  | none =>
    rw [hin] at hg
    exact hg
  | some c =>
    rw [hin] at hg
    exact hg.now

/-- Every step of a stage goroutine decreases the measure. -/
theorem lexLt_stepTask {T : GoType} {S : List (AnyStep Val Ctx)}
    {F : List (StepFunction Val Ctx)} {n n1 : Net Val Ctx} {i : Nat} {t : Task Val Ctx}
    (hi : ChainInv S F T n) (hh : HaltInv n) (hti : n.rt.tasks[i]? = some t)
    (hs : TaskStep n i t n1) :
    LexLt (S.length + 2) (netMeasure S.length n1) (netMeasure S.length n) := by
  obtain ⟨hout, hin0⟩ := hi.output_eq hti
  have hiN : i < S.length := by
    refine Nat.lt_of_lt_of_le ?_ hi.le
    by_contra hc
    rw [List.getElem?_eq_none (Nat.le_of_not_lt hc)] at hti
    cases hti
  have hgood := hh.onBuf hti
  have hni : inputOf i ≠ some t.output := by
    intro h
    rw [hout] at h
    have := inputOf_eq_some.1 h
    omega
  have hbelow : ∀ j, j < i → inputOf j ≠ some t.output := by
    intro j hj h
    rw [hout] at h
    have := inputOf_eq_some.1 h
    omega
  cases hs with
  | close e c hst hc =>
    refine lexLt_of_task rfl rfl hiN hti (tasks_setTask_self hti)
      (fun j hj => tasks_setTask_ne (Nat.ne_of_lt hj))
      (fun j hj => inputChan_update_ne (hbelow j hj)) ⟨?_, hgood⟩
    simp only [Net.setStatus, inputBuf]
    rw [inputChan_update_ne hni]
    exact LocalStep.close e hst
  | ret s e hst hcode =>
    exact lexLt_of_task rfl rfl hiN hti (tasks_setTask_self hti)
      (fun j hj => tasks_setTask_ne (Nat.ne_of_lt hj)) (fun j hj => rfl)
      ⟨LocalStep.ret s e hst hcode, hgood⟩
  | withCtx s f hst hcode =>
    exact lexLt_of_task rfl rfl hiN hti (tasks_setTask_self hti)
      (fun j hj => tasks_setTask_ne (Nat.ne_of_lt hj)) (fun j hj => rfl)
      ⟨LocalStep.withCtx s f n.pipelineContext hst hcode, hgood⟩
  | print s line k hst hcode =>
    exact lexLt_of_task rfl rfl hiN hti (tasks_setTask_self hti)
      (fun j hj => tasks_setTask_ne (Nat.ne_of_lt hj)) (fun j hj => rfl)
      ⟨LocalStep.print s line k hst hcode, hgood⟩
  | recvItem s k ch c x xs hst hcode hin hc hbuf =>
    rw [hin0] at hin
    have hi1 := inputOf_eq_some.1 hin
    refine lexLt_of_task rfl rfl hiN hti (tasks_setTask_self hti)
      (fun j hj => tasks_setTask_ne (Nat.ne_of_lt hj))
      (fun j hj => inputChan_update_ne (fun h => by
        have := inputOf_eq_some.1 h
        omega)) ⟨?_, hgood⟩
    simp only [Net.setStatus, inputBuf]
    rw [(inputChan_update_eq hc hin).1,
      (inputChan_update_eq (i := i) (u := t) (d := c) hc hin).2]
    simp only [Option.map]
    exact LocalStep.recvItem s k x xs hst hcode (by rw [hbuf])
  | recvClosed s k ch c hst hcode hin hc hbuf hcl =>
    rw [hin0] at hin
    have hbuf0 : inputBuf n.rt i = some [] := by
      simp [inputBuf, inputChan, hin, hc, hbuf]
    refine lexLt_of_task rfl rfl hiN hti (tasks_setTask_self hti)
      (fun j hj => tasks_setTask_ne (Nat.ne_of_lt hj)) (fun j hj => rfl) ⟨?_, hgood⟩
    have hsame : inputBuf (n.setStatus i t (Status.running (k none))).rt i = inputBuf n.rt i :=
      rfl
    rw [hsame, hbuf0]
    exact LocalStep.recvClosed s k hst hcode rfl
  | send s r k c hst hcode hc hcl hlen =>
    refine lexLt_of_task rfl rfl hiN hti (tasks_setTask_self hti)
      (fun j hj => tasks_setTask_ne (Nat.ne_of_lt hj))
      (fun j hj => inputChan_update_ne (hbelow j hj)) ⟨?_, hgood⟩
    simp only [Net.setStatus, inputBuf]
    rw [inputChan_update_ne hni]
    exact LocalStep.send s r k hst hcode
  | ctxDone s r onDone onSent hst hcode hcan =>
    exact lexLt_of_task rfl rfl hiN hti (tasks_setTask_self hti)
      (fun j hj => tasks_setTask_ne (Nat.ne_of_lt hj)) (fun j hj => rfl)
      ⟨LocalStep.ctxDone s r onDone onSent hst hcode, hgood⟩

/-- A decrease of the first component. -/
theorem lexLt_of_walkCtr {N : Nat} {n n1 : Net Val Ctx} (h : walkCtr n1 < walkCtr n) :
    LexLt (N + 2) (netMeasure N n1) (netMeasure N n) := by
  refine ⟨0, by omega, fun j hj => absurd hj (Nat.not_lt_zero j), ?_⟩
  simpa [netMeasure, CompLt] using h

/-- A decrease of the last component. -/
theorem lexLt_of_drainCtr {N : Nat} {n n1 : Net Val Ctx}
    (hw : walkCtr n1 = walkCtr n)
    (ht : ∀ j, j < N → n1.rt.tasks[j]? = n.rt.tasks[j]?)
    (hin : ∀ j, j < N → inputChan n1.rt j = inputChan n.rt j)
    (h : drainCtr n1 < drainCtr n) :
    LexLt (N + 2) (netMeasure N n1) (netMeasure N n) := by
  refine ⟨N + 1, by omega, ?_, ?_⟩
  · intro j hj
    unfold netMeasure
    by_cases hj0 : j = 0
    · simp [hj0, hw]
    · have hjN : j ≤ N := by omega
      simp only [hj0, if_false, hjN, if_true, inputBuf]
      rw [ht (j - 1) (by omega), hin (j - 1) (by omega)]
  · simpa [netMeasure, CompLt] using h

/-- Every step of `Execute` decreases the measure. -/
theorem lexLt_stepMain {T : GoType} {S : List (AnyStep Val Ctx)}
    {F : List (StepFunction Val Ctx)} {n n1 : Net Val Ctx} (hi : ChainInv S F T n)
    (hs : n.stepMain = some n1) :
    LexLt (S.length + 2) (netMeasure S.length n1) (netMeasure S.length n) := by
  have hmain := hi.main
  unfold Net.stepMain at hs
  split at hs
  · rename_i f rest cur hm
    dsimp only at hs
    split at hs
    · cases hs
      exact lexLt_of_walkCtr (by simp [walkCtr, hm])
    · cases hs
      exact lexLt_of_walkCtr (by simp [walkCtr, hm])
  · rename_i cur hm
    split at hs
    · split at hs
      · cases hs
        exact lexLt_of_walkCtr (by simp [walkCtr, hm])
      · cases hs
        exact lexLt_of_walkCtr (by simp [walkCtr, hm])
    · cases hs
      exact lexLt_of_walkCtr (by simp [walkCtr, hm])
  · rename_i ch hm
    rw [hm] at hmain
    split at hs
    · cases hs
    · rename_i c hc
      split at hs
      · rename_i x xs hbuf
        cases hs
        refine lexLt_of_drainCtr (by simp [walkCtr, hm]) (fun j hj => rfl) ?_ ?_
        · intro j hj
          refine inputChan_setChan_ne (fun h => ?_)
          have := inputOf_eq_some.1 h
          omega
        · have hlt : ch < n.rt.chans.length := by
            by_contra hcon
            rw [List.getElem?_eq_none (Nat.le_of_not_lt hcon)] at hc
            cases hc
          simp [drainCtr, hm, hc, hbuf, Runtime.setChan, List.getElem?_set_self hlt]
      · rename_i hbuf
        split at hs
        · cases hs
          refine lexLt_of_drainCtr (by simp [walkCtr, hm]) (fun j hj => rfl) (fun j hj => rfl) ?_
          simp [drainCtr, hm, hc]
        · cases hs
  · cases hs

/-- Every event decreases the measure. -/
theorem lexLt_step {T : GoType} {S : List (AnyStep Val Ctx)}
    {F : List (StepFunction Val Ctx)} {n n1 : Net Val Ctx} {e : Event}
    (hi : ChainInv S F T n) (hh : HaltInv n) (hs : n.step e = some n1) :
    LexLt (S.length + 2) (netMeasure S.length n1) (netMeasure S.length n) := by
  cases e with
  | main => exact lexLt_stepMain hi hs
  | task i d =>
    obtain ⟨t, hti, hts⟩ := Net.stepTask_inv hs
    exact lexLt_stepTask hi hh hti hts
  | cancel =>
    simp only [Net.step] at hs
    split at hs
    · cases hs
    · rename_i hcan
      cases hs
      exact lexLt_of_walkCtr (by simp [walkCtr, hcan])

/-- From a state of an execution of a pipeline whose stages return, `Execute`
returns nil on every schedule. -/
theorem inevitably_of_inv {T : GoType} {S : List (AnyStep Val Ctx)}
    {F : List (StepFunction Val Ctx)} (hw : WellTyped S F T) (hH : StagesHalt S)
    (n : Net Val Ctx) (hi : ChainInv S F T n) (hh : HaltInv n) :
    Inevitably (fun m => m.main = Main.returned none) n := by
  have hwf := InvImage.wf (@netMeasure Val Ctx S.length)
    (lexLt_wf (S.length + 2))
  induction n using hwf.induction with
  | _ n ih =>
    cases hres : n.main.result with
    | some e =>
      have hm : n.main = Main.returned e := by
        cases hmn : n.main with
        | returned e1 =>
          rw [hmn] at hres
          simp only [Main.result, Option.some.injEq] at hres
          rw [hres]
        | walking rest cur => rw [hmn] at hres; cases hres
        | draining ch => rw [hmn] at hres; cases hres
      have hmain := hi.main
      rw [hm] at hmain
      refine Inevitably.now ?_
      show n.main = Main.returned none
      rw [hm, hmain.2]
    | none =>
      refine Inevitably.later (chain_progress hi hh hres) ?_
      intro e n1 hs
      exact ih n1 (lexLt_step hi hh hs) (chainInv_step hw hi hs) (haltInv_step hw hH hi hh hs)

/-- On every schedule, `Execute` of a built pipeline whose stages return returns
nil. -/
theorem Chain.inevitably {T : GoType} (c : Chain Val Ctx T) (hH : StagesHalt c.stages)
    (ctx : Ctx) :
    Inevitably (fun m => m.main = Main.returned none) (c.builder.Build.Execute ctx) := by
  refine inevitably_of_inv c.wellTyped hH _ (chainInv_init _ _ ctx) ?_
  intro j t s h
  simp [Pipeline.Execute] at h

end Termination

/-! ## The shipped stages return -/

section Shipped

/-- `HelloWorld.Process` returns. -/
theorem helloWorld_halts (inp : Option (List (StepResult GoValue))) :
    HaltsOn NewHelloWorldSource.Process inp NewHelloWorldSource.init :=
  HaltsOn.selectSend inp HelloWorldPc.start _ _ _ rfl
    (HaltsOn.ret inp HelloWorldPc.cancelled _ rfl) (HaltsOn.ret inp HelloWorldPc.sent _ rfl)

/-- `ParseArgumentsStep.Process` returns. -/
theorem parseArguments_halts (osArgs : List String) (statIsFile : String → Bool)
    (inp : Option (List (StepResult GoValue))) :
    HaltsOn (NewParseArgumentsStep osArgs statIsFile).Process inp
      (NewParseArgumentsStep osArgs statIsFile).init :=
  HaltsOn.withCtx inp ParseArgumentsPc.start _ rfl (fun _ =>
    HaltsOn.selectSend inp ParseArgumentsPc.sending _ _ _ rfl
      (HaltsOn.ret inp ParseArgumentsPc.cancelled _ rfl)
      (HaltsOn.ret inp ParseArgumentsPc.sent _ rfl))

/-- The loop of `ListFilesStep.Process` over the entries returns. -/
theorem listFiles_emit_halts (readDir : Except GoError (List DirEntry))
    (inp : Option (List (StepResult GoValue))) (entries : List DirEntry) :
    HaltsOn (NewListFilesStep readDir).Process inp (ListFilesPc.emit entries) := by
  induction entries with
  | nil => exact HaltsOn.ret inp _ none rfl
  | cons entry rest ih =>
    exact HaltsOn.selectSend inp _ _ _ _ rfl (HaltsOn.ret inp ListFilesPc.cancelled _ rfl) ih

/-- `ListFilesStep.Process` returns on every input. -/
theorem listFiles_halts (readDir : Except GoError (List DirEntry))
    (xs : List (StepResult GoValue)) :
    HaltsOn (NewListFilesStep readDir).Process (some xs) (NewListFilesStep readDir).init := by
  have hnext : ∀ inp, HaltsOn (NewListFilesStep readDir).Process inp
      (match readDir with
       | Except.error err => ListFilesPc.failed err
       | Except.ok entries => ListFilesPc.emit entries) := by
    intro inp
    cases readDir with
    | error err => exact HaltsOn.ret inp _ (some err) rfl
    | ok entries => exact listFiles_emit_halts _ inp entries
  cases xs with
  | nil => exact HaltsOn.recvClosed ListFilesPc.start _ rfl (hnext _)
  | cons x xs => exact HaltsOn.recvItem x xs ListFilesPc.start _ rfl (hnext _)

/-- The loop of `FilterFilesStep.Process` returns on every input. -/
theorem filterFiles_loop_halts (matchFn : String → String → Bool × Option GoError)
    (pattern : String) (xs : List (StepResult GoValue)) :
    HaltsOn (NewFilterFilesStep matchFn).Process (some xs) (FilterFilesPc.loop pattern) := by
  induction xs with
  | nil =>
    exact HaltsOn.recvClosed (FilterFilesPc.loop pattern) _ rfl
      (HaltsOn.ret _ FilterFilesPc.finished none rfl)
  | cons x xs ih =>
    refine HaltsOn.recvItem x xs (FilterFilesPc.loop pattern) _ rfl ?_
    by_cases hk : filterKeeps matchFn pattern x.Item = true
    · simp only [hk, if_true]
      exact HaltsOn.selectSend _ (FilterFilesPc.emit pattern x.Item) _ _ _ rfl
        (HaltsOn.ret _ FilterFilesPc.cancelled _ rfl) ih
    · simp only [hk]
      exact ih

/-- `FilterFilesStep.Process` returns on every input. -/
theorem filterFiles_halts (matchFn : String → String → Bool × Option GoError)
    (xs : List (StepResult GoValue)) :
    HaltsOn (NewFilterFilesStep matchFn).Process (some xs) (NewFilterFilesStep matchFn).init :=
  HaltsOn.withCtx _ FilterFilesPc.start _ rfl (fun _ => filterFiles_loop_halts matchFn _ xs)

/-- `PrintFilesStep.Process` returns on every input. -/
theorem printFiles_halts (xs : List (StepResult GoValue)) :
    HaltsOn NewPrintFilesStep.Process (some xs) NewPrintFilesStep.init := by
  induction xs with
  | nil =>
    exact HaltsOn.recvClosed PrintFilesPc.loop _ rfl (HaltsOn.ret _ PrintFilesPc.finished none rfl)
  | cons x xs ih =>
    exact HaltsOn.recvItem x xs PrintFilesPc.loop _ rfl
      (HaltsOn.print _ (PrintFilesPc.println x.Item) _ _ rfl
        (HaltsOn.selectSend _ (PrintFilesPc.emit x.Item) _ _ _ rfl
          (HaltsOn.ret _ PrintFilesPc.cancelled _ rfl) ih))

/-- The stage of the Hello World pipeline returns. -/
theorem helloWorldChain_halts : StagesHalt helloWorldChain.stages := by
  intro j st hst
  cases j with
  | zero =>
    simp only [helloWorldChain, Chain.stages, List.getElem?_cons_zero, Option.some.injEq] at hst
    subst hst
    exact ⟨fun _ => helloWorld_halts _, fun h => absurd h (Nat.lt_irrefl 0)⟩
  | succ j => simp [helloWorldChain, Chain.stages] at hst

/-- The stages of the `ls` pipeline return. -/
theorem lsChain_halts (osArgs : List String) (statIsFile : String → Bool)
    (readDir : Except GoError (List DirEntry))
    (matchFn : String → String → Bool × Option GoError) :
    StagesHalt (lsChain osArgs statIsFile readDir matchFn).stages := by
  intro j st hst
  simp only [lsChain, Chain.stages, List.cons_append, List.nil_append] at hst
  match j, hst with
  | 0, hst =>
    simp only [List.getElem?_cons_zero, Option.some.injEq] at hst
    subst hst
    exact ⟨fun _ => parseArguments_halts _ _ _, fun h => absurd h (Nat.lt_irrefl 0)⟩
  | 1, hst =>
    simp only [List.getElem?_cons_succ, List.getElem?_cons_zero, Option.some.injEq] at hst
    subst hst
    exact ⟨fun h => absurd h (by decide), fun _ xs => listFiles_halts _ xs⟩
  | 2, hst =>
    simp only [List.getElem?_cons_succ, List.getElem?_cons_zero, Option.some.injEq] at hst
    subst hst
    exact ⟨fun h => absurd h (by decide), fun _ xs => filterFiles_halts _ xs⟩
  | 3, hst =>
    simp only [List.getElem?_cons_succ, List.getElem?_cons_zero, Option.some.injEq] at hst
    subst hst
    exact ⟨fun h => absurd h (by decide), fun _ xs => printFiles_halts xs⟩
  | j + 4, hst => simp at hst

/-- C9 as stated fails: the reads do not race the cancellation signal.  In the
Hello World execution `helloAfterCancel` the context is cancelled, `Execute` has
not returned, and its drain loop cannot take a step: it is blocked on the empty
final channel.  In the `ls` execution `lsAfterCancel` the context is cancelled
and neither `ListFilesStep` (at the read of its dummy input) nor
`FilterFilesStep` nor `PrintFilesStep` (at the head of their loops over the
input) nor the drain loop of `Execute` can take a step, whichever case a
`select` would choose. -/
theorem C9_counterexample_reads_do_not_race :
    (helloAfterCancel.cancelled = true ∧ helloAfterCancel.main.result = none ∧
      helloAfterCancel.calls.length = 1 ∧
      (helloAfterCancel.step Event.main).isNone = true) ∧
    (lsAfterCancel.cancelled = true ∧ lsAfterCancel.main.result = none ∧
      lsAfterCancel.calls.length = 4 ∧
      (lsAfterCancel.step Event.main).isNone = true ∧
      (lsAfterCancel.step (Event.task 1 true)).isNone = true ∧
      (lsAfterCancel.step (Event.task 1 false)).isNone = true ∧
      (lsAfterCancel.step (Event.task 2 true)).isNone = true ∧
      (lsAfterCancel.step (Event.task 2 false)).isNone = true ∧
      (lsAfterCancel.step (Event.task 3 true)).isNone = true ∧
      (lsAfterCancel.step (Event.task 3 false)).isNone = true) :=
  ⟨⟨rfl, rfl, rfl, rfl⟩, ⟨rfl, rfl, rfl, rfl, rfl, rfl, rfl, rfl, rfl, rfl⟩⟩

/-- C9, as the code has it.  Every write races the cancellation signal: a
goroutine at a `select` around its send can take the `Done` case as soon as the
context is cancelled, whatever the state of its output channel, and every send of
the shipped stages (`HelloWorld`, `ParseArgumentsStep`, `ListFilesStep`,
`FilterFilesStep`, `PrintFilesStep`) is inside such a `select`.  The reads do not
race the signal: a stage at a receive, and `Execute` in its drain loop, are
blocked while the channel is empty and open, cancelled or not.  On every schedule
of the shipped pipelines, with or without cancellation, `Execute` nevertheless
returns, with nil, because every goroutine upstream returns and closes its
channel. -/
theorem C9_writes_race_reads_wait :
    (∀ (Val Ctx : Type) (n : Net Val Ctx) (i : Nat) (t : Task Val Ctx) (s : t.σ)
      (r : StepResult Val) (onDone onSent : t.σ),
      n.rt.tasks[i]? = some t → t.status = Status.running s →
      t.code s = Instr.selectSend r onDone onSent → n.cancelled = true →
      n.stepTask i true = some (n.setStatus i t (Status.running onDone))) ∧
    ((∀ s r k, NewHelloWorldSource.Process s ≠ Instr.send r k) ∧
     (∀ osArgs statIsFile s r k,
        (NewParseArgumentsStep osArgs statIsFile).Process s ≠ Instr.send r k) ∧
     (∀ readDir s r k, (NewListFilesStep readDir).Process s ≠ Instr.send r k) ∧
     (∀ matchFn s r k, (NewFilterFilesStep matchFn).Process s ≠ Instr.send r k) ∧
     (∀ s r k, NewPrintFilesStep.Process s ≠ Instr.send r k)) ∧
    (∀ (Val Ctx : Type) (n : Net Val Ctx) (i : Nat) (t : Task Val Ctx) (s : t.σ)
      (k : Option (StepResult Val) → t.σ) (ch : Nat) (c : Chan Val) (d : Bool),
      n.rt.tasks[i]? = some t → t.status = Status.running s → t.code s = Instr.recv k →
      t.input = some ch → n.rt.chans[ch]? = some c → c.buf = [] → c.closed = false →
      n.stepTask i d = none) ∧
    (∀ (Val Ctx : Type) (n : Net Val Ctx) (ch : Nat) (c : Chan Val),
      n.main = Main.draining ch → n.rt.chans[ch]? = some c → c.buf = [] → c.closed = false →
      n.stepMain = none) ∧
    Inevitably (fun m => m.main = Main.returned none)
      (helloWorldChain.builder.Build.Execute testContext) ∧
    (∀ (osArgs : List String) (statIsFile : String → Bool)
      (readDir : Except GoError (List DirEntry))
      (matchFn : String → String → Bool × Option GoError) (ctx : LsContext),
      Inevitably (fun m => m.main = Main.returned none)
        ((lsChain osArgs statIsFile readDir matchFn).builder.Build.Execute ctx)) := by
  refine ⟨?_, ⟨?_, ?_, ?_, ?_, ?_⟩, ?_, ?_, ?_, ?_⟩
  · intro Val Ctx n i t s r onDone onSent hti hst hcode hcan
    simp [Net.stepTask, hti, hst, hcode, hcan]
  · intro s r k h
    cases s <;> cases h
  · intro osArgs statIsFile s r k h
    cases s <;> cases h
  · intro readDir s r k h
    cases s with
    | start => cases h
    | failed err => cases h
    | emit entries => cases entries <;> cases h
    | cancelled => cases h
  · intro matchFn s r k h
    cases s <;> cases h
  · intro s r k h
    cases s <;> cases h
  · intro Val Ctx n i t s k ch c d hti hst hcode hin hc hbuf hcl
    simp [Net.stepTask, hti, hst, hcode, Net.tryRecv, hin, hc, hbuf, hcl]
  · intro Val Ctx n ch c hm hc hbuf hcl
    simp [Net.stepMain, hm, hc, hbuf, hcl]
  · exact helloWorldChain.inevitably helloWorldChain_halts testContext
  · intro osArgs statIsFile readDir matchFn ctx
    exact (lsChain osArgs statIsFile readDir matchFn).inevitably (lsChain_halts _ _ _ _) ctx

end Shipped

/-! ## Order of the items -/

section Flow

variable {Val Ctx : Type}

/-- `FlowAt` only reads the goroutines and channels of the chain. -/
theorem flowAt_congr {T : GoType} {c : Chain Val Ctx T} {ys : List (StepResult Val)}
    (lc : LinearChain Val Ctx T c ys) (rt rt1 : Runtime Val Ctx)
    (h : ∀ j, j < c.stages.length →
      rt1.tasks[j]? = rt.tasks[j]? ∧ rt1.chans[j]? = rt.chans[j]?)
    {here : List (StepResult Val)} (hf : FlowAt lc rt here) : FlowAt lc rt1 here := by
  induction lc generalizing here with
  | source s xs cert =>
    have h0 := h 0 (by simp [Chain.stages])
    simp only [FlowAt] at hf ⊢
    rw [h0.1, h0.2]
    exact hf
  | append c ys lc s f cert ih =>
    have hm := h c.stages.length (by simp [Chain.stages])
    simp only [FlowAt] at hf ⊢
    obtain ⟨below, hb, hlev⟩ := hf
    refine ⟨below, ih (fun j hj => h j (by simp [Chain.stages]; omega)) hb, ?_⟩
    rw [hm.1, hm.2]
    exact hlev

/-- Taking the first item out of the last channel of the chain takes it out of
the items still to arrive. -/
theorem flowAt_pop {T : GoType} {c : Chain Val Ctx T} {ys : List (StepResult Val)}
    (lc : LinearChain Val Ctx T c ys) (rt rt1 : Runtime Val Ctx) {t : Task Val Ctx}
    {ch : Chan Val} {x : StepResult Val} {xs : List (StepResult Val)}
    (ht : ∀ j, j < c.stages.length → rt1.tasks[j]? = rt.tasks[j]?)
    (hc : ∀ j, j + 1 < c.stages.length → rt1.chans[j]? = rt.chans[j]?)
    (hti : rt.tasks[c.stages.length - 1]? = some t)
    (hch : rt.chans[c.stages.length - 1]? = some ch) (hbuf : ch.buf = x :: xs)
    (hch1 : rt1.chans[c.stages.length - 1]? = some ⟨ch.elemType, ch.cap, xs, ch.closes⟩)
    {here : List (StepResult Val)} (hf : FlowAt lc rt here) :
    ∃ here1, here = x :: here1 ∧ FlowAt lc rt1 here1 := by
  cases lc with
  | source s xs0 cert =>
    simp only [Chain.stages, List.length_singleton, Nat.sub_self] at hti hch hch1
    have ht0 := ht 0 (by simp [Chain.stages])
    simp only [FlowAt] at hf ⊢
    rw [hti] at hf
    obtain ⟨ch0, status, fut, h1, h2, h3, h4⟩ := hf
    rw [hch] at h1
    cases h1
    refine ⟨xs ++ fut, by rw [h4, hbuf]; rfl, ?_⟩
    rw [ht0, hti]
    exact ⟨_, status, fut, hch1, h2, h3, rfl⟩
  | append c0 ys0 lc0 s f cert =>
    simp only [Chain.stages, List.length_append, List.length_singleton,
      Nat.add_sub_cancel] at hti hch hch1
    have htm := ht c0.stages.length (by simp [Chain.stages])
    simp only [FlowAt] at hf ⊢
    obtain ⟨below, hb, hlev⟩ := hf
    rw [hti] at hlev
    obtain ⟨ch0, status, fut, h1, h2, h3, h4⟩ := hlev
    rw [hch] at h1
    cases h1
    refine ⟨xs ++ fut, by rw [h4, hbuf]; rfl, below, ?_, ?_⟩
    · refine flowAt_congr lc0 rt rt1 (fun j hj => ⟨ht j ?_, hc j ?_⟩) hb
      · simp [Chain.stages]; omega
      · simp [Chain.stages]; omega
    · rw [htm, hti]
      exact ⟨_, status, fut, hch1, h2, h3, rfl⟩

/-- When the last channel of the chain is closed, the items still to arrive are
those in the channel. -/
theorem flowAt_closed {T : GoType} {c : Chain Val Ctx T} {ys : List (StepResult Val)}
    (lc : LinearChain Val Ctx T c ys) {n : Net Val Ctx} {S : List (AnyStep Val Ctx)}
    {F : List (StepFunction Val Ctx)} {T1 : GoType} (hi : ChainInv S F T1 n) {ch : Chan Val}
    (hch : n.rt.chans[c.stages.length - 1]? = some ch) (hcl : ch.closed = true)
    {here : List (StepResult Val)} (hf : FlowAt lc n.rt here) : here = ch.buf := by
  have hlt : c.stages.length - 1 < n.rt.tasks.length := by
    rw [← hi.lens]
    by_contra hcon
    rw [List.getElem?_eq_none (Nat.le_of_not_lt hcon)] at hch
    cases hch
  have hti := List.getElem?_eq_getElem hlt
  obtain ⟨st, -, -, -, hcls⟩ := hi.chan _ _ _ hti hch
  have hdone : n.rt.tasks[c.stages.length - 1].isDone = true := by
    by_contra hnd
    simp only [hnd] at hcls
    simp [Chan.closed, hcls] at hcl
  cases lc with
  | source s xs0 cert =>
    simp only [Chain.stages, List.length_singleton, Nat.sub_self] at hti hch hdone
    simp only [FlowAt] at hf
    rw [hti] at hf
    obtain ⟨ch0, status, fut, h1, h2, h3, h4⟩ := hf
    rw [hch] at h1
    cases h1
    rw [h2] at hdone
    cases status with
    | running st => simp [Task.isDone, AnyStep.task] at hdone
    | returned e => simp [Task.isDone, AnyStep.task] at hdone
    | done =>
      simp only [EmitsCert.futureOf] at h3
      rw [h4, h3, List.append_nil]
  | append c0 ys0 lc0 s f cert =>
    simp only [Chain.stages, List.length_append, List.length_singleton,
      Nat.add_sub_cancel] at hti hch hdone
    simp only [FlowAt] at hf
    obtain ⟨below, hb, hlev⟩ := hf
    rw [hti] at hlev
    obtain ⟨ch0, status, fut, h1, h2, h3, h4⟩ := hlev
    rw [hch] at h1
    cases h1
    rw [h2] at hdone
    cases status with
    | running st => simp [Task.isDone, AnyStep.task] at hdone
    | returned e => simp [Task.isDone, AnyStep.task] at hdone
    | done =>
      simp only [ForwardsCert.futureOf] at h3
      rw [h4, h3, List.append_nil]

/-- What a step of goroutine `i` leaves as it is. -/
theorem TaskStep.footprint {T : GoType} {S : List (AnyStep Val Ctx)}
    {F : List (StepFunction Val Ctx)} {n n1 : Net Val Ctx} {i : Nat} {t : Task Val Ctx}
    (hi : ChainInv S F T n) (hti : n.rt.tasks[i]? = some t) (hs : TaskStep n i t n1) :
    (∀ j, j ≠ i → n1.rt.tasks[j]? = n.rt.tasks[j]?) ∧
    (∀ j, j ≠ i → j + 1 ≠ i → n1.rt.chans[j]? = n.rt.chans[j]?) ∧
    n1.drained = n.drained ∧ n1.cancelled = n.cancelled := by
  obtain ⟨hout, hin0⟩ := hi.output_eq hti
  cases hs with
  | close e c hst hc =>
    refine ⟨fun j hj => tasks_setTask_ne hj, fun j hj _ => ?_, rfl, rfl⟩
    simp only [Net.setStatus, Runtime.setTask, Runtime.setChan]
    exact List.getElem?_set_ne (by rw [hout]; exact fun h => hj h.symm)
  | ret s e hst hcode => exact ⟨fun j hj => tasks_setTask_ne hj, fun j _ _ => rfl, rfl, rfl⟩
  | withCtx s f hst hcode =>
    exact ⟨fun j hj => tasks_setTask_ne hj, fun j _ _ => rfl, rfl, rfl⟩
  | print s line k hst hcode =>
    exact ⟨fun j hj => tasks_setTask_ne hj, fun j _ _ => rfl, rfl, rfl⟩
  | recvItem s k ch c x xs hst hcode hin hc hbuf =>
    rw [hin0] at hin
    have := inputOf_eq_some.1 hin
    refine ⟨fun j hj => tasks_setTask_ne hj, fun j _ hj => ?_, rfl, rfl⟩
    simp only [Net.setStatus, Runtime.setTask, Runtime.setChan]
    exact List.getElem?_set_ne (by omega)
  | recvClosed s k ch c hst hcode hin hc hbuf hcl =>
    exact ⟨fun j hj => tasks_setTask_ne hj, fun j _ _ => rfl, rfl, rfl⟩
  | send s r k c hst hcode hc hcl hlen =>
    refine ⟨fun j hj => tasks_setTask_ne hj, fun j hj _ => ?_, rfl, rfl⟩
    simp only [Net.setStatus, Runtime.setTask, Runtime.setChan]
    exact List.getElem?_set_ne (by rw [hout]; exact fun h => hj h.symm)
  | ctxDone s r onDone onSent hst hcode hcan =>
    exact ⟨fun j hj => tasks_setTask_ne hj, fun j _ _ => rfl, rfl, rfl⟩

/-- `FlowAt` at a source whose goroutine exists. -/
theorem flowAt_source_intro {Out : GoType} (s : Step Val Ctx GoType.anyT Out)
    (xs : List (StepResult Val)) (cert : EmitsCert s xs) (rt1 : Runtime Val Ctx)
    (status : Status s.σ) (ch : Chan Val) (fut : List (StepResult Val))
    (ht : rt1.tasks[0]? = some (AnyStep.task { inT := _, outT := _, step := s } status 0))
    (hc : rt1.chans[0]? = some ch) (hfut : cert.futureOf status fut) :
    FlowAt (LinearChain.source s xs cert) rt1 (ch.buf ++ fut) := by
  simp only [FlowAt]
  rw [ht]
  exact ⟨ch, status, fut, hc, rfl, hfut, rfl⟩

/-- `FlowAt` at a linear transform whose goroutine exists. -/
theorem flowAt_append_intro {Cur New : GoType} (c : Chain Val Ctx Cur)
    (ys : List (StepResult Val)) (lc : LinearChain Val Ctx Cur c ys) (s : Step Val Ctx Cur New)
    (f : StepResult Val → StepResult Val) (cert : ForwardsCert s f) (rt1 : Runtime Val Ctx)
    (status : Status s.σ) (ch : Chan Val) (below fut : List (StepResult Val))
    (hb : FlowAt lc rt1 below)
    (ht : rt1.tasks[c.stages.length]? =
      some (AnyStep.task { inT := _, outT := _, step := s } status c.stages.length))
    (hc : rt1.chans[c.stages.length]? = some ch) (hfut : cert.futureOf status below fut) :
    FlowAt (LinearChain.append c ys lc s f cert) rt1 (ch.buf ++ fut) := by
  simp only [FlowAt]
  refine ⟨below, hb, ?_⟩
  rw [ht]
  exact ⟨ch, status, fut, hc, rfl, hfut, rfl⟩

/-- Looking up channel `a` after its change. -/
theorem chans_update_self {rt : Runtime Val Ctx} {i a : Nat} {t1 : Task Val Ctx}
    {c c1 : Chan Val} (hca : rt.chans[a]? = some c) :
    ((rt.setChan a c1).setTask i t1).chans[a]? = some c1 := by
  have hlt : a < rt.chans.length := by
    by_contra hc
    rw [List.getElem?_eq_none (Nat.le_of_not_lt hc)] at hca
    cases hca
  simp only [Runtime.setTask, Runtime.setChan]
  exact List.getElem?_set_self hlt

/-- Looking up another channel after the change of channel `a`. -/
theorem chans_update_ne {rt : Runtime Val Ctx} {i a j : Nat} {t1 : Task Val Ctx}
    {c1 : Chan Val} (h : a ≠ j) :
    ((rt.setChan a c1).setTask i t1).chans[j]? = rt.chans[j]? := by
  simp only [Runtime.setTask, Runtime.setChan]
  exact List.getElem?_set_ne h

/-- A step of the source goroutine keeps the items still to arrive, or, when a
`select` takes the `Done` case, leaves the first of them. -/
theorem flowAt_step_source {Out : GoType} (s : Step Val Ctx GoType.anyT Out)
    (xs : List (StepResult Val)) (cert : EmitsCert s xs) {T : GoType}
    {S : List (AnyStep Val Ctx)} {F : List (StepFunction Val Ctx)} {n n1 : Net Val Ctx}
    {t : Task Val Ctx} (_hi : ChainInv S F T n)
    (hti : n.rt.tasks[0]? = some t) (hs : TaskStep n 0 t n1) {here : List (StepResult Val)}
    (hf : FlowAt (LinearChain.source s xs cert) n.rt here) :
    ∃ here1, FlowAt (LinearChain.source s xs cert) n1.rt here1 ∧ List.IsPrefix here1 here ∧
      (n.cancelled = false → here1 = here) := by
  simp only [FlowAt] at hf
  rw [hti] at hf
  obtain ⟨ch, status, fut, hch, rfl, hfut, rfl⟩ := hf
  cases hs with
  | close e c hst hc =>
    have hc0 : n.rt.chans[0]? = some c := hc
    rw [hch] at hc0
    cases hc0
    have hst1 : status = Status.returned e := hst
    subst hst1
    refine ⟨_, ?_, List.prefix_refl _, fun _ => rfl⟩
    exact flowAt_source_intro s xs cert _ Status.done
      ⟨ch.elemType, ch.cap, ch.buf, ch.closes + 1⟩ fut (tasks_setTask_self hti)
      (chans_update_self (a := 0) hch) hfut
  | ret st e hst hcode =>
    have hst1 : status = Status.running st := hst
    rw [hst1] at hfut
    have := cert.step st fut hfut
    simp only [AnyStep.task] at hcode
    rw [hcode] at this
    refine ⟨_, ?_, List.prefix_refl _, fun _ => rfl⟩
    exact flowAt_source_intro s xs cert _ (Status.returned e) ch fut (tasks_setTask_self hti)
      hch this
  | withCtx st g hst hcode =>
    have hst1 : status = Status.running st := hst
    rw [hst1] at hfut
    have := cert.step st fut hfut
    simp only [AnyStep.task] at hcode
    rw [hcode] at this
    refine ⟨_, ?_, List.prefix_refl _, fun _ => rfl⟩
    exact flowAt_source_intro s xs cert _ (Status.running (g n.pipelineContext).2) ch fut
      (tasks_setTask_self hti) hch (this _)
  | print st line k hst hcode =>
    have hst1 : status = Status.running st := hst
    rw [hst1] at hfut
    have := cert.step st fut hfut
    simp only [AnyStep.task] at hcode
    rw [hcode] at this
    refine ⟨_, ?_, List.prefix_refl _, fun _ => rfl⟩
    exact flowAt_source_intro s xs cert _ (Status.running k) ch fut (tasks_setTask_self hti)
      hch this
  | recvItem st k ch1 c x xs1 hst hcode hin hc hbuf =>
    have hst1 : status = Status.running st := hst
    rw [hst1] at hfut
    have := cert.step st fut hfut
    simp only [AnyStep.task] at hcode
    rw [hcode] at this
    exact this.elim
  | recvClosed st k ch1 c hst hcode hin hc hbuf hcl =>
    have hst1 : status = Status.running st := hst
    rw [hst1] at hfut
    have := cert.step st fut hfut
    simp only [AnyStep.task] at hcode
    rw [hcode] at this
    exact this.elim
  | send st r k c hst hcode hc hcl hlen =>
    have hc0 : n.rt.chans[0]? = some c := hc
    rw [hch] at hc0
    cases hc0
    have hst1 : status = Status.running st := hst
    rw [hst1] at hfut
    have := cert.step st fut hfut
    simp only [AnyStep.task] at hcode
    have hnext : ∃ ys1, fut = r :: ys1 ∧ cert.rem k = some ys1 := by
      rcases hcode with hcode | ⟨d, hcode⟩
      · rw [hcode] at this
        exact this
      · rw [hcode] at this
        obtain ⟨ys1, h1, h2, -⟩ := this
        exact ⟨ys1, h1, h2⟩
    obtain ⟨ys1, rfl, hk⟩ := hnext
    refine ⟨_, ?_, List.prefix_refl _, fun _ => rfl⟩
    have e : ch.buf ++ r :: ys1 = (ch.buf ++ [r]) ++ ys1 := by simp
    rw [e]
    exact flowAt_source_intro s xs cert _ (Status.running k)
      ⟨ch.elemType, ch.cap, ch.buf ++ [r], ch.closes⟩ ys1
      (tasks_setTask_self hti) (chans_update_self (a := 0) hch) hk
  | ctxDone st r onDone onSent hst hcode hcan1 =>
    have hst1 : status = Status.running st := hst
    rw [hst1] at hfut
    have := cert.step st fut hfut
    simp only [AnyStep.task] at hcode
    rw [hcode] at this
    obtain ⟨ys1, rfl, -, hd⟩ := this
    refine ⟨ch.buf ++ [], ?_, ?_, ?_⟩
    · exact flowAt_source_intro s xs cert _ (Status.running onDone) ch []
        (tasks_setTask_self hti) hch hd
    · rw [List.append_nil]
      exact List.prefix_append _ _
    · intro h
      rw [hcan1] at h
      cases h

/-- A step of the goroutine of the last stage of a chain keeps the items still to
arrive after it, or, when a `select` takes the `Done` case, leaves the first of
them. -/
theorem flowAt_step_append {Cur New : GoType} (c : Chain Val Ctx Cur)
    (ys : List (StepResult Val)) (lc : LinearChain Val Ctx Cur c ys) (s : Step Val Ctx Cur New)
    (f : StepResult Val → StepResult Val) (cert : ForwardsCert s f) {T : GoType}
    {S : List (AnyStep Val Ctx)} {F : List (StepFunction Val Ctx)} {n n1 : Net Val Ctx}
    {t : Task Val Ctx} (hi : ChainInv S F T n)
    (hti : n.rt.tasks[c.stages.length]? = some t) (hs : TaskStep n c.stages.length t n1)
    {here : List (StepResult Val)}
    (hf : FlowAt (LinearChain.append c ys lc s f cert) n.rt here) :
    ∃ here1, FlowAt (LinearChain.append c ys lc s f cert) n1.rt here1 ∧
      List.IsPrefix here1 here ∧ (n.cancelled = false → here1 = here) := by
  simp only [FlowAt] at hf
  obtain ⟨below, hb, hlev⟩ := hf
  rw [hti] at hlev
  obtain ⟨ch, status, fut, hch, rfl, hfut, rfl⟩ := hlev
  have hin0 : inputOf c.stages.length = some (c.stages.length - 1) := by
    have hpos : 0 < c.stages.length := by
      cases c <;> simp [Chain.stages]
    exact inputOf_pos hpos
  cases hs with
  | close e c1 hst hc =>
    have hc0 : n.rt.chans[c.stages.length]? = some c1 := hc
    rw [hch] at hc0
    cases hc0
    have hst1 : status = Status.returned e := hst
    rw [hst1] at hfut
    refine ⟨_, ?_, List.prefix_refl _, fun _ => rfl⟩
    refine flowAt_append_intro c ys lc s f cert
      ((n.rt.setChan c.stages.length ⟨ch.elemType, ch.cap, ch.buf, ch.closes + 1⟩).setTask
        c.stages.length (AnyStep.task ⟨_, _, s⟩ Status.done c.stages.length))
      Status.done ⟨ch.elemType, ch.cap, ch.buf, ch.closes + 1⟩ below fut ?_
      (tasks_setTask_self hti) (chans_update_self (a := c.stages.length) hch) hfut
    refine flowAt_congr lc n.rt _ ?_ hb
    intro j hj
    exact ⟨tasks_setTask_ne (Nat.ne_of_lt hj), chans_update_ne (Nat.ne_of_gt hj)⟩
  | ret st e hst hcode =>
    have hst1 : status = Status.running st := hst
    rw [hst1] at hfut
    obtain ⟨b, h, hph, rfl⟩ := hfut
    have := cert.step st b h hph
    simp only [AnyStep.task] at hcode
    rw [hcode] at this
    obtain ⟨rfl, rfl⟩ := this
    refine ⟨ch.buf ++ [], ?_, by simp, fun _ => by simp⟩
    refine flowAt_append_intro c ys lc s f cert _ (Status.returned e) ch below []
      ?_ (tasks_setTask_self hti) hch rfl
    refine flowAt_congr lc n.rt _ ?_ hb
    intro j hj
    exact ⟨tasks_setTask_ne (Nat.ne_of_lt hj), rfl⟩
  | withCtx st g hst hcode =>
    have hst1 : status = Status.running st := hst
    rw [hst1] at hfut
    obtain ⟨b, h, hph, rfl⟩ := hfut
    have := cert.step st b h hph
    simp only [AnyStep.task] at hcode
    rw [hcode] at this
    refine ⟨_, ?_, List.prefix_refl _, fun _ => rfl⟩
    refine flowAt_append_intro c ys lc s f cert _
      (Status.running (g n.pipelineContext).2) ch below _ ?_ (tasks_setTask_self hti) hch
      ⟨b, h, this _, rfl⟩
    refine flowAt_congr lc n.rt _ ?_ hb
    intro j hj
    exact ⟨tasks_setTask_ne (Nat.ne_of_lt hj), rfl⟩
  | print st line k hst hcode =>
    have hst1 : status = Status.running st := hst
    rw [hst1] at hfut
    obtain ⟨b, h, hph, rfl⟩ := hfut
    have := cert.step st b h hph
    simp only [AnyStep.task] at hcode
    rw [hcode] at this
    refine ⟨_, ?_, List.prefix_refl _, fun _ => rfl⟩
    refine flowAt_append_intro c ys lc s f cert _ (Status.running k) ch below _ ?_
      (tasks_setTask_self hti) hch ⟨b, h, this, rfl⟩
    refine flowAt_congr lc n.rt _ ?_ hb
    intro j hj
    exact ⟨tasks_setTask_ne (Nat.ne_of_lt hj), rfl⟩
  | recvItem st k ch1 c1 x xs1 hst hcode hin hc hbuf =>
    have hst1 : status = Status.running st := hst
    rw [hst1] at hfut
    obtain ⟨b, h, hph, rfl⟩ := hfut
    have := cert.step st b h hph
    simp only [AnyStep.task] at hcode
    rw [hcode] at this
    obtain ⟨rfl, -, hnext⟩ := this
    have hin1 : inputOf c.stages.length = some ch1 := hin
    rw [hin0] at hin1
    cases hin1
    have hpos : 0 < c.stages.length := by
      cases c <;> simp [Chain.stages]
    have hlow : c.stages.length - 1 < n.rt.tasks.length := by
      have : c.stages.length < n.rt.tasks.length := by
        by_contra hcon
        rw [List.getElem?_eq_none (Nat.le_of_not_lt hcon)] at hti
        cases hti
      omega
    obtain ⟨below1, rfl, hb1⟩ := flowAt_pop lc n.rt
      ((n.rt.setChan (c.stages.length - 1) ⟨c1.elemType, c1.cap, xs1, c1.closes⟩).setTask
        c.stages.length (AnyStep.task ⟨_, _, s⟩ (Status.running (k (some x))) c.stages.length))
      (fun j hj => tasks_setTask_ne (Nat.ne_of_lt hj))
      (fun j hj => chans_update_ne (by omega))
      (List.getElem?_eq_getElem hlow) hc hbuf (chans_update_self hc) hb
    have e : ch.buf ++ ((if b = true then [] else [f x]) ++
        (if b = true then [] else below1.map f)) =
        ch.buf ++ ([] ++ (if b = true then [] else List.map f (x :: below1))) := by
      cases b <;> simp
    refine ⟨_, ?_, e ▸ List.prefix_refl _, fun _ => e⟩
    exact flowAt_append_intro c ys lc s f cert _ (Status.running (k (some x))) ch below1
      ((if b = true then [] else [f x]) ++ (if b = true then [] else below1.map f))
      hb1 (tasks_setTask_self hti)
      ((chans_update_ne (by omega)).trans hch) ⟨b, _, hnext x, rfl⟩
  | recvClosed st k ch1 c1 hst hcode hin hc hbuf hcl =>
    have hst1 : status = Status.running st := hst
    rw [hst1] at hfut
    obtain ⟨b, h, hph, rfl⟩ := hfut
    have := cert.step st b h hph
    simp only [AnyStep.task] at hcode
    rw [hcode] at this
    obtain ⟨rfl, hnone, -⟩ := this
    have hin1 : inputOf c.stages.length = some ch1 := hin
    rw [hin0] at hin1
    cases hin1
    have hbel := flowAt_closed lc hi hc hcl hb
    rw [hbuf] at hbel
    subst hbel
    have e : ch.buf ++ ([] ++ (if true = true then [] else List.map f [])) =
        ch.buf ++ ([] ++ (if b = true then [] else List.map f [])) := by
      cases b <;> simp
    refine ⟨_, ?_, e ▸ List.prefix_refl _, fun _ => e⟩
    refine flowAt_append_intro c ys lc s f cert _ (Status.running (k none)) ch
      [] ([] ++ (if true = true then [] else List.map f [])) ?_ (tasks_setTask_self hti) hch
      ⟨true, [], hnone, rfl⟩
    refine flowAt_congr lc n.rt _ ?_ hb
    intro j hj
    exact ⟨tasks_setTask_ne (Nat.ne_of_lt hj), rfl⟩
  | send st r k c1 hst hcode hc hcl hlen =>
    have hc0 : n.rt.chans[c.stages.length]? = some c1 := hc
    rw [hch] at hc0
    cases hc0
    have hst1 : status = Status.running st := hst
    rw [hst1] at hfut
    obtain ⟨b, h, hph, rfl⟩ := hfut
    have := cert.step st b h hph
    simp only [AnyStep.task] at hcode
    have hnext : ∃ h1, h = r :: h1 ∧ cert.phase k = some (b, h1) := by
      rcases hcode with hcode | ⟨d, hcode⟩
      · rw [hcode] at this
        exact this
      · rw [hcode] at this
        obtain ⟨h1, e1, e2, -⟩ := this
        exact ⟨h1, e1, e2⟩
    obtain ⟨h1, rfl, hk⟩ := hnext
    have e : (ch.buf ++ [r]) ++ (h1 ++ (if b = true then [] else List.map f below)) =
        ch.buf ++ (r :: h1 ++ (if b = true then [] else List.map f below)) := by simp
    refine ⟨_, ?_, e ▸ List.prefix_refl _, fun _ => e⟩
    refine flowAt_append_intro c ys lc s f cert
      ((n.rt.setChan c.stages.length ⟨ch.elemType, ch.cap, ch.buf ++ [r], ch.closes⟩).setTask
        c.stages.length (AnyStep.task ⟨_, _, s⟩ (Status.running k) c.stages.length))
      (Status.running k) ⟨ch.elemType, ch.cap, ch.buf ++ [r], ch.closes⟩ below
      (h1 ++ (if b = true then [] else List.map f below)) ?_
      (tasks_setTask_self hti) (chans_update_self (a := c.stages.length) hch)
      ⟨b, h1, hk, rfl⟩
    refine flowAt_congr lc n.rt _ ?_ hb
    intro j hj
    exact ⟨tasks_setTask_ne (Nat.ne_of_lt hj), chans_update_ne (Nat.ne_of_gt hj)⟩
  | ctxDone st r onDone onSent hst hcode hcan1 =>
    have hst1 : status = Status.running st := hst
    rw [hst1] at hfut
    obtain ⟨b, h, hph, rfl⟩ := hfut
    have := cert.step st b h hph
    simp only [AnyStep.task] at hcode
    rw [hcode] at this
    obtain ⟨h1, rfl, -, hd⟩ := this
    refine ⟨ch.buf ++ ([] ++ (if true = true then [] else List.map f below)), ?_, ?_, ?_⟩
    · refine flowAt_append_intro c ys lc s f cert _ (Status.running onDone) ch below _ ?_
        (tasks_setTask_self hti) hch ⟨true, [], hd, rfl⟩
      refine flowAt_congr lc n.rt _ ?_ hb
      intro j hj
      exact ⟨tasks_setTask_ne (Nat.ne_of_lt hj), rfl⟩
    · simp only [if_true, List.nil_append, List.append_nil]
      exact List.prefix_append _ _
    · intro h
      rw [hcan1] at h
      cases h

/-- With fewer items still to arrive on its input, a linear transform has fewer
items left to send, the first of those it had. -/
theorem ForwardsCert.futureOf_mono {In Out : GoType} {s : Step Val Ctx In Out}
    {f : StepResult Val → StepResult Val} (cert : ForwardsCert s f) (status : Status s.σ)
    {below below1 fut : List (StepResult Val)} (hp : List.IsPrefix below1 below)
    (h : cert.futureOf status below fut) :
    ∃ fut1, cert.futureOf status below1 fut1 ∧ List.IsPrefix fut1 fut ∧
      (below1 = below → fut1 = fut) := by
  cases status with
  | running st =>
    obtain ⟨b, h0, hph, rfl⟩ := h
    refine ⟨h0 ++ (if b = true then [] else below1.map f), ⟨b, h0, hph, rfl⟩, ?_, ?_⟩
    · cases b with
      | true => exact List.prefix_refl _
      | false => exact (List.prefix_append_right_inj h0).2 (hp.map f)
    · intro e
      rw [e]
  | returned e => exact ⟨fut, h, List.prefix_refl _, fun _ => rfl⟩
  | done => exact ⟨fut, h, List.prefix_refl _, fun _ => rfl⟩

/-- A step of any goroutine of the chain keeps the items still to arrive, or,
when a `select` takes the `Done` case, leaves the first of them. -/
theorem flowAt_taskStep {T : GoType} {c : Chain Val Ctx T} {ys : List (StepResult Val)}
    (lc : LinearChain Val Ctx T c ys) {T1 : GoType} {S : List (AnyStep Val Ctx)}
    {F : List (StepFunction Val Ctx)} {n n1 : Net Val Ctx} {i : Nat} {t : Task Val Ctx}
    (hi : ChainInv S F T1 n) (hti : n.rt.tasks[i]? = some t)
    (hs : TaskStep n i t n1) (hlt : i < c.stages.length) {here : List (StepResult Val)}
    (hf : FlowAt lc n.rt here) :
    ∃ here1, FlowAt lc n1.rt here1 ∧ List.IsPrefix here1 here ∧
      (n.cancelled = false → here1 = here) := by
  induction lc generalizing here with
  | source s xs cert =>
    have h0 : i = 0 := by simpa [Chain.stages] using hlt
    subst h0
    exact flowAt_step_source s xs cert hi hti hs hf
  | append c0 ys0 lc0 s f cert ih =>
    by_cases him : i = c0.stages.length
    · subst him
      exact flowAt_step_append c0 ys0 lc0 s f cert hi hti hs hf
    · have hlt1 : i < c0.stages.length := by
        simp only [Chain.stages, List.length_append, List.length_singleton] at hlt
        omega
      obtain ⟨hft, hfc, -, -⟩ := TaskStep.footprint hi hti hs
      have htm := hft c0.stages.length (by omega)
      have hcm := hfc c0.stages.length (by omega) (by omega)
      simp only [FlowAt] at hf
      obtain ⟨below, hb, hlev⟩ := hf
      obtain ⟨below1, hb1, hp, heq⟩ := ih hlt1 hb
      cases htk : n.rt.tasks[c0.stages.length]? with
      | none =>
        rw [htk] at hlev
        subst hlev
        refine ⟨below1.map f, ?_, hp.map f, fun h => by rw [heq h]⟩
        simp only [FlowAt]
        refine ⟨below1, hb1, ?_⟩
        rw [htm, htk]
      | some tk =>
        rw [htk] at hlev
        obtain ⟨ch, status, fut, hch, hteq, hfut, rfl⟩ := hlev
        obtain ⟨fut1, hfut1, hp1, heq1⟩ := cert.futureOf_mono status hp hfut
        refine ⟨ch.buf ++ fut1, ?_, (List.prefix_append_right_inj _).2 hp1,
          fun h => by rw [heq1 (heq h)]⟩
        simp only [FlowAt]
        refine ⟨below1, hb1, ?_⟩
        rw [htm, htk]
        exact ⟨ch, status, fut1, hcm.trans hch, hteq, hfut1, rfl⟩

/-- Before any goroutine is started, the items still to arrive are all the items
the chain delivers. -/
theorem flowAt_init {T : GoType} {c : Chain Val Ctx T} {ys : List (StepResult Val)}
    (lc : LinearChain Val Ctx T c ys) : FlowAt lc { chans := [], tasks := [] } ys := by
  induction lc with
  | source s xs cert => simp [FlowAt]
  | append c0 ys0 lc0 s f cert ih =>
    simp only [FlowAt]
    exact ⟨ys0, ih, by simp⟩

/-- Starting the next goroutine of the chain, on a fresh channel, keeps the items
still to arrive. -/
theorem flowAt_spawn {T : GoType} {c : Chain Val Ctx T} {ys : List (StepResult Val)}
    (lc : LinearChain Val Ctx T c ys) {rt : Runtime Val Ctx}
    (hlen : rt.chans.length = rt.tasks.length) (newc : Chan Val) (newt : Task Val Ctx)
    (hbuf : newc.buf = [])
    (hnew : ∀ st : AnyStep Val Ctx, c.stages[rt.tasks.length]? = some st →
      newt = st.task (Status.running st.step.init) rt.tasks.length)
    {here : List (StepResult Val)} (hf : FlowAt lc rt here) :
    FlowAt lc { chans := rt.chans ++ [newc], tasks := rt.tasks ++ [newt] } here := by
  induction lc generalizing here with
  | source s xs cert =>
    by_cases hk : 0 < rt.tasks.length
    · simp only [FlowAt] at hf ⊢
      rw [List.getElem?_append_left hk, List.getElem?_append_left (by rw [hlen]; exact hk)]
      exact hf
    · have hk0 : rt.tasks.length = 0 := by omega
      have ht0 : rt.tasks = [] := List.length_eq_zero.1 hk0
      have hc0 : rt.chans = [] := List.length_eq_zero.1 (hlen.trans hk0)
      have hnt := hnew { inT := _, outT := _, step := s } (by simp [Chain.stages, hk0])
      rw [hk0] at hnt
      simp only [FlowAt, ht0, List.getElem?_nil] at hf
      have e : here = newc.buf ++ xs := by rw [hbuf, hf]; rfl
      rw [e]
      refine flowAt_source_intro s xs cert _ (Status.running s.init) newc xs ?_ ?_ cert.init
      · show (rt.tasks ++ [newt])[0]? = _
        rw [ht0, hnt]
        rfl
      · show (rt.chans ++ [newc])[0]? = _
        rw [hc0]
        rfl
  | append c0 ys0 lc0 s f cert ih =>
    simp only [FlowAt] at hf
    obtain ⟨below, hb, hlev⟩ := hf
    have hb1 := ih (fun st h => hnew st (by
      have hlt : rt.tasks.length < c0.stages.length := by
        by_contra hc
        rw [List.getElem?_eq_none (Nat.le_of_not_lt hc)] at h
        cases h
      simp only [Chain.stages]
      rw [List.getElem?_append_left hlt]
      exact h)) hb
    rcases Nat.lt_trichotomy rt.tasks.length c0.stages.length with hk | hk | hk
    · have h1 : rt.tasks[c0.stages.length]? = none :=
        List.getElem?_eq_none (Nat.le_of_lt hk)
      rw [h1] at hlev
      simp only [FlowAt]
      refine ⟨below, hb1, ?_⟩
      have h2 : (rt.tasks ++ [newt])[c0.stages.length]? = none :=
        List.getElem?_eq_none (by simp; omega)
      rw [h2]
      exact hlev
    · have h1 : rt.tasks[c0.stages.length]? = none :=
        List.getElem?_eq_none (Nat.le_of_eq hk)
      rw [h1] at hlev
      have hnt := hnew { inT := _, outT := _, step := s } (by simp [Chain.stages, hk])
      have e : here = newc.buf ++ ([] ++ (if false = true then [] else below.map f)) := by
        rw [hbuf, hlev]
        simp
      rw [e]
      refine flowAt_append_intro c0 ys0 lc0 s f cert _ (Status.running s.init) newc below
        ([] ++ (if false = true then [] else below.map f)) hb1 ?_ ?_
        ⟨false, [], cert.init, rfl⟩
      · show (rt.tasks ++ [newt])[c0.stages.length]? = _
        rw [← hk, List.getElem?_append_right (Nat.le_refl _), Nat.sub_self, hnt]
        rfl
      · show (rt.chans ++ [newc])[c0.stages.length]? = _
        rw [← hk, ← hlen, List.getElem?_append_right (Nat.le_refl _), Nat.sub_self]
        rfl
    · simp only [FlowAt]
      refine ⟨below, hb1, ?_⟩
      rw [List.getElem?_append_left hk, List.getElem?_append_left (by rw [hlen]; exact hk)]
      exact hlev

/-- The flow invariant is kept by every event. -/
theorem flowInv_step {T : GoType} {c : Chain Val Ctx T} {ys : List (StepResult Val)}
    (lc : LinearChain Val Ctx T c ys) {n n1 : Net Val Ctx} {e : Event}
    (hi : ChainInv c.stages c.builder.stepFunctions T n) (hfi : FlowInv lc n)
    (hs : n.step e = some n1) : FlowInv lc n1 := by
  have hw := c.wellTyped
  obtain ⟨here, hf, hp, he⟩ := hfi
  cases e with
  | cancel =>
    simp only [Net.step] at hs
    split at hs
    · cases hs
    · cases hs
      exact ⟨here, hf, hp, fun h => by cases h⟩
  | task i d =>
    obtain ⟨t, hti, hts⟩ := Net.stepTask_inv hs
    obtain ⟨-, -, hdr, hcan1⟩ := TaskStep.footprint hi hti hts
    have hlt : i < c.stages.length := by
      have : i < n.rt.tasks.length := by
        by_contra hc
        rw [List.getElem?_eq_none (Nat.le_of_not_lt hc)] at hti
        cases hti
      exact Nat.lt_of_lt_of_le this hi.le
    obtain ⟨here1, hf1, hp1, he1⟩ := flowAt_taskStep lc hi hti hts hlt hf
    refine ⟨here1, hf1, ?_, ?_⟩
    · rw [hdr]
      exact ((List.prefix_append_right_inj n.drained).2 hp1).trans hp
    · intro hc
      rw [hcan1] at hc
      rw [hdr, he1 hc]
      exact he hc
  | main =>
    simp only [Net.step] at hs
    have hmain := hi.main
    unfold Net.stepMain at hs
    split at hs
    · rename_i f rest cur hm
      rw [hm] at hmain
      obtain ⟨hrest, hcur⟩ := hmain
      obtain ⟨-, st, hS, had⟩ := hw.next hrest
      dsimp only at hs
      rw [hcur, had n.rt] at hs
      simp only [AnyStep.spawn] at hs
      cases hs
      refine ⟨here, ?_, hp, he⟩
      refine flowAt_spawn lc hi.lens _ _ rfl ?_ hf
      intro st1 h1
      rw [hS] at h1
      cases h1
      simp [AnyStep.task, Runtime.makeChan, hi.lens]
    · split at hs
      · split at hs
        · cases hs
          exact ⟨here, hf, hp, he⟩
        · cases hs
          exact ⟨here, hf, hp, he⟩
      · cases hs
        exact ⟨here, hf, hp, he⟩
    · rename_i ch hm
      rw [hm] at hmain
      obtain ⟨hlen, hch⟩ := hmain
      split at hs
      · cases hs
      · rename_i c0 hc
        split at hs
        · rename_i x xs hbuf
          cases hs
          have hpos := hw.pos
          have hch1 : ch = c.stages.length - 1 := by omega
          subst hch1
          have hlt : c.stages.length - 1 < n.rt.tasks.length := by omega
          obtain ⟨here1, rfl, hf1⟩ := flowAt_pop lc n.rt
            (n.rt.setChan (c.stages.length - 1) ⟨c0.elemType, c0.cap, xs, c0.closes⟩)
            (fun j _ => rfl) (fun j hj => List.getElem?_set_ne (by omega))
            (List.getElem?_eq_getElem hlt) hc hbuf
            (List.getElem?_set_self (by rw [hi.lens]; exact hlt)) hf
          refine ⟨here1, hf1, ?_, ?_⟩
          · simpa using hp
          · intro hcan
            simpa using he hcan
        · split at hs
          · cases hs
            exact ⟨here, hf, hp, he⟩
          · cases hs
    · cases hs

/-- The flow invariant holds throughout every execution of a linear chain. -/
theorem Chain.flowInv {T : GoType} {c : Chain Val Ctx T} {ys : List (StepResult Val)}
    (lc : LinearChain Val Ctx T c ys) (ctx : Ctx) {n : Net Val Ctx}
    (hr : (c.builder.Build.Execute ctx).Reaches n) : FlowInv lc n := by
  have h : ChainInv c.stages c.builder.stepFunctions T n ∧ FlowInv lc n := by
    refine Net.Reaches.induction
      (P := fun m => ChainInv c.stages c.builder.stepFunctions T m ∧ FlowInv lc m)
      hr ⟨chainInv_init _ _ ctx, ?_⟩ ?_
    · exact ⟨ys, flowAt_init lc, List.prefix_refl _, fun _ => rfl⟩
    · intro m e m1 hm hs
      exact ⟨chainInv_step c.wellTyped hm.1 hs, flowInv_step lc hm.1 hm.2 hs⟩
  exact h.2

/-- In an execution of a linear chain, the items the drain loop has read are the
first items of the sequence the chain delivers, and all of it once `Execute` has
returned with the context not cancelled. -/
theorem Chain.drained {T : GoType} {c : Chain Val Ctx T} {ys : List (StepResult Val)}
    (lc : LinearChain Val Ctx T c ys) (ctx : Ctx) {n : Net Val Ctx}
    (hr : (c.builder.Build.Execute ctx).Reaches n) :
    (∃ rest, n.drained ++ rest = ys) ∧
    (n.cancelled = false → ∀ e, n.main = Main.returned e → n.drained = ys) := by
  obtain ⟨here, hf, hp, hey⟩ := Chain.flowInv lc ctx hr
  refine ⟨(List.prefix_append n.drained here).trans hp, ?_⟩
  intro hcan e hm
  obtain ⟨ch, hch, hbuf, hcl⟩ := c.finalDrained ctx hr e hm
  have := flowAt_closed lc (c.inv ctx hr) hch hcl hf
  rw [hbuf] at this
  rw [← hey hcan, this, List.append_nil]

/-- The sequence a linear chain delivers is the sequence its source emits, mapped
through the composition of the per-item functions. -/
theorem LinearChain.delivers {T : GoType} {c : Chain Val Ctx T} {ys : List (StepResult Val)}
    (lc : LinearChain Val Ctx T c ys) : ys = lc.emitted.map lc.transform := by
  induction lc with
  | source s xs cert => simp [LinearChain.emitted, LinearChain.transform]
  | append c0 ys0 lc0 s f cert ih =>
    conv_lhs => rw [ih]
    simp [LinearChain.emitted, LinearChain.transform, List.map_map]

/-- What is inevitable stays so with what follows from it in the states of the
execution. -/
theorem Inevitably.of_reaches {P Q : Net Val Ctx → Prop} {n0 n : Net Val Ctx}
    (hq : ∀ m, n0.Reaches m → P m → Q m) (hr : n0.Reaches n) (h : Inevitably P n) :
    Inevitably Q n := by
  induction h with
  | now hp => exact Inevitably.now (hq _ hr hp)
  | later hex _ ih => exact Inevitably.later hex (fun e n1 hs => ih e n1 hs (hr.step e hs))

/-- The test source `entriesSource` returns. -/
theorem entriesSource_halts (entries rest : List DirEntry)
    (inp : Option (List (StepResult GoValue))) :
    HaltsOn (entriesSource entries).Process inp (EntriesPc.emit rest) := by
  induction rest with
  | nil => exact HaltsOn.ret inp _ none rfl
  | cons entry rest ih =>
    exact HaltsOn.selectSend inp _ _ _ _ rfl (HaltsOn.ret inp EntriesPc.cancelled _ rfl) ih

/-- The stages of `printTwo` return. -/
theorem printTwo_halts : StagesHalt printTwo.stages := by
  intro j st hst
  simp only [printTwo, Chain.stages, List.cons_append, List.nil_append] at hst
  match j, hst with
  | 0, hst =>
    simp only [List.getElem?_cons_zero, Option.some.injEq] at hst
    subst hst
    exact ⟨fun _ => entriesSource_halts _ _ _, fun h => absurd h (Nat.lt_irrefl 0)⟩
  | 1, hst =>
    simp only [List.getElem?_cons_succ, List.getElem?_cons_zero, Option.some.injEq] at hst
    subst hst
    exact ⟨fun h => absurd h (by decide), fun _ xs => printFiles_halts xs⟩
  | j + 2, hst => simp at hst

/-- C7 as stated fails when the context is cancelled.  In the pipeline of a
source of the entries `a.txt` and `b.log` followed by `PrintFilesStep`, on the
schedule `printTwoCancelled` the source emits both entries and returns nil, the
context is cancelled while `PrintFilesStep` holds `a.txt`, its `select` takes the
`Done` case, and `Execute` returns nil with nothing drained, though the sequence
the chain delivers is the two names. -/
theorem C7_counterexample_cancelled_run_loses_items :
    (printTwo.builder.Build.Execute lsContext).Reaches
      ((printTwo.builder.Build.Execute lsContext).runD printTwoCancelled) ∧
    ((printTwo.builder.Build.Execute lsContext).runD printTwoCancelled).main =
      Main.returned none ∧
    ((printTwo.builder.Build.Execute lsContext).runD printTwoCancelled).cancelled = true ∧
    (((printTwo.builder.Build.Execute lsContext).runD printTwoCancelled).rt.tasks[0]?).map
      Task.isDone = some true ∧
    ((printTwo.builder.Build.Execute lsContext).runD printTwoCancelled).stdout = ["a.txt"] ∧
    ((printTwo.builder.Build.Execute lsContext).runD printTwoCancelled).drained = [] ∧
    printTwoLinear.emitted.map printTwoLinear.transform =
      [ToStepResult (GoValue.str "a.txt"), ToStepResult (GoValue.str "b.log")] :=
  ⟨⟨printTwoCancelled, rfl⟩, rfl, rfl, rfl, rfl, rfl, rfl⟩

/-- C7, as the code has it: a source's items reach the final drain in the order
the source emitted them, and all of them unless the context is cancelled.  The
channels are FIFO sequences.  For a pipeline whose source emits the sequence
`lc.emitted` and whose other stages are linear transforms (each, like
`PrintFilesStep`, forwards one output per input, in arrival order) with per-item
functions composing to `lc.transform`, in every execution, cancelled or not: at
every moment the items the drain loop of `Execute` has read are the first items
of `map lc.transform lc.emitted`, in that order, so that no item is duplicated or
reordered; once `Execute` has returned with the context not cancelled they are
exactly that sequence, nothing lost; and when the stages return once their input
is exhausted, on every schedule `Execute` does return nil, with the first items
of that sequence drained, and all of it unless the context was cancelled. -/
theorem C7_items_reach_drain_in_order {T : GoType} {c : Chain Val Ctx T}
    {ys : List (StepResult Val)} (lc : LinearChain Val Ctx T c ys) (ctx : Ctx)
    (n : Net Val Ctx) (hr : (c.builder.Build.Execute ctx).Reaches n) :
    (∃ rest, n.drained ++ rest = lc.emitted.map lc.transform) ∧
    (n.cancelled = false → ∀ e, n.main = Main.returned e →
      n.drained = lc.emitted.map lc.transform) ∧
    (StagesHalt c.stages →
      Inevitably (fun m => m.main = Main.returned none ∧
          (∃ rest, m.drained ++ rest = lc.emitted.map lc.transform) ∧
          (m.cancelled = false → m.drained = lc.emitted.map lc.transform))
        (c.builder.Build.Execute ctx)) := by
  have hd := lc.delivers
  obtain ⟨⟨rest, h1⟩, h2⟩ := Chain.drained lc ctx hr
  refine ⟨⟨rest, h1.trans hd⟩, fun hcan e hm => (h2 hcan e hm).trans hd, fun hH => ?_⟩
  refine Inevitably.of_reaches ?_ (Net.Reaches.refl _) (c.inevitably hH ctx)
  intro m hm hp
  obtain ⟨⟨rest1, h3⟩, h4⟩ := Chain.drained lc ctx hm
  exact ⟨hp, ⟨rest1, h3.trans hd⟩, fun hc => (h4 hc none hp).trans hd⟩

/-- C7 at a source of the entries `a.txt` and `b.log` followed by
`PrintFilesStep`, on the schedule `printTwoRun`: the context is not cancelled,
`Execute` has returned nil and the drain loop has read the two names in order. -/
theorem C7_items_reach_drain_in_order_witness :
    (printTwo.builder.Build.Execute lsContext).Reaches
      ((printTwo.builder.Build.Execute lsContext).runD printTwoRun) ∧
    ((printTwo.builder.Build.Execute lsContext).runD printTwoRun).cancelled = false ∧
    ((printTwo.builder.Build.Execute lsContext).runD printTwoRun).main = Main.returned none ∧
    ((printTwo.builder.Build.Execute lsContext).runD printTwoRun).drained =
      [ToStepResult (GoValue.str "a.txt"), ToStepResult (GoValue.str "b.log")] ∧
    ((printTwo.builder.Build.Execute lsContext).runD printTwoRun).drained =
      printTwoLinear.emitted.map printTwoLinear.transform :=
  ⟨⟨printTwoRun, rfl⟩, rfl, rfl, rfl,
    (C7_items_reach_drain_in_order printTwoLinear lsContext
      ((printTwo.builder.Build.Execute lsContext).runD printTwoRun)
      ⟨printTwoRun, rfl⟩).2.1 rfl none rfl⟩

/-- C1 as stated fails in its Hello World part when the context is cancelled
before `HelloWorld` sends: on the schedule `helloCancelledRun` the `select` of
`HelloWorld.Process` takes the `Done` case, and `Execute` returns nil with no
item drained. -/
theorem C1_counterexample_cancelled_before_send :
    (helloWorldChain.builder.Build.Execute testContext).Reaches
      ((helloWorldChain.builder.Build.Execute testContext).runD helloCancelledRun) ∧
    ((helloWorldChain.builder.Build.Execute testContext).runD helloCancelledRun).main =
      Main.returned none ∧
    ((helloWorldChain.builder.Build.Execute testContext).runD helloCancelledRun).cancelled =
      true ∧
    ((helloWorldChain.builder.Build.Execute testContext).runD helloCancelledRun).drained = [] :=
  ⟨⟨helloCancelledRun, rfl⟩, rfl, rfl, rfl⟩

/-- C1, as the code has it: for every pipeline built by
`NewPipelineBuilder(source)`, any number of `AppendStep` calls and `Build`, if
every stage's `Process` returns once its input is exhausted, then on every
schedule (whatever the interleaving of the goroutines, and whether or not the
context is cancelled) `Execute` returns, and what it returns is nil; and
`Execute` never returns a non-nil error.  In particular the pipeline of
`TestSingleStepHelloWorld` returns nil on every schedule; the drain loop never
reads anything but the one item `Hi, World!`, once; and when `Execute` has
returned, the drain loop has read exactly that item, or the context is cancelled
and it has read none. -/
theorem C1_execute_returns_nil {T : GoType} (c : Chain Val Ctx T) (ctx : Ctx)
    (hH : StagesHalt c.stages) :
    Inevitably (fun n => n.main = Main.returned none) (c.builder.Build.Execute ctx) ∧
    (∀ n, (c.builder.Build.Execute ctx).Reaches n → ∀ e, n.main = Main.returned e → e = none) ∧
    (∀ (tc : TestContext) (n : Net GoValue TestContext),
      (helloWorldChain.builder.Build.Execute tc).Reaches n →
      n.drained = [] ∨ n.drained = [ToStepResult (GoValue.str "Hi, World!")]) ∧
    (∀ tc : TestContext,
      Inevitably (fun n => n.main = Main.returned none ∧
          (n.drained = [ToStepResult (GoValue.str "Hi, World!")] ∨
            (n.cancelled = true ∧ n.drained = [])))
        (helloWorldChain.builder.Build.Execute tc)) := by
  have hpre : ∀ (tc : TestContext) (n : Net GoValue TestContext),
      (helloWorldChain.builder.Build.Execute tc).Reaches n →
      n.drained = [] ∨ n.drained = [ToStepResult (GoValue.str "Hi, World!")] := by
    intro tc n hr
    obtain ⟨rest, h⟩ := (Chain.drained helloWorldLinear tc hr).1
    cases hdr : n.drained with
    | nil => exact Or.inl rfl
    | cons x xs =>
      rw [hdr] at h
      simp only [List.cons_append, List.cons.injEq, List.append_eq_nil] at h
      obtain ⟨h1, h2, -⟩ := h
      right
      rw [h1, h2]
      rfl
  refine ⟨c.inevitably hH ctx, ?_, hpre, ?_⟩
  · intro n hr e hm
    have hmain := (c.inv ctx hr).main
    rw [hm] at hmain
    exact hmain.2
  · intro tc
    refine Inevitably.of_reaches ?_ (Net.Reaches.refl _)
      (helloWorldChain.inevitably helloWorldChain_halts tc)
    intro m hm hp
    refine ⟨hp, ?_⟩
    cases hcan : m.cancelled with
    | false => exact Or.inl ((Chain.drained helloWorldLinear tc hm).2 hcan none hp)
    | true =>
      rcases hpre tc m hm with h | h
      · exact Or.inr ⟨rfl, h⟩
      · exact Or.inl h

/-- C1 at the pipeline of `TestSingleStepHelloWorld`: its stage returns, so
`Execute` returns nil on every schedule; on the schedule `helloRun` it has
returned nil and the drain loop has read the one item `Hi, World!`. -/
theorem C1_execute_returns_nil_witness :
    StagesHalt helloWorldChain.stages ∧
    Inevitably (fun n => n.main = Main.returned none)
      (helloWorldChain.builder.Build.Execute testContext) ∧
    ((helloWorldChain.builder.Build.Execute testContext).runD helloRun).main =
      Main.returned none ∧
    ((helloWorldChain.builder.Build.Execute testContext).runD helloRun).drained =
      [ToStepResult (GoValue.str "Hi, World!")] :=
  ⟨helloWorldChain_halts,
    (C1_execute_returns_nil helloWorldChain testContext helloWorldChain_halts).1, rfl, rfl⟩

end Flow

end PipelineGo
